import Mathlib

/-!
Verification of the `llm_json_utils` JSON repair engine against its design
specification. The repository ships only the Python test-suite and a
reproduction script for the engine; the engine itself (tokenizer, repair
parser, boundary extractor, schema-guided extractor) is therefore modelled
from the specification, definition by definition, and the testable
properties are settled against that model. Byte inputs in the tests are
ASCII; they are modelled as the corresponding strings (the spec decodes
byte input permissively, which is the identity on ASCII).
-/

namespace LlmJsonUtils

/-! ## Data model -/

/-- Modelled from the spec: a parsed number is integer-or-float. A float is
kept exactly as a decimal mantissa over a power of ten (`dec m e` denotes
`m / 10 ^ e`), held normalized (no trailing zero digits in `m` while
`e > 0`), since IEEE rounding is immaterial to the observed behaviour; the
identifiers `NaN`, `Infinity` and `-Infinity` map to the corresponding
special floating values. -/
inductive JNum where
  | int (i : Int)
  | dec (m : Int) (e : Nat)
  | nan
  | inf (neg : Bool)
deriving DecidableEq

/-- Modelled from the spec: the value model. Objects are ordered mappings
with unique keys, insertion order preserved, last-write-wins on duplicate
keys during construction. -/
inductive Value where
  | null
  | bool (b : Bool)
  | num (n : JNum)
  | str (s : String)
  | arr (xs : List Value)
  | obj (kvs : List (String × Value))

/-! ## Error taxonomy -/

/-- Modelled from the spec: lexer failure, raised only when input ends
inside an unterminated string or block comment. -/
inductive LexError where
  | untermString
  | untermComment
deriving DecidableEq

/-- Modelled from the spec: parser failure, raised when no value-shaped
token is found where a value is mandatory, when the key or colon of an
object member is missing, or when the nesting-depth budget is exceeded. -/
inductive StructuralError where
  | noValue
  | expectedKey
  | expectedColon
  | depthExceeded
deriving DecidableEq

/-- Modelled from the spec: the error carried by a failing `repair_json`
call, wrapping the lexer or parser detail. -/
inductive RepairError where
  | lex (e : LexError)
  | structural (e : StructuralError)
deriving DecidableEq

/-! ## Character classes -/

def lbraceC : Char := '\x7b'

def rbraceC : Char := '\x7d'

def squoteC : Char := Char.ofNat 39

def isWsChar (c : Char) : Bool :=
  c = ' ' || c = '\n' || c = '\t' || c = '\r'

def isStructChar (c : Char) : Bool :=
  c = lbraceC || c = rbraceC || c = '[' || c = ']' || c = ':' || c = ','

def isDigitChar (c : Char) : Bool :=
  '0' ≤ c && c ≤ '9'

def isQuoteChar (c : Char) : Bool :=
  c = '"' || c = squoteC

def isIdentChar (c : Char) : Bool :=
  !(isWsChar c) && !(isStructChar c) && !(isQuoteChar c) && !(c = '/')

def hexVal (c : Char) : Option Nat :=
  if '0' ≤ c && c ≤ '9' then some (c.toNat - 48)
  else if 'a' ≤ c && c ≤ 'f' then some (c.toNat - 87)
  else if 'A' ≤ c && c ≤ 'F' then some (c.toNat - 55)
  else none

/-! ## Tokens -/

/-- Modelled from the spec: the token variant. A string literal carries the
decoded content plus a flag noting whether any unknown escape was preserved
verbatim; as further lexing observations it also records the quote
delimiter used and whether a raw control character appeared in the literal.
A number literal carries the raw lexeme plus the parsed numeric value.
Comments are emitted as tokens and discarded after lexing. -/
inductive Token where
  | lbrace
  | rbrace
  | lbrack
  | rbrack
  | colon
  | comma
  | str (s : String) (unknownEsc : Bool) (quote : Char) (rawCtl : Bool)
  | num (raw : String) (n : JNum)
  | ident (w : String)
  | comment
  | eoi
deriving DecidableEq

def Token.isComment : Token → Bool
  | .comment => true
  | _ => false

/-! ## String literal decoding -/

def escChar (c : Char) : Option Char :=
  if c = '"' then some '"'
  else if c = '\\' then some '\\'
  else if c = '/' then some '/'
  else if c = 'b' then some (Char.ofNat 8)
  else if c = 'f' then some (Char.ofNat 12)
  else if c = 'n' then some '\n'
  else if c = 'r' then some '\r'
  else if c = 't' then some '\t'
  else none

/-- Prepend decoded characters and merge the unknown-escape and raw-control
flags onto the result of decoding the remainder of a string literal. -/
def consDec (pre : List Char) (u rc : Bool) :
    Option (List Char × Bool × Bool × List Char) →
    Option (List Char × Bool × Bool × List Char)
  | none => none
  | some (d, u0, rc0, tl) => some (pre ++ d, u || u0, rc || rc0, tl)

/-- Modelled from the spec: decode the body of a string literal delimited by
`q`, applying the standard JSON escapes; any other backslash sequence
(including a malformed `\uXXXZ`) is copied into the decoded string
verbatim, backslash included. Returns the decoded characters, the
unknown-escape flag, the raw-control-character flag and the remaining
input, or `none` when the input ends before the closing quote. -/
def lexStr (q : Char) : List Char → Option (List Char × Bool × Bool × List Char)
  | [] => none
  | c :: cs =>
    if c = q then some ([], false, false, cs)
    else if c = '\\' then
      match cs with
      | [] => none
      | 'u' :: cs1 =>
        let fallback := consDec ['\\', 'u'] true false (lexStr q cs1)
        match cs1 with
        | h1 :: h2 :: h3 :: h4 :: cs2 =>
          match hexVal h1, hexVal h2, hexVal h3, hexVal h4 with
          | some a, some b, some c3, some d =>
            consDec [Char.ofNat (((a * 16 + b) * 16 + c3) * 16 + d)] false false
              (lexStr q cs2)
          | _, _, _, _ => fallback
        | _ => fallback
      | e :: cs1 =>
        match escChar e with
        | some d => consDec [d] false false (lexStr q cs1)
        | none => consDec ['\\', e] true false (lexStr q cs1)
    else consDec [c] false (decide (c.toNat < 32)) (lexStr q cs)

/-! ## Number lexing -/

def natDigits (ds : List Char) : Nat :=
  ds.foldl (fun a c => a * 10 + (c.toNat - 48)) 0

def takeDigitsL : List Char → List Char × List Char
  | [] => ([], [])
  | c :: cs =>
    if isDigitChar c then
      let p := takeDigitsL cs
      (c :: p.1, p.2)
    else ([], c :: cs)

/-- Strip trailing zero digits from an absolute decimal mantissa while the
fractional length stays positive. -/
def stripZerosN : Nat → Nat → Nat × Nat
  | m, 0 => (m, 0)
  | m, e + 1 => if m % 10 = 0 then stripZerosN (m / 10) e else (m, e + 1)

/-- Build a normalized floating value from a sign, an absolute decimal
mantissa and a fractional length. -/
def mkDec (neg : Bool) (m e : Nat) : JNum :=
  let p := stripZerosN m e
  JNum.dec (if neg then -(p.1 : Int) else (p.1 : Int)) p.2

/-- Consume an optional leading sign, returning the sign, the consumed
raw characters and the rest. -/
def signScan : List Char → Bool × List Char × List Char
  | [] => (false, [], [])
  | c :: tl =>
    if c = '-' then (true, [c], tl)
    else if c = '+' then (false, [c], tl)
    else (false, [], c :: tl)

/-- Consume an optional fractional part (a point followed by at least one
digit), returning the fractional digits and the rest; a point not
followed by a digit is not consumed. -/
def fracScan : List Char → List Char × List Char
  | [] => ([], [])
  | c :: tl =>
    if c = '.' then
      let p := takeDigitsL tl
      if p.1 = [] then ([], c :: tl) else (p.1, p.2)
    else ([], c :: tl)

/-- Consume an optional exponent part (`e`/`E`, optional sign, at least
one digit), returning the exponent sign, the consumed raw characters, the
exponent digits and the rest, or `none` when no well-formed exponent
starts here. -/
def expScan : List Char → Option (Bool × List Char × List Char × List Char)
  | [] => none
  | c :: tl =>
    if c = 'e' || c = 'E' then
      let es : Bool × List Char × List Char :=
        match tl with
        | s :: tl2 => if s = '-' then (true, [c, s], tl2)
                      else if s = '+' then (false, [c, s], tl2)
                      else (false, [c], tl)
        | [] => (false, [c], tl)
      let p := takeDigitsL es.2.2
      if p.1 = [] then none else some (es.1, es.2.1 ++ p.1, p.1, p.2)
    else none

/-- Modelled from the spec: lex a number at the head of the input (optional
leading sign, integer part, optional fractional part, optional exponent);
integral lexemes with no point or exponent are tagged as integers, the
others as floats. Returns the token and the remaining input. -/
def lexNum (cs : List Char) : Token × List Char :=
  let sp := signScan cs
  let neg := sp.1
  let signRaw := sp.2.1
  let ip := takeDigitsL sp.2.2
  let intD := ip.1
  let fr := fracScan ip.2
  let fracD := fr.1
  let ex := expScan fr.2
  let expD : List Char := match ex with | some p => p.2.1 | none => []
  let cs4 := match ex with | some p => p.2.2.2 | none => fr.2
  let fracRaw : List Char := if fracD = [] then [] else '.' :: fracD
  let raw := signRaw ++ intD ++ fracRaw ++ expD
  let n :=
    if fracD = [] && ex.isNone then
      JNum.int (if neg then -(natDigits intD : Int) else (natDigits intD : Int))
    else
      let k : Int :=
        match ex with
        | some p =>
          let kn : Nat := natDigits p.2.2.1
          if p.1 then -(kn : Int) else (kn : Int)
        | none => 0
      let m0 := natDigits (intD ++ fracD)
      let net : Int := (fracD.length : Int) - k
      if net ≤ 0 then mkDec neg (m0 * 10 ^ (-net).toNat) 0
      else mkDec neg m0 net.toNat
  (Token.num (String.mk raw) n, cs4)

/-! ## Tokenizer -/

def skipWs : List Char → List Char
  | [] => []
  | c :: cs => if isWsChar c then skipWs cs else c :: cs

def dropLine : List Char → List Char
  | [] => []
  | c :: cs => if c = '\n' then cs else dropLine cs

def dropBlock : List Char → Option (List Char)
  | [] => none
  | '*' :: '/' :: tl => some tl
  | _ :: cs => dropBlock cs

def takeIdent : List Char → List Char × List Char
  | [] => ([], [])
  | c :: cs =>
    if isIdentChar c then
      let p := takeIdent cs
      (c :: p.1, p.2)
    else ([], c :: cs)

/-- Modelled from the spec: produce the next token. Whitespace is skipped;
line and block comments lex to a comment token; both quote characters
delimit strings; a number starts at a digit or at a sign followed by a
digit; any other character starts a bare identifier lexeme (a maximal run
of non-structural, non-quote, non-whitespace, non-slash characters). Fails
with `LexError` only on an unterminated string or block comment. -/
def nextToken (input : List Char) : Except LexError (Token × List Char) :=
  match skipWs input with
  | [] => .ok (Token.eoi, [])
  | c :: rest =>
    if c = lbraceC then .ok (Token.lbrace, rest)
    else if c = rbraceC then .ok (Token.rbrace, rest)
    else if c = '[' then .ok (Token.lbrack, rest)
    else if c = ']' then .ok (Token.rbrack, rest)
    else if c = ':' then .ok (Token.colon, rest)
    else if c = ',' then .ok (Token.comma, rest)
    else if isQuoteChar c then
      match lexStr c rest with
      | none => .error .untermString
      | some (d, u, rc, tl) => .ok (Token.str (String.mk d) u c rc, tl)
    else if c = '/' then
      match rest with
      | c2 :: rest2 =>
        if c2 = '/' then .ok (Token.comment, dropLine rest2)
        else if c2 = '*' then
          match dropBlock rest2 with
          | some tl => .ok (Token.comment, tl)
          | none => .error .untermComment
        else
          let p := takeIdent rest
          .ok (Token.ident (String.mk (c :: p.1)), p.2)
      | [] => .ok (Token.ident (String.mk [c]), [])
    else if isDigitChar c then .ok (lexNum (c :: rest))
    else if (c = '-' || c = '+') &&
        (match rest with | c2 :: _ => isDigitChar c2 | [] => false) then
      .ok (lexNum (c :: rest))
    else
      let p := takeIdent rest
      .ok (Token.ident (String.mk (c :: p.1)), p.2)

/-- Modelled from the spec: the full token stream of a span, ending in an
end-of-input token. Recursion is fuelled; one character is consumed per
token, so fuel `length + 1` always suffices (the fuel-exhaustion branch is
unreachable at the call sites below). -/
def tokenizeRaw : Nat → List Char → Except LexError (List Token)
  | 0, _ => .error .untermString
  | f + 1, cs =>
    match nextToken cs with
    | .error e => .error e
    | .ok (t, tl) =>
      match t with
      | .eoi => .ok [Token.eoi]
      | _ =>
        match tokenizeRaw f tl with
        | .error e => .error e
        | .ok ts => .ok (t :: ts)

/-- Modelled from the spec: tokenize a span and discard comment tokens. -/
def tokenize (cs : List Char) : Except LexError (List Token) :=
  match tokenizeRaw (cs.length + 1) cs with
  | .error e => .error e
  | .ok ts => .ok (ts.filter (fun t => !t.isComment))

/-! ## Repair parser -/

/-- Modelled from the spec: a bare identifier resolves to the matching JSON
primitive (`true`, `false`, `null`, their Python spellings, and the special
floating values); any other bare identifier is treated as an unquoted
string value. -/
def resolveIdent (w : String) : Value :=
  if w = "true" || w = "True" then .bool true
  else if w = "false" || w = "False" then .bool false
  else if w = "null" || w = "None" then .null
  else if w = "NaN" then .num .nan
  else if w = "Infinity" then .num (.inf false)
  else if w = "-Infinity" then .num (.inf true)
  else .str w

/-- Insert a member with last-write-wins semantics: a duplicate key keeps
its first position but takes the new value. -/
def insertKV : List (String × Value) → String → Value → List (String × Value)
  | [], k, v => [(k, v)]
  | (k0, v0) :: tl, k, v =>
    if k0 = k then (k0, v) :: tl else (k0, v0) :: insertKV tl k v

mutual

/-- Modelled from the spec: parse one value from the token stream. The
fuel argument is the nesting-depth budget of the recursion; exhausting it
raises `StructuralError` (depth exceeded) as the spec directs. A
non-value token at a position where a value is mandatory raises
`StructuralError`. -/
def parseValue : Nat → List Token → Except StructuralError (Value × List Token)
  | 0, _ => .error .depthExceeded
  | f + 1, ts =>
    match ts with
    | .lbrace :: rest => parseObjItems f rest []
    | .lbrack :: rest => parseArrItems f rest []
    | .str s _ _ _ :: rest => .ok (.str s, rest)
    | .num _ n :: rest => .ok (.num n, rest)
    | .ident w :: rest => .ok (resolveIdent w, rest)
    | _ => .error .noValue

/-- Modelled from the spec: element position of an array. A closing
bracket ends the array (so a trailing comma was discarded by the caller);
end-of-input auto-closes the array (synthesized closer, innermost first,
since the end-of-input token is left for the enclosing loops). -/
def parseArrItems : Nat → List Token → List Value →
    Except StructuralError (Value × List Token)
  | 0, _, _ => .error .depthExceeded
  | f + 1, ts, acc =>
    match ts with
    | .rbrack :: rest => .ok (.arr acc, rest)
    | .eoi :: _ => .ok (.arr acc, ts)
    | _ =>
      match parseValue f ts with
      | .error e => .error e
      | .ok (v, ts1) => parseArrAfter f ts1 (acc ++ [v])

/-- Modelled from the spec: after a value inside an array the parser
expects a comma or the matching closer; end-of-input auto-closes;
any other token is noise, discarded one token at a time (noise-skip
recovery). -/
def parseArrAfter : Nat → List Token → List Value →
    Except StructuralError (Value × List Token)
  | 0, _, _ => .error .depthExceeded
  | f + 1, ts, acc =>
    match ts with
    | .comma :: rest => parseArrItems f rest acc
    | .rbrack :: rest => .ok (.arr acc, rest)
    | .eoi :: _ => .ok (.arr acc, ts)
    | _ :: rest => parseArrAfter f rest acc
    | [] => .ok (.arr acc, [])

/-- Modelled from the spec: key position of an object. A closing brace
ends the object; end-of-input auto-closes it; a quoted string (either
quote style) or a bare identifier is accepted as a key; anything else
raises `StructuralError`. -/
def parseObjItems : Nat → List Token → List (String × Value) →
    Except StructuralError (Value × List Token)
  | 0, _, _ => .error .depthExceeded
  | f + 1, ts, acc =>
    match ts with
    | .rbrace :: rest => .ok (.obj acc, rest)
    | .eoi :: _ => .ok (.obj acc, ts)
    | .str k _ _ _ :: rest => parseObjAfterKey f rest acc k
    | .ident w :: rest => parseObjAfterKey f rest acc w
    | _ => .error .expectedKey

/-- Modelled from the spec: after an object key a colon and a value
follow; end-of-input auto-closes the object, dropping the dangling key. -/
def parseObjAfterKey : Nat → List Token → List (String × Value) → String →
    Except StructuralError (Value × List Token)
  | 0, _, _, _ => .error .depthExceeded
  | f + 1, ts, acc, k =>
    match ts with
    | .colon :: rest =>
      match parseValue f rest with
      | .error e => .error e
      | .ok (v, ts1) => parseObjAfter f ts1 (insertKV acc k v)
    | .eoi :: _ => .ok (.obj acc, ts)
    | _ => .error .expectedColon

/-- Modelled from the spec: after a member value the parser expects a
comma or the closing brace; end-of-input auto-closes; any other token is
noise, discarded one token at a time (noise-skip recovery). -/
def parseObjAfter : Nat → List Token → List (String × Value) →
    Except StructuralError (Value × List Token)
  | 0, _, _ => .error .depthExceeded
  | f + 1, ts, acc =>
    match ts with
    | .comma :: rest => parseObjItems f rest acc
    | .rbrace :: rest => .ok (.obj acc, rest)
    | .eoi :: _ => .ok (.obj acc, ts)
    | _ :: rest => parseObjAfter f rest acc
    | [] => .ok (.obj acc, [])

end

/-! ## Boundary extractor -/

/-- Modelled from the spec: scan forward for the first opening brace or
bracket, returning the suffix starting there. -/
def findOpen : List Char → Option (List Char)
  | [] => none
  | c :: cs => if c = lbraceC || c = '[' then some (c :: cs) else findOpen cs

/-- Modelled from the spec: the single forward scan of the boundary
extractor after the first opening bracket. It maintains the bracket
depth (already 1 for the consumed opener), and a string-awareness flag
with the current quote character and escape state that suppresses bracket
counting inside quoted strings. The span ends at the character where
depth returns to zero; if depth never returns to zero it extends to the
end of the buffer. -/
def spanScan : Nat → Bool → Char → Bool → List Char → List Char
  | _, _, _, _, [] => []
  | d, true, q, true, c :: cs => c :: spanScan d true q false cs
  | d, true, q, false, c :: cs =>
    if c = '\\' then c :: spanScan d true q true cs
    else if c = q then c :: spanScan d false q false cs
    else c :: spanScan d true q false cs
  | d, false, q, _, c :: cs =>
    if isQuoteChar c then c :: spanScan d true c false cs
    else if c = lbraceC || c = '[' then c :: spanScan (d + 1) false q false cs
    else if c = rbraceC || c = ']' then
      if d ≤ 1 then [c] else c :: spanScan (d - 1) false q false cs
    else c :: spanScan d false q false cs

/-- Modelled from the spec: boundary extraction. If an opening bracket is
found, the span runs from it to the character where the bracket depth
returns to zero (or to end-of-buffer); if no opening bracket is found at
all, the whole buffer is handed to the parser as a scalar-only attempt. -/
def extractSpan (cs : List Char) : List Char :=
  match findOpen cs with
  | some (b :: tl) => b :: spanScan 1 false '"' false tl
  | _ => cs

/-! ## Public repair entry point -/

/-- Modelled from the spec: `repair_json` composes boundary extraction,
tokenization and the repair parser, and fails with `JsonRepairError`
(carrying the lexer or parser detail) when no recoverable JSON value
exists. -/
def repair_json (input : String) : Except RepairError Value :=
  let span := extractSpan input.data
  match tokenize span with
  | .error e => .error (.lex e)
  | .ok ts =>
    match parseValue (2 * ts.length + 2) ts with
    | .error e => .error (.structural e)
    | .ok (v, _) => .ok v

/-! ## Serialization to standard JSON text -/

def digitChar (d : Nat) : Char := Char.ofNat (48 + d)

def hexDigitChar (d : Nat) : Char :=
  if d < 10 then Char.ofNat (48 + d) else Char.ofNat (87 + d)

/-- Decimal digits of `n`, least significant first; fuelled so that the
definition evaluates in the kernel (fuel `n + 1` always suffices). -/
def natDigitsRev : Nat → Nat → List Char
  | 0, _ => []
  | f + 1, n =>
    if n < 10 then [digitChar n]
    else digitChar (n % 10) :: natDigitsRev f (n / 10)

def natToChars (n : Nat) : List Char := (natDigitsRev (n + 1) n).reverse

def intToChars (i : Int) : List Char :=
  (if i < 0 then ['-'] else []) ++ natToChars i.natAbs

/-- Render a normalized float `m / 10 ^ e` as decimal text with an
explicit point (at least one fractional digit). -/
def decToChars (m : Int) (e : Nat) : List Char :=
  let sgn : List Char := if m < 0 then ['-'] else []
  if e = 0 then sgn ++ natToChars m.natAbs ++ ['.', '0']
  else
    let ds := natToChars m.natAbs
    let padded := List.replicate (e + 1 - ds.length) '0' ++ ds
    sgn ++ padded.take (padded.length - e) ++ '.' :: padded.drop (padded.length - e)

def numToChars : JNum → List Char
  | .int i => intToChars i
  | .dec m e => decToChars m e
  | .nan => ['N', 'a', 'N']
  | .inf false => "Infinity".data
  | .inf true => '-' :: "Infinity".data

/-- JSON-escape one character: quote, backslash and control characters are
escaped, everything else is passed through. -/
def escapeChar (c : Char) : List Char :=
  if c = '"' then ['\\', '"']
  else if c = '\\' then ['\\', '\\']
  else if c = '\n' then ['\\', 'n']
  else if c = '\t' then ['\\', 't']
  else if c = '\r' then ['\\', 'r']
  else if c = Char.ofNat 8 then ['\\', 'b']
  else if c = Char.ofNat 12 then ['\\', 'f']
  else if c.toNat < 32 then
    ['\\', 'u', '0', '0', hexDigitChar (c.toNat / 16), hexDigitChar (c.toNat % 16)]
  else [c]

def serString (s : String) : List Char :=
  '"' :: (s.data.flatMap escapeChar ++ ['"'])

mutual

/-- Modelled from the spec: serialize a value back to standard JSON text
(characters). Compact separators; object members in stored order. -/
def serValue : Value → List Char
  | .null => "null".data
  | .bool true => "true".data
  | .bool false => "false".data
  | .num n => numToChars n
  | .str s => serString s
  | .arr xs => '[' :: (serItems xs ++ [']'])
  | .obj kvs => lbraceC :: (serMembers kvs ++ [rbraceC])

def serItems : List Value → List Char
  | [] => []
  | [x] => serValue x
  | x :: xs => serValue x ++ ',' :: serItems xs

def serMembers : List (String × Value) → List Char
  | [] => []
  | [(k, v)] => serString k ++ ':' :: serValue v
  | (k, v) :: kvs => serString k ++ ':' :: serValue v ++ ',' :: serMembers kvs

end

/-- Modelled from the spec: serialize a result value back to standard JSON
text. -/
def serialize (v : Value) : String := String.mk (serValue v)

/-! ## Schema model and validation -/

/-- Modelled from the spec: the schema kind vocabulary (only `type`,
`properties` and `required` of JSON Schema are interpreted). -/
inductive SchemaKind where
  | object
  | array
  | string
  | number
  | boolean
  | null
deriving DecidableEq

/-- Modelled from the spec: an immutable schema built once from a plain
nested description: a kind, declared properties (meaningful for objects)
and required property names. -/
inductive Schema where
  | mk (kind : SchemaKind) (properties : List (String × Schema))
      (required : List String)

def Schema.kind : Schema → SchemaKind
  | .mk k _ _ => k

def Schema.properties : Schema → List (String × Schema)
  | .mk _ ps _ => ps

def Schema.required : Schema → List String
  | .mk _ _ rs => rs

/-- The schema kind a value satisfies; integers and floats (including the
special floating values) both satisfy `number`. -/
def Value.kindOf : Value → SchemaKind
  | .null => .null
  | .bool _ => .boolean
  | .num _ => .number
  | .str _ => .string
  | .arr _ => .array
  | .obj _ => .object

/-- Modelled from the spec: a validation failure names exactly one
offending field: the first missing required property, or the first
declared property (or root) whose kind mismatches. -/
inductive SchemaError where
  | missingField (field : String)
  | kindMismatch (field : String) (expected : SchemaKind) (actual : SchemaKind)
deriving DecidableEq

def lookupKV : List (String × Value) → String → Option Value
  | [], _ => none
  | (k0, v0) :: tl, k => if k0 = k then some v0 else lookupKV tl k

/-- First name of the required list that is not a key of the object, in
required-list order. -/
def firstMissing : List String → List (String × Value) → Option String
  | [], _ => none
  | r :: rs, kvs =>
    match lookupKV kvs r with
    | some _ => firstMissing rs kvs
    | none => some r

mutual

/-- Modelled from the spec: validate a value against a schema. The root
kind must match (loosely for numbers); for objects every required name
must be present (first missing one reported by name), then declared
properties are checked against their nested schema recursively;
undeclared properties pass through unchecked. -/
def validate (field : String) (sch : Schema) (v : Value) :
    Except SchemaError Unit :=
  if v.kindOf = sch.kind then
    match sch, v with
    | .mk _ props required, .obj kvs =>
      match firstMissing required kvs with
      | some r => .error (.missingField r)
      | none => validateProps props kvs
    | _, _ => .ok ()
  else .error (.kindMismatch field sch.kind v.kindOf)

/-- Check declared properties in declaration order against the members
present in the object; absent non-required properties are skipped. -/
def validateProps (props : List (String × Schema))
    (kvs : List (String × Value)) : Except SchemaError Unit :=
  match props with
  | [] => .ok ()
  | (name, sub) :: rest =>
    match lookupKV kvs name with
    | none => validateProps rest kvs
    | some w =>
      match validate name sub w with
      | .error e => .error e
      | .ok _ => validateProps rest kvs

end

/-- Modelled from the spec: the error raised by `extract`, surfacing the
repair failure or the validation failure. -/
inductive ExtractError where
  | repairFailed (e : RepairError)
  | invalid (e : SchemaError)
deriving DecidableEq

/-- Modelled from the spec: `JsonExtractor` captures an immutable schema
at construction. -/
structure JsonExtractor where
  schema : Schema

/-- Modelled from the spec: `extract` composes boundary extraction and the
repair parser (via `repair_json`), then validates the result against the
captured schema, returning the full parsed value untouched on success. -/
def JsonExtractor.extract (je : JsonExtractor) (input : String) :
    Except ExtractError Value :=
  match repair_json input with
  | .error e => .error (.repairFailed e)
  | .ok v =>
    match validate "$" je.schema v with
    | .error e => .error (.invalid e)
    | .ok _ => .ok v

/-! ## Standard (strict) JSON parsing

The fidelity law compares `repair_json` against the standard JSON parse
of the input. The strict parser below follows the standard JSON grammar:
it shares the lexer (which decodes standard tokens in the standard way)
but accepts a token only when its lexeme was strictly standard —
double-quoted strings with only standard escapes and no raw control
characters, number lexemes of the strict JSON number grammar, and the
identifiers `true`, `false`, `null` — and accepts no comment, no trailing
comma, no noise and no unterminated container. Duplicate object keys are
resolved last-write-wins, as the reference parsers of the original
library do. -/

/-- Consume the integer part of a strict JSON number: `0`, or a nonzero
digit followed by digits. -/
def strictIntPart : List Char → Option (List Char)
  | [] => none
  | c :: tl =>
    if c = '0' then some tl
    else if isDigitChar c then some (takeDigitsL tl).2
    else none

/-- Consume an optional strict fraction: a point must be followed by at
least one digit. -/
def strictFracPart : List Char → Option (List Char)
  | [] => some []
  | c :: tl =>
    if c = '.' then
      let p := takeDigitsL tl
      if p.1 = [] then none else some p.2
    else some (c :: tl)

/-- Consume an optional strict exponent: `e`/`E`, an optional sign, then
at least one digit. -/
def strictExpPart : List Char → Option (List Char)
  | [] => some []
  | c :: tl =>
    if c = 'e' || c = 'E' then
      let tl2 : List Char :=
        match tl with
        | s :: tl3 => if s = '+' || s = '-' then tl3 else tl
        | [] => tl
      let p := takeDigitsL tl2
      if p.1 = [] then none else some p.2
    else some (c :: tl)

/-- A raw lexeme matches the strict JSON number grammar. -/
def strictNumChars (cs : List Char) : Bool :=
  let cs1 : List Char := match cs with | c :: tl => if c = '-' then tl else cs | [] => cs
  match strictIntPart cs1 with
  | none => false
  | some r2 =>
    match strictFracPart r2 with
    | none => false
    | some r3 =>
      match strictExpPart r3 with
      | none => false
      | some r4 => r4 = []

/-- A token whose lexeme is strictly standard JSON. -/
def Token.isStrict : Token → Bool
  | .str _ u q rc => q = '"' && !u && !rc
  | .num raw _ => strictNumChars raw.data
  | .ident w => w = "true" || w = "false" || w = "null"
  | .comment => false
  | _ => true

mutual

/-- Strict JSON value over the token stream: object, array, string,
number, or one of the three standard identifiers. -/
def strictValue : Nat → List Token → Option (Value × List Token)
  | 0, _ => none
  | f + 1, ts =>
    match ts with
    | .lbrace :: .rbrace :: tl => some (.obj [], tl)
    | .lbrace :: rest => strictMembers f rest []
    | .lbrack :: .rbrack :: tl => some (.arr [], tl)
    | .lbrack :: rest => strictItems f rest []
    | .str s _ _ _ :: rest => some (.str s, rest)
    | .num _ n :: rest => some (.num n, rest)
    | .ident w :: rest =>
      if w = "true" then some (.bool true, rest)
      else if w = "false" then some (.bool false, rest)
      else if w = "null" then some (.null, rest)
      else none
    | _ => none

/-- Strict array elements: one value, then a comma and more elements or
the closing bracket (no trailing comma). -/
def strictItems : Nat → List Token → List Value → Option (Value × List Token)
  | 0, _, _ => none
  | f + 1, ts, acc =>
    match strictValue f ts with
    | none => none
    | some (v, ts1) =>
      match ts1 with
      | .comma :: rest => strictItems f rest (acc ++ [v])
      | .rbrack :: rest => some (.arr (acc ++ [v]), rest)
      | _ => none

/-- Strict object members: a double-quoted string key, a colon, a value,
then a comma and more members or the closing brace. -/
def strictMembers : Nat → List Token → List (String × Value) →
    Option (Value × List Token)
  | 0, _, _ => none
  | f + 1, ts, acc =>
    match ts with
    | .str k _ _ _ :: .colon :: rest =>
      match strictValue f rest with
      | none => none
      | some (v, ts1) =>
        match ts1 with
        | .comma :: tl => strictMembers f tl (insertKV acc k v)
        | .rbrace :: tl => some (.obj (insertKV acc k v), tl)
        | _ => none
    | _ => none

end

/-- The standard JSON parse of a whole input: every token strictly
standard, one strict value, nothing but end-of-input after it. -/
def strictJsonParse (input : String) : Option Value :=
  match tokenizeRaw (input.data.length + 1) input.data with
  | .error _ => none
  | .ok raw =>
    if raw.all Token.isStrict then
      match strictValue (2 * raw.length + 2) raw with
      | some (v, [Token.eoi]) => some v
      | _ => none
    else none

/-! ## Auxiliary definitions used by the statements below -/

/-- Nested empty arrays: `nestedArr n` is `n + 1` nested arrays, the
value produced by auto-closing `n + 1` unmatched opening brackets. -/
def nestedArr : Nat → Value
  | 0 => .arr []
  | n + 1 => .arr [nestedArr n]

/-- The schema used by the API tests: an object declaring a string
`summary` and a numeric `score`, requiring `summary`. -/
def apiTestSchema : Schema :=
  .mk .object [("summary", .mk .string [] []), ("score", .mk .number [] [])]
    ["summary"]

def Value.isContainer : Value → Bool
  | .arr _ => true
  | .obj _ => true
  | _ => false

/-- The buffer contains an opening brace or bracket character. -/
def hasOpenChar (cs : List Char) : Bool :=
  cs.any (fun c => c = lbraceC || c = '[')

/-- A top-level string result contains no opening brace or bracket
character (any other kind of value passes). -/
def topStringBraceFree : Value → Bool
  | .str s => s.data.all (fun c => !(c = lbraceC || c = '['))
  | _ => true

/-- A normalized number: a float mantissa keeps no trailing zero digit
while fractional length is positive. Every number the lexer produces is
normalized. -/
def numNorm : JNum → Prop
  | .dec m (_ + 1) => m.natAbs % 10 ≠ 0
  | _ => True

/-- Object keys are pairwise distinct. -/
def keysOK : List (String × Value) → Prop
  | [] => True
  | (k, _) :: tl => lookupKV tl k = none ∧ keysOK tl

mutual

/-- Well-formed value: numbers normalized and object keys distinct,
hereditarily. Every value the repair parser produces is well-formed. -/
def wfValue : Value → Prop
  | .null => True
  | .bool _ => True
  | .num n => numNorm n
  | .str _ => True
  | .arr xs => wfList xs
  | .obj kvs => keysOK kvs ∧ wfMembers kvs

def wfList : List Value → Prop
  | [] => True
  | x :: xs => wfValue x ∧ wfList xs

def wfMembers : List (String × Value) → Prop
  | [] => True
  | (_, v) :: kvs => wfValue v ∧ wfMembers kvs

end

mutual

/-- The token stream obtained by re-lexing the serialization of a value
(without the final end-of-input token). -/
def tokensOf : Value → List Token
  | .null => [.ident "null"]
  | .bool true => [.ident "true"]
  | .bool false => [.ident "false"]
  | .num (.nan) => [.ident "NaN"]
  | .num (.inf false) => [.ident "Infinity"]
  | .num (.inf true) => [.ident "-Infinity"]
  | .num (.int i) => [.num (String.mk (intToChars i)) (.int i)]
  | .num (.dec m e) => [.num (String.mk (decToChars m e)) (.dec m e)]
  | .str s => [.str s false '"' false]
  | .arr xs => .lbrack :: (tokensItems xs ++ [.rbrack])
  | .obj kvs => .lbrace :: (tokensMembers kvs ++ [.rbrace])

def tokensItems : List Value → List Token
  | [] => []
  | [x] => tokensOf x
  | x :: xs => tokensOf x ++ .comma :: tokensItems xs

def tokensMembers : List (String × Value) → List Token
  | [] => []
  | [(k, v)] => .str k false '"' false :: .colon :: tokensOf v
  | (k, v) :: kvs =>
    .str k false '"' false :: .colon :: (tokensOf v ++ .comma :: tokensMembers kvs)

end

/-- The lexing relation: from input `cs`, the tokenizer emits the listed
(non end-of-input) tokens and leaves `cs2`. -/
inductive LexSteps : List Char → List Token → List Char → Prop where
  | nil (cs : List Char) : LexSteps cs [] cs
  | step (cs : List Char) (t : Token) (cs1 : List Char) (ts : List Token)
      (cs2 : List Char) (h : nextToken cs = .ok (t, cs1)) (hne : t ≠ .eoi)
      (htl : LexSteps cs1 ts cs2) : LexSteps cs (t :: ts) cs2

/-- A remainder that cannot extend a rendered number lexeme: empty or
headed by a character that is no digit and none of point, `e`, `E`. -/
def numDelim : List Char → Prop
  | [] => True
  | c :: _ => ¬(isDigitChar c || c = '.' || c = 'e' || c = 'E')

/-- A remainder that cannot extend a rendered bare identifier: empty or
headed by a non-identifier character. -/
def identDelim : List Char → Prop
  | [] => True
  | c :: _ => ¬ isIdentChar c

/-- A remainder that can follow a serialized value inside a larger
serialization: empty, or headed by a separator or closer. -/
def serDelim : List Char → Prop
  | [] => True
  | c :: _ => c = ',' ∨ c = ']' ∨ c = rbraceC ∨ c = ':'

/-- A remainder that can follow a consumed chunk inside a strict lexing
chain: empty, or headed by whitespace, a separator, or a closer. -/
def chainDelim : List Char → Prop
  | [] => True
  | c :: _ => isWsChar c = true ∨ c = ',' ∨ c = ']' ∨ c = rbraceC ∨ c = ':'

/-- Every number token of the stream carries a normalized value. -/
def tokNumsNorm (ts : List Token) : Prop :=
  ∀ raw n, Token.num raw n ∈ ts → numNorm n

/-- Tokens that can start a value in the repair grammar. -/
def Token.isValueStart : Token → Bool
  | .lbrace => true
  | .lbrack => true
  | .str _ _ _ _ => true
  | .num _ _ => true
  | .ident _ => true
  | _ => false

/-! # Theorems -/

/-! ## Digit and number rendering lemmas -/

theorem digitChar_toNat (d : Nat) (h : d < 10) : (digitChar d).toNat = 48 + d := by
  interval_cases d <;> decide

theorem isDigitChar_digitChar (d : Nat) (h : d < 10) :
    isDigitChar (digitChar d) = true := by
  interval_cases d <;> decide

theorem natDigits_foldl_shift : ∀ (b : List Char) (s : Nat),
    b.foldl (fun a c => a * 10 + (c.toNat - 48)) s = s * 10 ^ b.length + natDigits b := by
  intro b
  induction b with
  | nil => intro s; simp [natDigits]
  | cons c tl ih =>
    intro s
    have h0 : natDigits (c :: tl) = (c.toNat - 48) * 10 ^ tl.length + natDigits tl := by
      show List.foldl _ (0 * 10 + (c.toNat - 48)) tl = _
      rw [ih]
      ring_nf
    show List.foldl _ (s * 10 + (c.toNat - 48)) tl = _
    rw [ih, h0]
    simp only [List.length_cons, pow_succ]
    ring

theorem natDigits_append (a b : List Char) :
    natDigits (a ++ b) = natDigits a * 10 ^ b.length + natDigits b := by
  show List.foldl _ 0 (a ++ b) = _
  rw [List.foldl_append]
  exact natDigits_foldl_shift b (natDigits a)

theorem natDigits_snoc (a : List Char) (c : Char) :
    natDigits (a ++ [c]) = natDigits a * 10 + (c.toNat - 48) := by
  rw [natDigits_append]
  simp [natDigits]

theorem natDigits_zeros (k : Nat) : natDigits (List.replicate k '0') = 0 := by
  induction k with
  | zero => rfl
  | succ k ih =>
    rw [List.replicate_succ]
    have : natDigits ('0' :: List.replicate k '0') =
        natDigits ([] ++ ['0'] ++ List.replicate k '0') := by simp
    rw [this, natDigits_append, ih]
    simp [natDigits]

theorem natDigits_pad (k : Nat) (ds : List Char) :
    natDigits (List.replicate k '0' ++ ds) = natDigits ds := by
  rw [natDigits_append, natDigits_zeros]
  simp

theorem natDigitsRev_spec : ∀ (f n : Nat), n < f →
    (∀ c ∈ natDigitsRev f n, isDigitChar c = true) ∧ natDigitsRev f n ≠ [] ∧
    natDigits (natDigitsRev f n).reverse = n := by
  intro f
  induction f with
  | zero => intro n h; omega
  | succ f ih =>
    intro n h
    by_cases h10 : n < 10
    · refine ⟨?_, ?_, ?_⟩
      · intro c hc
        simp only [natDigitsRev, if_pos h10, List.mem_singleton] at hc
        subst hc
        exact isDigitChar_digitChar n h10
      · simp [natDigitsRev, if_pos h10]
      · simp only [natDigitsRev, if_pos h10, List.reverse_singleton]
        have : natDigits [digitChar n] = natDigits ([] ++ [digitChar n]) := by simp
        rw [this, natDigits_snoc, digitChar_toNat n h10]
        simp [natDigits]
    · have hdiv : n / 10 < f := by omega
      obtain ⟨ihd, ihne, ihval⟩ := ih (n / 10) hdiv
      refine ⟨?_, ?_, ?_⟩
      · intro c hc
        simp only [natDigitsRev, if_neg h10, List.mem_cons] at hc
        rcases hc with hc | hc
        · subst hc
          exact isDigitChar_digitChar _ (Nat.mod_lt _ (by omega))
        · exact ihd c hc
      · simp [natDigitsRev, if_neg h10]
      · simp only [natDigitsRev, if_neg h10, List.reverse_cons]
        rw [natDigits_snoc, ihval, digitChar_toNat _ (Nat.mod_lt _ (by omega))]
        omega

theorem natToChars_digits (n : Nat) : ∀ c ∈ natToChars n, isDigitChar c = true := by
  intro c hc
  have := (natDigitsRev_spec (n + 1) n (by omega)).1
  exact this c (List.mem_reverse.mp hc)

theorem natToChars_ne_nil (n : Nat) : natToChars n ≠ [] := by
  have := (natDigitsRev_spec (n + 1) n (by omega)).2.1
  simp only [natToChars, ne_eq, List.reverse_eq_nil_iff]
  exact this

theorem natDigits_natToChars (n : Nat) : natDigits (natToChars n) = n :=
  (natDigitsRev_spec (n + 1) n (by omega)).2.2

theorem takeDigitsL_cons_not {c : Char} {t : List Char} (h : isDigitChar c = false) :
    takeDigitsL (c :: t) = ([], c :: t) := by
  simp [takeDigitsL, h]

theorem takeDigitsL_of_numDelim (cs : List Char) (h : numDelim cs) :
    takeDigitsL cs = ([], cs) := by
  cases cs with
  | nil => rfl
  | cons c t =>
    simp only [numDelim, Bool.or_eq_true, not_or, Bool.not_eq_true] at h
    exact takeDigitsL_cons_not h.1.1.1

theorem takeDigitsL_append (ds rest : List Char)
    (hds : ∀ c ∈ ds, isDigitChar c = true) (hrest : takeDigitsL rest = ([], rest)) :
    takeDigitsL (ds ++ rest) = (ds, rest) := by
  induction ds with
  | nil => simpa using hrest
  | cons c t ih =>
    have hc : isDigitChar c = true := hds c (by simp)
    have ht := ih (fun x hx => hds x (by simp [hx]))
    simp [takeDigitsL, hc, ht]

theorem stripZerosN_of_norm (m e : Nat) (h : e = 0 ∨ m % 10 ≠ 0) :
    stripZerosN m e = (m, e) := by
  cases e with
  | zero => rfl
  | succ e =>
    rcases h with h | h
    · exact absurd h (by omega)
    · simp [stripZerosN, h]

theorem stripZerosN_mul10 (m : Nat) : stripZerosN (m * 10) 1 = (m, 0) := by
  simp [stripZerosN, Nat.mul_mod_left]

theorem stripZerosN_norm : ∀ (e m : Nat),
    (stripZerosN m e).2 = 0 ∨ (stripZerosN m e).1 % 10 ≠ 0 := by
  intro e
  induction e with
  | zero => intro m; left; rfl
  | succ e ih =>
    intro m
    by_cases h : m % 10 = 0
    · simp only [stripZerosN, if_pos h]
      exact ih (m / 10)
    · simp only [stripZerosN, if_neg h]
      right
      exact h

theorem numNorm_mkDec (neg : Bool) (m e : Nat) : numNorm (mkDec neg m e) := by
  unfold mkDec
  obtain ⟨a, b, hab⟩ : ∃ a b, stripZerosN m e = (a, b) := ⟨_, _, rfl⟩
  have hn := stripZerosN_norm e m
  rw [hab] at hn ⊢
  simp only at hn ⊢
  cases b with
  | zero => cases neg <;> simp [numNorm]
  | succ b2 =>
    rcases hn with h | h
    · omega
    · cases neg
      · show (a : Int).natAbs % 10 ≠ 0
        simpa using h
      · show (-(a : Int)).natAbs % 10 ≠ 0
        simpa using h

theorem mkDec_of_norm (neg : Bool) (m e : Nat) (h : e = 0 ∨ m % 10 ≠ 0) :
    mkDec neg m e = .dec (if neg then -(m : Int) else (m : Int)) e := by
  unfold mkDec
  rw [stripZerosN_of_norm m e h]

/-! ## Character class facts -/

theorem charOfNat_toNat (c : Char) (h : c.toNat < 55296) : Char.ofNat c.toNat = c := by
  have hv : c.toNat.isValidChar := Or.inl h
  apply Char.ext
  rw [Char.ofNat, dif_pos hv]
  apply UInt32.eq_of_toBitVec_eq
  simp only [Char.ofNatAux]
  apply BitVec.eq_of_toNat_eq
  rw [BitVec.toNat_ofNatLt]
  rfl

theorem digit_not_special (c : Char) (h : isDigitChar c = true) :
    c ≠ '-' ∧ c ≠ '+' ∧ c ≠ '.' ∧ c ≠ 'e' ∧ c ≠ 'E' := by
  refine ⟨?_, ?_, ?_, ?_, ?_⟩ <;> (rintro rfl; exact absurd h (by decide))

theorem digit_class (c : Char) (h : isDigitChar c = true) :
    isWsChar c = false ∧ c ≠ lbraceC ∧ c ≠ rbraceC ∧ c ≠ '[' ∧ c ≠ ']' ∧
    c ≠ ':' ∧ c ≠ ',' ∧ isQuoteChar c = false ∧ c ≠ '/' := by
  refine ⟨?_, ?_, ?_, ?_, ?_, ?_, ?_, ?_, ?_⟩
  · simp only [isWsChar, Bool.or_eq_false_iff, decide_eq_false_iff_not]
    refine ⟨⟨⟨?_, ?_⟩, ?_⟩, ?_⟩ <;> (rintro rfl; exact absurd h (by decide))
  all_goals
    first
    | (rintro rfl; exact absurd h (by decide))
    | (simp only [isQuoteChar, Bool.or_eq_false_iff, decide_eq_false_iff_not]
       refine ⟨?_, ?_⟩ <;> (rintro rfl; exact absurd h (by decide)))

theorem skipWs_cons_not {c : Char} {tl : List Char} (h : isWsChar c = false) :
    skipWs (c :: tl) = c :: tl := by
  simp [skipWs, h]

/-! ## Number lexing round-trip -/

theorem signScan_digit {c : Char} {tl : List Char} (h : isDigitChar c = true) :
    signScan (c :: tl) = (false, [], c :: tl) := by
  obtain ⟨h1, h2, -⟩ := digit_not_special c h
  simp [signScan, h1, h2]

theorem fracScan_delim (cs : List Char) (h : numDelim cs) : fracScan cs = ([], cs) := by
  cases cs with
  | nil => rfl
  | cons c t =>
    simp only [numDelim, Bool.or_eq_true, not_or, Bool.not_eq_true] at h
    have hdot : ¬(c = '.') := by simpa using h.1.1.2
    simp [fracScan, hdot]

theorem expScan_delim (cs : List Char) (h : numDelim cs) : expScan cs = none := by
  cases cs with
  | nil => rfl
  | cons c t =>
    simp only [numDelim, Bool.or_eq_true, not_or, Bool.not_eq_true] at h
    have he : ¬(c = 'e') := by simpa using h.1.2
    have hE : ¬(c = 'E') := by simpa using h.2
    simp [expScan, he, hE]

theorem lexNum_digits (ds rest : List Char)
    (hds : ∀ c ∈ ds, isDigitChar c = true) (hne : ds ≠ []) (hrest : numDelim rest) :
    lexNum (ds ++ rest) = (.num (String.mk ds) (.int (natDigits ds)), rest) := by
  obtain ⟨c0, t0, rfl⟩ := List.exists_cons_of_ne_nil hne
  have hc0 : isDigitChar c0 = true := hds c0 (by simp)
  have hsign : signScan (c0 :: (t0 ++ rest)) = (false, [], c0 :: (t0 ++ rest)) :=
    signScan_digit hc0
  have htake : takeDigitsL ((c0 :: t0) ++ rest) = (c0 :: t0, rest) :=
    takeDigitsL_append _ _ hds (takeDigitsL_of_numDelim rest hrest)
  rw [List.cons_append] at htake
  have hfrac : fracScan rest = ([], rest) := fracScan_delim rest hrest
  have hexp : expScan rest = none := expScan_delim rest hrest
  simp [lexNum, List.cons_append, hsign, htake, hfrac, hexp]

theorem lexNum_int (i : Int) (rest : List Char) (hrest : numDelim rest) :
    lexNum (intToChars i ++ rest) = (.num (String.mk (intToChars i)) (.int i), rest) := by
  by_cases hi : i < 0
  · have harg : intToChars i ++ rest = '-' :: (natToChars i.natAbs ++ rest) := by
      simp [intToChars, hi]
    have hsign : signScan ('-' :: (natToChars i.natAbs ++ rest)) =
        (true, ['-'], natToChars i.natAbs ++ rest) := by
      simp [signScan]
    have htake : takeDigitsL (natToChars i.natAbs ++ rest) = (natToChars i.natAbs, rest) :=
      takeDigitsL_append _ _ (natToChars_digits _) (takeDigitsL_of_numDelim rest hrest)
    have hfrac : fracScan rest = ([], rest) := fracScan_delim rest hrest
    have hexp : expScan rest = none := expScan_delim rest hrest
    rw [harg]
    simp only [lexNum, hsign, htake, hfrac, hexp]
    simp only [natDigits_natToChars]
    have hne : natToChars i.natAbs ≠ [] := natToChars_ne_nil _
    simp [intToChars, hi, abs_of_neg hi]
  · have harg : intToChars i ++ rest = natToChars i.natAbs ++ rest := by
      simp [intToChars, hi]
    rw [harg, lexNum_digits _ _ (natToChars_digits _) (natToChars_ne_nil _) hrest]
    have hval : ((natDigits (natToChars i.natAbs)) : Int) = i := by
      rw [natDigits_natToChars]; omega
    rw [hval]
    simp [intToChars, hi]

theorem lexNum_specInt (cs tail intD rest2 : List Char) (neg : Bool) (sgnRaw : List Char)
    (hsign : signScan cs = (neg, sgnRaw, tail))
    (htake : takeDigitsL tail = (intD, rest2))
    (hfrac : fracScan rest2 = ([], rest2))
    (hexp : expScan rest2 = none) :
    lexNum cs = (.num (String.mk (sgnRaw ++ intD))
      (.int (if neg then -(natDigits intD : Int) else (natDigits intD : Int))), rest2) := by
  simp only [lexNum, hsign, htake, hfrac, hexp]
  simp

theorem lexNum_specFrac (cs tail intD rest1 fracD rest2 : List Char) (neg : Bool)
    (sgnRaw : List Char)
    (hsign : signScan cs = (neg, sgnRaw, tail))
    (htake : takeDigitsL tail = (intD, rest1))
    (hfrac : fracScan rest1 = (fracD, rest2))
    (hfne : fracD ≠ [])
    (hexp : expScan rest2 = none) :
    lexNum cs = (.num (String.mk (sgnRaw ++ intD ++ '.' :: fracD))
      (mkDec neg (natDigits (intD ++ fracD)) fracD.length), rest2) := by
  have hlen : ¬((fracD.length : Int) - 0 ≤ 0) := by
    have : fracD.length ≠ 0 := fun h => hfne (List.eq_nil_of_length_eq_zero h)
    omega
  have htn : (((fracD.length : Int)) - 0).toNat = fracD.length := by omega
  simp only [lexNum, hsign, htake, hfrac, hexp]
  simp [hfne, hlen, htn]

theorem lexNum_dec0 (neg : Bool) (a : Nat) (rest : List Char) (hnd : numDelim rest) :
    lexNum ((if neg then ['-'] else []) ++ natToChars a ++ '.' :: '0' :: rest) =
      (.num (String.mk ((if neg then ['-'] else []) ++ natToChars a ++ ['.', '0']))
        (.dec (if neg then -(a : Int) else (a : Int)) 0), rest) := by
  have htake : takeDigitsL (natToChars a ++ '.' :: '0' :: rest) =
      (natToChars a, '.' :: '0' :: rest) :=
    takeDigitsL_append _ _ (natToChars_digits a) (takeDigitsL_cons_not (by decide))
  have htake0 : takeDigitsL ('0' :: rest) = (['0'], rest) := by
    have : takeDigitsL (['0'] ++ rest) = (['0'], rest) :=
      takeDigitsL_append ['0'] rest (by intro c hc; simp at hc; subst hc; decide)
        (takeDigitsL_of_numDelim rest hnd)
    simpa using this
  have hfrac : fracScan ('.' :: '0' :: rest) = (['0'], rest) := by
    simp [fracScan, htake0]
  have hexp : expScan rest = none := expScan_delim rest hnd
  have hm0 : natDigits (natToChars a ++ ['0']) = a * 10 := by
    rw [natDigits_snoc, natDigits_natToChars]
    have h48 : '0'.toNat - 48 = 0 := by decide
    rw [h48]
    omega
  have hmk : mkDec neg (a * 10) 1 = .dec (if neg then -(a : Int) else (a : Int)) 0 := by
    unfold mkDec
    rw [stripZerosN_mul10]
  cases neg with
  | false =>
    obtain ⟨c0, t0, h0⟩ := List.exists_cons_of_ne_nil (natToChars_ne_nil a)
    have hc0 : isDigitChar c0 = true := by
      apply natToChars_digits a
      rw [h0]; simp
    have hsign : signScan (natToChars a ++ '.' :: '0' :: rest) =
        (false, [], natToChars a ++ '.' :: '0' :: rest) := by
      rw [h0, List.cons_append]
      exact signScan_digit hc0
    simp only [Bool.false_eq_true, if_false, List.nil_append]
    rw [lexNum_specFrac _ _ _ _ _ _ _ _ hsign htake hfrac (by simp) hexp]
    rw [hm0]
    simp only [List.length_singleton, hmk]
    simp
  | true =>
    have hsign : signScan ('-' :: (natToChars a ++ '.' :: '0' :: rest)) =
        (true, ['-'], natToChars a ++ '.' :: '0' :: rest) := by
      simp [signScan]
    simp only [if_true, List.cons_append, List.singleton_append, List.nil_append]
    rw [lexNum_specFrac _ _ _ _ _ _ _ _ hsign htake hfrac (by simp) hexp]
    rw [hm0]
    simp only [List.length_singleton, hmk]
    simp

theorem lexNum_decPos (neg : Bool) (a e : Nat) (he : 1 ≤ e) (hnorm : a % 10 ≠ 0)
    (rest : List Char) (hnd : numDelim rest) :
    lexNum ((if neg then ['-'] else []) ++
        (List.replicate (e + 1 - (natToChars a).length) '0' ++ natToChars a).take
          ((List.replicate (e + 1 - (natToChars a).length) '0' ++ natToChars a).length - e) ++
        '.' :: ((List.replicate (e + 1 - (natToChars a).length) '0' ++ natToChars a).drop
          ((List.replicate (e + 1 - (natToChars a).length) '0' ++ natToChars a).length - e) ++
          rest)) =
      (.num (String.mk ((if neg then ['-'] else []) ++
          (List.replicate (e + 1 - (natToChars a).length) '0' ++ natToChars a).take
            ((List.replicate (e + 1 - (natToChars a).length) '0' ++ natToChars a).length - e) ++
          '.' :: ((List.replicate (e + 1 - (natToChars a).length) '0' ++ natToChars a).drop
            ((List.replicate (e + 1 - (natToChars a).length) '0' ++ natToChars a).length - e))))
        (.dec (if neg then -(a : Int) else (a : Int)) e), rest) := by
  set padded := List.replicate (e + 1 - (natToChars a).length) '0' ++ natToChars a with hpad
  set L := padded.length with hL
  have hpdig : ∀ c ∈ padded, isDigitChar c = true := by
    intro c hc
    rw [hpad] at hc
    rcases List.mem_append.mp hc with hc | hc
    · have := List.eq_of_mem_replicate hc
      subst this; decide
    · exact natToChars_digits a c hc
  have hLe : e + 1 ≤ L := by
    rw [hL, hpad, List.length_append, List.length_replicate]
    omega
  have hdig_take : ∀ c ∈ padded.take (L - e), isDigitChar c = true :=
    fun c hc => hpdig c (List.take_subset _ _ hc)
  have hdig_drop : ∀ c ∈ padded.drop (L - e), isDigitChar c = true :=
    fun c hc => hpdig c (List.drop_subset _ _ hc)
  have hlen_drop : (padded.drop (L - e)).length = e := by
    rw [List.length_drop]
    omega
  have hdrop_ne : padded.drop (L - e) ≠ [] := by
    intro hnil
    rw [hnil] at hlen_drop
    simp at hlen_drop
    omega
  have htake1 : takeDigitsL (padded.take (L - e) ++ '.' ::
      (padded.drop (L - e) ++ rest)) = (padded.take (L - e), '.' ::
      (padded.drop (L - e) ++ rest)) :=
    takeDigitsL_append _ _ hdig_take (takeDigitsL_cons_not (by decide))
  have htake2 : takeDigitsL (padded.drop (L - e) ++ rest) = (padded.drop (L - e), rest) :=
    takeDigitsL_append _ _ hdig_drop (takeDigitsL_of_numDelim rest hnd)
  have hfrac : fracScan ('.' :: (padded.drop (L - e) ++ rest)) =
      (padded.drop (L - e), rest) := by
    simp [fracScan, htake2, hdrop_ne]
  have hexp : expScan rest = none := expScan_delim rest hnd
  have hm0 : natDigits (padded.take (L - e) ++ padded.drop (L - e)) = a := by
    rw [List.take_append_drop, hpad, natDigits_pad, natDigits_natToChars]
  have hnet : ¬(((padded.drop (L - e)).length : Int) - 0 ≤ 0) := by
    rw [hlen_drop]
    omega
  have hmk : mkDec neg a (((padded.drop (L - e)).length : Int) - 0).toNat =
      .dec (if neg then -(a : Int) else (a : Int)) e := by
    have : (((padded.drop (L - e)).length : Int) - 0).toNat = e := by
      rw [hlen_drop]; omega
    rw [this, mkDec_of_norm neg a e (Or.inr hnorm)]
  have hmk2 : mkDec neg (natDigits (padded.take (L - e) ++ padded.drop (L - e)))
      (padded.drop (L - e)).length = .dec (if neg then -(a : Int) else (a : Int)) e := by
    rw [hm0, hlen_drop, mkDec_of_norm neg a e (Or.inr hnorm)]
  cases neg with
  | false =>
    have htne : padded.take (L - e) ≠ [] := by
      intro hnil
      have := congrArg List.length hnil
      rw [List.length_take] at this
      simp at this
      omega
    obtain ⟨c0, t0, h0⟩ := List.exists_cons_of_ne_nil htne
    have hc0 : isDigitChar c0 = true := by
      apply hdig_take
      rw [h0]; simp
    have hsign : signScan (padded.take (L - e) ++ '.' ::
        (padded.drop (L - e) ++ rest)) = (false, [],
        padded.take (L - e) ++ '.' :: (padded.drop (L - e) ++ rest)) := by
      rw [h0, List.cons_append]
      exact signScan_digit hc0
    simp only [Bool.false_eq_true, if_false, List.nil_append]
    rw [lexNum_specFrac _ _ _ _ _ _ _ _ hsign htake1 hfrac hdrop_ne hexp, hmk2]
    simp
  | true =>
    have hsign : signScan ('-' :: (padded.take (L - e) ++ '.' ::
        (padded.drop (L - e) ++ rest))) = (true, ['-'],
        padded.take (L - e) ++ '.' :: (padded.drop (L - e) ++ rest)) := by
      simp [signScan]
    simp only [if_true, List.cons_append, List.singleton_append, List.nil_append]
    rw [lexNum_specFrac _ _ _ _ _ _ _ _ hsign htake1 hfrac hdrop_ne hexp, hmk2]
    simp

theorem lexNum_dec (m : Int) (e : Nat) (rest : List Char)
    (hn : numNorm (.dec m e)) (hnd : numDelim rest) :
    lexNum (decToChars m e ++ rest) =
      (.num (String.mk (decToChars m e)) (.dec m e), rest) := by
  have hsgn : (if m < 0 then ['-'] else []) = (if decide (m < 0) = true then ['-'] else []) := by
    by_cases h : m < 0 <;> simp [h]
  have hm : (if decide (m < 0) = true then -(m.natAbs : Int) else (m.natAbs : Int)) = m := by
    by_cases h : m < 0
    · rw [if_pos (decide_eq_true h), Int.ofNat_natAbs_of_nonpos (le_of_lt h)]
      ring
    · rw [if_neg (by simpa using h)]
      exact Int.natAbs_of_nonneg (not_lt.mp h)
  cases e with
  | zero =>
    have harg : decToChars m 0 ++ rest =
        (if decide (m < 0) = true then ['-'] else []) ++ natToChars m.natAbs ++
          '.' :: '0' :: rest := by
      simp only [decToChars, if_pos rfl, ← hsgn]
      simp
    rw [harg, lexNum_dec0 (decide (m < 0)) m.natAbs rest hnd, hm]
    have hraw : (if decide (m < 0) = true then ['-'] else []) ++
        natToChars m.natAbs ++ ['.', '0'] = decToChars m 0 := by
      simp only [decToChars, if_pos rfl, ← hsgn]
      simp
    rw [hraw]
  | succ e2 =>
    have hnorm : m.natAbs % 10 ≠ 0 := hn
    have harg : decToChars m (e2 + 1) ++ rest =
        (if decide (m < 0) = true then ['-'] else []) ++
          (List.replicate (e2 + 1 + 1 - (natToChars m.natAbs).length) '0' ++
            natToChars m.natAbs).take
            ((List.replicate (e2 + 1 + 1 - (natToChars m.natAbs).length) '0' ++
              natToChars m.natAbs).length - (e2 + 1)) ++
          '.' :: ((List.replicate (e2 + 1 + 1 - (natToChars m.natAbs).length) '0' ++
            natToChars m.natAbs).drop
            ((List.replicate (e2 + 1 + 1 - (natToChars m.natAbs).length) '0' ++
              natToChars m.natAbs).length - (e2 + 1)) ++ rest) := by
      simp only [decToChars, ← hsgn]
      simp [Nat.succ_ne_zero]
    rw [harg, lexNum_decPos (decide (m < 0)) m.natAbs (e2 + 1) (by omega) hnorm rest hnd,
      hm]
    have hraw : (if decide (m < 0) = true then ['-'] else []) ++
        (List.replicate (e2 + 1 + 1 - (natToChars m.natAbs).length) '0' ++
          natToChars m.natAbs).take
          ((List.replicate (e2 + 1 + 1 - (natToChars m.natAbs).length) '0' ++
            natToChars m.natAbs).length - (e2 + 1)) ++
        '.' :: ((List.replicate (e2 + 1 + 1 - (natToChars m.natAbs).length) '0' ++
          natToChars m.natAbs).drop
          ((List.replicate (e2 + 1 + 1 - (natToChars m.natAbs).length) '0' ++
            natToChars m.natAbs).length - (e2 + 1))) = decToChars m (e2 + 1) := by
      simp only [decToChars, ← hsgn]
      simp [Nat.succ_ne_zero]
    rw [hraw]

/-! ## String decoding step lemmas -/

theorem lexStr_closeQuote (q : Char) (rest : List Char) :
    lexStr q (q :: rest) = some ([], false, false, rest) := by
  cases rest with
  | nil => rw [lexStr.eq_2, if_pos rfl]
  | cons e tl =>
    by_cases hu : e = 'u'
    · subst hu; rw [lexStr.eq_3, if_pos rfl]
    · rw [lexStr.eq_4 q q e tl (fun h => hu h), if_pos rfl]

theorem lexStr_plain (q c : Char) (rest : List Char) (hq : ¬ c = q) (hb : ¬ c = '\\') :
    lexStr q (c :: rest) = consDec [c] false (decide (c.toNat < 32)) (lexStr q rest) := by
  cases rest with
  | nil => rw [lexStr.eq_2, if_neg hq, if_neg hb]
  | cons e tl =>
    by_cases hu : e = 'u'
    · subst hu; rw [lexStr.eq_3, if_neg hq, if_neg hb]
    · rw [lexStr.eq_4 q c e tl (fun h => hu h), if_neg hq, if_neg hb]

theorem lexStr_knownEsc (q e d : Char) (rest : List Char) (hq : ¬(('\\' : Char) = q))
    (he : escChar e = some d) (hu : e ≠ 'u') :
    lexStr q ('\\' :: e :: rest) = consDec [d] false false (lexStr q rest) := by
  rw [lexStr.eq_4 q '\\' e rest (fun h => hu h), if_neg hq, if_pos rfl, he]

/-! ## String escaping round-trip -/

theorem hexVal_hexDigitChar (d : Nat) (h : d < 16) : hexVal (hexDigitChar d) = some d := by
  interval_cases d <;> decide

theorem lexStr_escapeChar (c : Char) (cs : List Char) :
    lexStr '"' (escapeChar c ++ cs) = consDec [c] false false (lexStr '"' cs) := by
  by_cases h1 : c = '"'
  · subst h1; rfl
  by_cases h2 : c = '\\'
  · subst h2; rfl
  by_cases h3 : c = '\n'
  · subst h3; rfl
  by_cases h4 : c = '\t'
  · subst h4; rfl
  by_cases h5 : c = '\r'
  · subst h5; rfl
  by_cases h6 : c = Char.ofNat 8
  · subst h6; rfl
  by_cases h7 : c = Char.ofNat 12
  · subst h7; rfl
  by_cases h8 : c.toNat < 32
  · have harg : escapeChar c ++ cs =
        '\\' :: 'u' :: '0' :: '0' :: hexDigitChar (c.toNat / 16) ::
          hexDigitChar (c.toNat % 16) :: cs := by
      simp [escapeChar, h1, h2, h3, h4, h5, h6, h7, h8]
    rw [harg]
    have hv1 : hexVal (hexDigitChar (c.toNat / 16)) = some (c.toNat / 16) :=
      hexVal_hexDigitChar _ (by omega)
    have hv2 : hexVal (hexDigitChar (c.toNat % 16)) = some (c.toNat % 16) :=
      hexVal_hexDigitChar _ (Nat.mod_lt _ (by omega))
    have harith : ((0 * 16 + 0) * 16 + c.toNat / 16) * 16 + c.toNat % 16 = c.toNat := by
      omega
    have hstep : lexStr '"' ('\\' :: 'u' :: '0' :: '0' :: hexDigitChar (c.toNat / 16) ::
        hexDigitChar (c.toNat % 16) :: cs) =
        (match hexVal '0', hexVal '0', hexVal (hexDigitChar (c.toNat / 16)),
            hexVal (hexDigitChar (c.toNat % 16)) with
         | some a, some b, some c3, some d =>
           consDec [Char.ofNat (((a * 16 + b) * 16 + c3) * 16 + d)] false false
             (lexStr '"' cs)
         | _, _, _, _ =>
           consDec ['\\', 'u'] true false
             (lexStr '"' ('0' :: '0' :: hexDigitChar (c.toNat / 16) ::
               hexDigitChar (c.toNat % 16) :: cs))) := rfl
    rw [hstep, show hexVal '0' = some 0 from rfl, hv1, hv2]
    show consDec [Char.ofNat (((0 * 16 + 0) * 16 + c.toNat / 16) * 16 + c.toNat % 16)]
        false false (lexStr '"' cs) = _
    rw [harith, charOfNat_toNat c (by omega)]
  · have harg : escapeChar c ++ cs = c :: cs := by
      simp [escapeChar, h1, h2, h3, h4, h5, h6, h7, h8]
    rw [harg, lexStr_plain '"' c cs h1 h2]
    have : decide (c.toNat < 32) = false := by simpa using h8
    rw [this]

theorem lexStr_flatMap : ∀ (l : List Char) (rest : List Char),
    lexStr '"' (l.flatMap escapeChar ++ '"' :: rest) = some (l, false, false, rest) := by
  intro l
  induction l with
  | nil =>
    intro rest
    show lexStr '"' ([].flatMap escapeChar ++ '"' :: rest) = _
    rw [List.flatMap_nil, List.nil_append, lexStr_closeQuote]
  | cons c l ih =>
    intro rest
    rw [List.flatMap_cons, List.append_assoc, lexStr_escapeChar, ih]
    rfl

/-! ## takeIdent lemmas -/

theorem takeIdent_cons_not {c : Char} {t : List Char} (h : isIdentChar c = false) :
    takeIdent (c :: t) = ([], c :: t) := by
  simp [takeIdent, h]

theorem takeIdent_of_identDelim (cs : List Char) (h : identDelim cs) :
    takeIdent cs = ([], cs) := by
  cases cs with
  | nil => rfl
  | cons c t =>
    simp only [identDelim, Bool.not_eq_true] at h
    exact takeIdent_cons_not h

theorem takeIdent_append (ds rest : List Char)
    (hds : ∀ c ∈ ds, isIdentChar c = true) (hrest : takeIdent rest = ([], rest)) :
    takeIdent (ds ++ rest) = (ds, rest) := by
  induction ds with
  | nil => simpa using hrest
  | cons c t ih =>
    have hc : isIdentChar c = true := hds c (by simp)
    have ht := ih (fun x hx => hds x (by simp [hx]))
    simp [takeIdent, hc, ht]

/-! ## nextToken dispatch lemmas -/

theorem nextToken_lbrace (tl : List Char) : nextToken (lbraceC :: tl) = .ok (.lbrace, tl) := rfl

theorem nextToken_rbrace (tl : List Char) : nextToken (rbraceC :: tl) = .ok (.rbrace, tl) := rfl

theorem nextToken_lbrack (tl : List Char) : nextToken ('[' :: tl) = .ok (.lbrack, tl) := rfl

theorem nextToken_rbrack (tl : List Char) : nextToken (']' :: tl) = .ok (.rbrack, tl) := rfl

theorem nextToken_colon (tl : List Char) : nextToken (':' :: tl) = .ok (.colon, tl) := rfl

theorem nextToken_comma (tl : List Char) : nextToken (',' :: tl) = .ok (.comma, tl) := rfl

theorem nextToken_nil : nextToken [] = .ok (.eoi, []) := rfl

theorem nextToken_quote (tl : List Char) :
    nextToken ('"' :: tl) =
      (match lexStr '"' tl with
       | none => .error .untermString
       | some (d, u, rc, tl2) => .ok (.str (String.mk d) u '"' rc, tl2)) := rfl

theorem nextToken_serString (s : String) (rest : List Char) :
    nextToken (serString s ++ rest) = .ok (.str s false '"' false, rest) := by
  have harg : serString s ++ rest = '"' :: (s.data.flatMap escapeChar ++ '"' :: rest) := by
    simp [serString]
  rw [harg, nextToken_quote, lexStr_flatMap]

theorem nextToken_numChunk (c0 : Char) (tl : List Char) (h : isDigitChar c0 = true) :
    nextToken (c0 :: tl) = .ok (lexNum (c0 :: tl)) := by
  obtain ⟨hws, hb1, hb2, hb3, hb4, hb5, hb6, hq, hs⟩ := digit_class c0 h
  simp only [nextToken, skipWs_cons_not hws]
  rw [if_neg hb1, if_neg hb2, if_neg hb3, if_neg hb4, if_neg hb5, if_neg hb6]
  rw [hq, if_neg (by simp), if_neg hs, if_pos h]

theorem nextToken_dashNum (c1 : Char) (tl : List Char) (h : isDigitChar c1 = true) :
    nextToken ('-' :: c1 :: tl) = .ok (lexNum ('-' :: c1 :: tl)) := by
  simp only [nextToken, skipWs_cons_not (show isWsChar '-' = false by decide)]
  rw [if_neg (by decide), if_neg (by decide), if_neg (by decide), if_neg (by decide),
      if_neg (by decide), if_neg (by decide)]
  rw [show isQuoteChar '-' = false from by decide, if_neg (by simp), if_neg (by decide)]
  rw [show isDigitChar '-' = false from by decide, if_neg (by simp)]
  simp [h]

theorem nextToken_identChunk (c0 : Char) (ds rest : List Char)
    (hws : isWsChar c0 = false)
    (hb1 : ¬ c0 = lbraceC) (hb2 : ¬ c0 = rbraceC) (hb3 : ¬ c0 = '[') (hb4 : ¬ c0 = ']')
    (hb5 : ¬ c0 = ':') (hb6 : ¬ c0 = ',') (hq : isQuoteChar c0 = false) (hs : ¬ c0 = '/')
    (hd : isDigitChar c0 = false)
    (hsign : ((decide (c0 = '-') || decide (c0 = '+')) &&
      (match ds ++ rest with | c2 :: _ => isDigitChar c2 | [] => false)) = false)
    (hds : ∀ c ∈ ds, isIdentChar c = true) (hrest : identDelim rest) :
    nextToken (c0 :: (ds ++ rest)) = .ok (.ident (String.mk (c0 :: ds)), rest) := by
  simp only [nextToken, skipWs_cons_not hws]
  rw [if_neg hb1, if_neg hb2, if_neg hb3, if_neg hb4, if_neg hb5, if_neg hb6]
  rw [hq, if_neg (by simp), if_neg hs, hd, if_neg (by simp), hsign,
      if_neg (show ¬(false = true) by simp)]
  rw [takeIdent_append ds rest hds (takeIdent_of_identDelim rest hrest)]

/-! ## Serialization lexing chain -/

theorem serDelim_numDelim (cs : List Char) (h : serDelim cs) : numDelim cs := by
  cases cs with
  | nil => trivial
  | cons c t =>
    simp only [serDelim] at h
    rcases h with h | h | h | h <;> subst h <;> simp only [numDelim] <;> decide

theorem serDelim_identDelim (cs : List Char) (h : serDelim cs) : identDelim cs := by
  cases cs with
  | nil => trivial
  | cons c t =>
    simp only [serDelim] at h
    rcases h with h | h | h | h <;> subst h <;> simp only [identDelim] <;> decide

theorem LexSteps.single {cs : List Char} {t : Token} {cs1 : List Char}
    (h : nextToken cs = .ok (t, cs1)) (hne : t ≠ .eoi) : LexSteps cs [t] cs1 :=
  .step cs t cs1 [] cs1 h hne (.nil cs1)

theorem LexSteps.append {a : List Char} {ts : List Token} {b : List Char}
    {ts2 : List Token} {c : List Char}
    (h1 : LexSteps a ts b) (h2 : LexSteps b ts2 c) : LexSteps a (ts ++ ts2) c := by
  induction h1 with
  | nil => simpa using h2
  | step cs t cs1 ts0 cs2 h hne htl ih =>
    exact .step cs t cs1 (ts0 ++ ts2) c h hne (ih h2)

theorem decToChars_head (m : Int) (e : Nat) :
    (0 ≤ m → ∃ c0 t0, decToChars m e = c0 :: t0 ∧ isDigitChar c0 = true) ∧
    (m < 0 → ∃ c1 t1, decToChars m e = '-' :: c1 :: t1 ∧ isDigitChar c1 = true) := by
  cases e with
  | zero =>
    obtain ⟨c0, t0, h0⟩ := List.exists_cons_of_ne_nil (natToChars_ne_nil m.natAbs)
    have hc0 : isDigitChar c0 = true := by
      apply natToChars_digits
      rw [h0]; simp
    constructor
    · intro hm
      refine ⟨c0, t0 ++ ['.', '0'], ?_, hc0⟩
      simp [decToChars, not_lt.mpr hm, h0]
    · intro hm
      refine ⟨c0, t0 ++ ['.', '0'], ?_, hc0⟩
      simp [decToChars, hm, h0]
  | succ e2 =>
    set padded := List.replicate (e2 + 1 + 1 - (natToChars m.natAbs).length) '0' ++
      natToChars m.natAbs with hpad
    have hLe : e2 + 2 ≤ padded.length := by
      rw [hpad, List.length_append, List.length_replicate]
      have := natToChars_ne_nil m.natAbs
      have hpos : 1 ≤ (natToChars m.natAbs).length := by
        cases hl : (natToChars m.natAbs).length with
        | zero => exact absurd (List.eq_nil_of_length_eq_zero hl) this
        | succ k => omega
      omega
    have htne : padded.take (padded.length - (e2 + 1)) ≠ [] := by
      intro hnil
      have := congrArg List.length hnil
      rw [List.length_take] at this
      simp at this
      omega
    obtain ⟨c0, t0, h0⟩ := List.exists_cons_of_ne_nil htne
    have hc0 : isDigitChar c0 = true := by
      have hmem : c0 ∈ padded := List.take_subset _ _ (by rw [h0]; simp)
      rw [hpad] at hmem
      rcases List.mem_append.mp hmem with hc | hc
      · have := List.eq_of_mem_replicate hc
        subst this; decide
      · exact natToChars_digits _ _ hc
    constructor
    · intro hm
      refine ⟨c0, t0 ++ '.' :: padded.drop (padded.length - (e2 + 1)), ?_, hc0⟩
      simp only [decToChars, Nat.succ_ne_zero, if_false, not_lt.mpr hm, ← hpad]
      rw [h0]
      simp
    · intro hm
      refine ⟨c0, t0 ++ '.' :: padded.drop (padded.length - (e2 + 1)), ?_, hc0⟩
      simp only [decToChars, Nat.succ_ne_zero, if_false, hm, if_true, ← hpad]
      rw [h0]
      simp

theorem nextToken_serNum (n : JNum) (rest : List Char) (hn : numNorm n)
    (hnd : numDelim rest) (hid : identDelim rest) :
    ∃ t, nextToken (numToChars n ++ rest) = .ok (t, rest) ∧
      tokensOf (.num n) = [t] ∧ t ≠ .eoi := by
  cases n with
  | int i =>
    refine ⟨.num (String.mk (intToChars i)) (.int i), ?_, rfl, by simp⟩
    by_cases hi : i < 0
    · obtain ⟨c1, t1, h1⟩ := List.exists_cons_of_ne_nil (natToChars_ne_nil i.natAbs)
      have hc1 : isDigitChar c1 = true := by
        apply natToChars_digits
        rw [h1]; simp
      have harg : numToChars (.int i) ++ rest = '-' :: c1 :: (t1 ++ rest) := by
        simp [numToChars, intToChars, hi, h1]
      rw [harg, nextToken_dashNum c1 (t1 ++ rest) hc1, ← List.cons_append, ← h1,
        ← List.cons_append]
      have : '-' :: natToChars i.natAbs = intToChars i := by simp [intToChars, hi]
      rw [this, lexNum_int i rest hnd]
    · obtain ⟨c0, t0, h0⟩ := List.exists_cons_of_ne_nil (natToChars_ne_nil i.natAbs)
      have hc0 : isDigitChar c0 = true := by
        apply natToChars_digits
        rw [h0]; simp
      have harg : numToChars (.int i) ++ rest = c0 :: (t0 ++ rest) := by
        simp [numToChars, intToChars, hi, h0]
      rw [harg, nextToken_numChunk c0 (t0 ++ rest) hc0, ← List.cons_append, ← h0]
      have : natToChars i.natAbs = intToChars i := by simp [intToChars, hi]
      rw [this, lexNum_int i rest hnd]
  | dec m e =>
    refine ⟨.num (String.mk (decToChars m e)) (.dec m e), ?_, rfl, by simp⟩
    by_cases hm : m < 0
    · obtain ⟨c1, t1, h1, hc1⟩ := (decToChars_head m e).2 hm
      have harg : numToChars (.dec m e) ++ rest = '-' :: c1 :: (t1 ++ rest) := by
        simp [numToChars, h1]
      rw [harg, nextToken_dashNum c1 (t1 ++ rest) hc1, ← List.cons_append,
        ← List.cons_append, ← h1, lexNum_dec m e rest hn hnd]
    · obtain ⟨c0, t0, h0, hc0⟩ := (decToChars_head m e).1 (not_lt.mp hm)
      have harg : numToChars (.dec m e) ++ rest = c0 :: (t0 ++ rest) := by
        simp [numToChars, h0]
      rw [harg, nextToken_numChunk c0 (t0 ++ rest) hc0, ← List.cons_append, ← h0,
        lexNum_dec m e rest hn hnd]
  | nan =>
    refine ⟨.ident "NaN", ?_, rfl, by decide⟩
    have h := nextToken_identChunk 'N' ['a', 'N'] rest (by decide) (by decide) (by decide)
      (by decide) (by decide) (by decide) (by decide) (by decide) (by decide) (by decide)
      (by simp) (by decide) hid
    exact h
  | inf neg =>
    cases neg with
    | false =>
      refine ⟨.ident "Infinity", ?_, rfl, by decide⟩
      have h := nextToken_identChunk 'I' ['n', 'f', 'i', 'n', 'i', 't', 'y'] rest
        (by decide) (by decide) (by decide) (by decide) (by decide) (by decide)
        (by decide) (by decide) (by decide) (by decide) (by simp) (by decide) hid
      exact h
    | true =>
      refine ⟨.ident "-Infinity", ?_, rfl, by decide⟩
      have h := nextToken_identChunk '-' ['I', 'n', 'f', 'i', 'n', 'i', 't', 'y'] rest
        (by decide) (by decide) (by decide) (by decide) (by decide) (by decide)
        (by decide) (by decide) (by decide) (by decide)
        (by simp [show isDigitChar 'I' = false from by decide]) (by decide) hid
      exact h

mutual

theorem serSteps_value : ∀ (v : Value) (rest : List Char), wfValue v → serDelim rest →
    LexSteps (serValue v ++ rest) (tokensOf v) rest
  | .null, rest, _, hrest => by
    have h := nextToken_identChunk 'n' ['u', 'l', 'l'] rest (by decide) (by decide)
      (by decide) (by decide) (by decide) (by decide) (by decide) (by decide) (by decide)
      (by decide) (by simp) (by decide) (serDelim_identDelim rest hrest)
    exact LexSteps.single h (by decide)
  | .bool true, rest, _, hrest => by
    have h := nextToken_identChunk 't' ['r', 'u', 'e'] rest (by decide) (by decide)
      (by decide) (by decide) (by decide) (by decide) (by decide) (by decide) (by decide)
      (by decide) (by simp) (by decide) (serDelim_identDelim rest hrest)
    exact LexSteps.single h (by decide)
  | .bool false, rest, _, hrest => by
    have h := nextToken_identChunk 'f' ['a', 'l', 's', 'e'] rest (by decide) (by decide)
      (by decide) (by decide) (by decide) (by decide) (by decide) (by decide) (by decide)
      (by decide) (by simp) (by decide) (serDelim_identDelim rest hrest)
    exact LexSteps.single h (by decide)
  | .num n, rest, hwf, hrest => by
    obtain ⟨t, h, hts, hne⟩ := nextToken_serNum n rest hwf
      (serDelim_numDelim rest hrest) (serDelim_identDelim rest hrest)
    rw [hts]
    exact LexSteps.single h hne
  | .str s, rest, _, _ =>
    LexSteps.single (nextToken_serString s rest) (by simp)
  | .arr xs, rest, hwf, hrest => by
    have harg : serValue (.arr xs) ++ rest = '[' :: (serItems xs ++ ']' :: rest) := by
      simp [serValue]
    rw [harg]
    exact LexSteps.step _ _ _ _ _ (nextToken_lbrack _) (by decide)
      (serSteps_items xs rest hwf)
  | .obj kvs, rest, hwf, hrest => by
    have harg : serValue (.obj kvs) ++ rest =
        lbraceC :: (serMembers kvs ++ rbraceC :: rest) := by
      simp [serValue]
    rw [harg]
    exact LexSteps.step _ _ _ _ _ (nextToken_lbrace _) (by decide)
      (serSteps_members kvs rest hwf.2)

theorem serSteps_items : ∀ (xs : List Value) (rest : List Char), wfList xs →
    LexSteps (serItems xs ++ ']' :: rest) (tokensItems xs ++ [.rbrack]) rest
  | [], rest, _ =>
    LexSteps.single (nextToken_rbrack rest) (by decide)
  | [x], rest, hwf => by
    have h1 := serSteps_value x (']' :: rest) hwf.1 (by simp [serDelim])
    have h2 : LexSteps (']' :: rest) [Token.rbrack] rest :=
      LexSteps.single (nextToken_rbrack rest) (by decide)
    exact LexSteps.append h1 h2
  | x :: y :: xs, rest, hwf => by
    have harg : serItems (x :: y :: xs) ++ ']' :: rest =
        serValue x ++ ',' :: (serItems (y :: xs) ++ ']' :: rest) := by
      simp [serItems]
    have harg2 : tokensItems (x :: y :: xs) ++ [Token.rbrack] =
        tokensOf x ++ (Token.comma :: (tokensItems (y :: xs) ++ [Token.rbrack])) := by
      simp [tokensItems]
    rw [harg, harg2]
    have h1 := serSteps_value x (',' :: (serItems (y :: xs) ++ ']' :: rest)) hwf.1
      (by simp [serDelim])
    have h3 := serSteps_items (y :: xs) rest hwf.2
    exact LexSteps.append h1
      (LexSteps.step _ _ _ _ _ (nextToken_comma _) (by decide) h3)

theorem serSteps_members : ∀ (kvs : List (String × Value)) (rest : List Char),
    wfMembers kvs →
    LexSteps (serMembers kvs ++ rbraceC :: rest) (tokensMembers kvs ++ [.rbrace]) rest
  | [], rest, _ =>
    LexSteps.single (nextToken_rbrace rest) (by decide)
  | [(k, v)], rest, hwf => by
    have harg : serMembers [(k, v)] ++ rbraceC :: rest =
        serString k ++ ':' :: (serValue v ++ rbraceC :: rest) := by
      simp [serMembers]
    have harg2 : tokensMembers [(k, v)] ++ [Token.rbrace] =
        Token.str k false '"' false :: Token.colon ::
          (tokensOf v ++ [Token.rbrace]) := by
      simp [tokensMembers]
    rw [harg, harg2]
    have h1 := serSteps_value v (rbraceC :: rest) hwf.1 (by simp [serDelim])
    have h2 : LexSteps (rbraceC :: rest) [Token.rbrace] rest :=
      LexSteps.single (nextToken_rbrace rest) (by decide)
    exact LexSteps.step _ _ _ _ _ (nextToken_serString k _) (by simp)
      (LexSteps.step _ _ _ _ _ (nextToken_colon _) (by decide)
        (LexSteps.append h1 h2))
  | (k, v) :: m :: kvs, rest, hwf => by
    have harg : serMembers ((k, v) :: m :: kvs) ++ rbraceC :: rest =
        serString k ++ ':' :: (serValue v ++ ',' ::
          (serMembers (m :: kvs) ++ rbraceC :: rest)) := by
      simp [serMembers]
    have harg2 : tokensMembers ((k, v) :: m :: kvs) ++ [Token.rbrace] =
        Token.str k false '"' false :: Token.colon ::
          (tokensOf v ++ Token.comma :: (tokensMembers (m :: kvs) ++ [Token.rbrace])) := by
      simp [tokensMembers]
    rw [harg, harg2]
    have h1 := serSteps_value v (',' :: (serMembers (m :: kvs) ++ rbraceC :: rest)) hwf.1
      (by simp [serDelim])
    have h3 := serSteps_members (m :: kvs) rest hwf.2
    exact LexSteps.step _ _ _ _ _ (nextToken_serString k _) (by simp)
      (LexSteps.step _ _ _ _ _ (nextToken_colon _) (by decide)
        (LexSteps.append h1
          (LexSteps.step _ _ _ _ _ (nextToken_comma _) (by decide) h3)))

end

/-! ## Parsing a serialized token stream -/

theorem tokensOf_head (x : Value) :
    ∃ t ts, tokensOf x = t :: ts ∧ t.isValueStart = true := by
  cases x with
  | null => exact ⟨_, _, rfl, rfl⟩
  | bool b => cases b <;> exact ⟨_, _, rfl, rfl⟩
  | num n =>
    cases n with
    | int i => exact ⟨_, _, rfl, rfl⟩
    | dec m e => exact ⟨_, _, rfl, rfl⟩
    | nan => exact ⟨_, _, rfl, rfl⟩
    | inf neg => cases neg <;> exact ⟨_, _, rfl, rfl⟩
  | str s => exact ⟨_, _, rfl, rfl⟩
  | arr xs => exact ⟨_, _, rfl, rfl⟩
  | obj kvs => exact ⟨_, _, rfl, rfl⟩

theorem parseArrItems_stepVS (f : Nat) (t : Token) (ts : List Token) (acc : List Value)
    (h : t.isValueStart = true) :
    parseArrItems (f + 1) (t :: ts) acc =
      (match parseValue f (t :: ts) with
       | .error e => .error e
       | .ok (v, ts1) => parseArrAfter f ts1 (acc ++ [v])) := by
  cases t <;> first
  | rfl
  | simp only [Token.isValueStart, Bool.false_eq_true] at h

theorem lookupKV_append (a b : List (String × Value)) (k : String) :
    lookupKV (a ++ b) k =
      (match lookupKV a k with
       | some v => some v
       | none => lookupKV b k) := by
  induction a with
  | nil => rfl
  | cons kv tl ih =>
    obtain ⟨k0, v0⟩ := kv
    by_cases h : k0 = k <;> simp [lookupKV, h, ih]

theorem keysOK_head_none (acc : List (String × Value)) (k : String) (v : Value)
    (tl : List (String × Value)) (h : keysOK (acc ++ (k, v) :: tl)) :
    lookupKV acc k = none := by
  induction acc with
  | nil => rfl
  | cons kv acc' ih =>
    obtain ⟨k0, v0⟩ := kv
    obtain ⟨h0, h1⟩ := h
    replace h0 : lookupKV (acc' ++ (k, v) :: tl) k0 = none := h0
    replace h1 : keysOK (acc' ++ (k, v) :: tl) := h1
    have hne : ¬(k0 = k) := by
      intro heq
      subst heq
      rw [lookupKV_append] at h0
      cases hl : lookupKV acc' k0 with
      | some w => rw [hl] at h0; exact Option.noConfusion h0
      | none =>
        rw [hl] at h0
        simp [lookupKV] at h0
    simp only [lookupKV, if_neg hne]
    exact ih h1

theorem insertKV_append (acc : List (String × Value)) (k : String) (v : Value)
    (h : lookupKV acc k = none) : insertKV acc k v = acc ++ [(k, v)] := by
  induction acc with
  | nil => rfl
  | cons kv tl ih =>
    obtain ⟨k0, v0⟩ := kv
    by_cases he : k0 = k
    · subst he
      simp only [lookupKV, if_pos rfl] at h
      exact Option.noConfusion h
    · simp only [lookupKV, if_neg he] at h
      simp [insertKV, he, ih h]

theorem keysOK_assoc (acc : List (String × Value)) (k : String) (v : Value)
    (tl : List (String × Value)) :
    acc ++ (k, v) :: tl = (acc ++ [(k, v)]) ++ tl := by
  simp

mutual

theorem parseVal_tokensOf : ∀ (v : Value) (rest : List Token) (f : Nat), wfValue v →
    2 * (tokensOf v).length + 1 ≤ f →
    parseValue f (tokensOf v ++ rest) = .ok (v, rest)
  | .null, rest, f, _, hf => by
    obtain ⟨g, rfl⟩ : ∃ g, f = g + 1 := ⟨f - 1, by omega⟩
    rfl
  | .bool true, rest, f, _, hf => by
    obtain ⟨g, rfl⟩ : ∃ g, f = g + 1 := ⟨f - 1, by omega⟩
    rfl
  | .bool false, rest, f, _, hf => by
    obtain ⟨g, rfl⟩ : ∃ g, f = g + 1 := ⟨f - 1, by omega⟩
    rfl
  | .num n, rest, f, _, hf => by
    obtain ⟨g, rfl⟩ : ∃ g, f = g + 1 := ⟨f - 1, by omega⟩
    cases n with
    | int i => rfl
    | dec m e => rfl
    | nan => rfl
    | inf neg => cases neg <;> rfl
  | .str s, rest, f, _, hf => by
    obtain ⟨g, rfl⟩ : ∃ g, f = g + 1 := ⟨f - 1, by omega⟩
    rfl
  | .arr xs, rest, f, hwf, hf => by
    obtain ⟨g, rfl⟩ : ∃ g, f = g + 1 := ⟨f - 1, by omega⟩
    have harg : tokensOf (.arr xs) ++ rest =
        Token.lbrack :: (tokensItems xs ++ Token.rbrack :: rest) := by
      simp [tokensOf]
    rw [harg]
    have hstep : parseValue (g + 1)
        (Token.lbrack :: (tokensItems xs ++ Token.rbrack :: rest)) =
        parseArrItems g (tokensItems xs ++ Token.rbrack :: rest) [] := rfl
    rw [hstep, parseItems_tokensItems xs [] rest g hwf (by
      simp only [tokensOf, List.length_cons, List.length_append] at hf
      omega)]
    simp
  | .obj kvs, rest, f, hwf, hf => by
    obtain ⟨g, rfl⟩ : ∃ g, f = g + 1 := ⟨f - 1, by omega⟩
    have harg : tokensOf (.obj kvs) ++ rest =
        Token.lbrace :: (tokensMembers kvs ++ Token.rbrace :: rest) := by
      simp [tokensOf]
    rw [harg]
    have hstep : parseValue (g + 1)
        (Token.lbrace :: (tokensMembers kvs ++ Token.rbrace :: rest)) =
        parseObjItems g (tokensMembers kvs ++ Token.rbrace :: rest) [] := rfl
    rw [hstep, parseMembers_tokensMembers kvs [] rest g hwf.2 (by simpa using hwf.1) (by
      simp only [tokensOf, List.length_cons, List.length_append] at hf
      omega)]
    simp

theorem parseItems_tokensItems : ∀ (xs : List Value) (acc : List Value)
    (rest : List Token) (f : Nat), wfList xs →
    2 * (tokensItems xs).length + 2 ≤ f →
    parseArrItems f (tokensItems xs ++ Token.rbrack :: rest) acc =
      .ok (.arr (acc ++ xs), rest)
  | [], acc, rest, f, _, hf => by
    obtain ⟨g, rfl⟩ : ∃ g, f = g + 1 := ⟨f - 1, by omega⟩
    show parseArrItems (g + 1) (Token.rbrack :: rest) acc = _
    simp [parseArrItems]
  | [x], acc, rest, f, hwf, hf => by
    obtain ⟨g, rfl⟩ : ∃ g, f = g + 1 := ⟨f - 1, by omega⟩
    obtain ⟨t, ts, hx, hvs⟩ := tokensOf_head x
    have hlen : 1 ≤ (tokensOf x).length := by rw [hx]; simp
    have harg : tokensItems [x] ++ Token.rbrack :: rest =
        t :: (ts ++ Token.rbrack :: rest) := by
      show tokensOf x ++ Token.rbrack :: rest = _
      rw [hx]; simp
    rw [harg, parseArrItems_stepVS g t (ts ++ Token.rbrack :: rest) acc hvs]
    have hback : t :: (ts ++ Token.rbrack :: rest) =
        tokensOf x ++ Token.rbrack :: rest := by
      rw [hx]; simp
    rw [hback, parseVal_tokensOf x (Token.rbrack :: rest) g hwf.1 (by
      simp only [tokensItems] at hf
      omega)]
    obtain ⟨g2, rfl⟩ : ∃ g2, g = g2 + 1 := ⟨g - 1, by omega⟩
    show parseArrAfter (g2 + 1) (Token.rbrack :: rest) (acc ++ [x]) = _
    simp [parseArrAfter, tokensItems]
  | x :: y :: xs, acc, rest, f, hwf, hf => by
    obtain ⟨g, rfl⟩ : ∃ g, f = g + 1 := ⟨f - 1, by omega⟩
    obtain ⟨t, ts, hx, hvs⟩ := tokensOf_head x
    have hlen : 1 ≤ (tokensOf x).length := by rw [hx]; simp
    have hleni : tokensItems (x :: y :: xs) =
        tokensOf x ++ Token.comma :: tokensItems (y :: xs) := rfl
    have harg : tokensItems (x :: y :: xs) ++ Token.rbrack :: rest =
        t :: (ts ++ (Token.comma :: (tokensItems (y :: xs) ++ Token.rbrack :: rest))) := by
      rw [hleni, hx]; simp
    rw [harg, parseArrItems_stepVS g t _ acc hvs]
    have hback : t :: (ts ++ (Token.comma ::
        (tokensItems (y :: xs) ++ Token.rbrack :: rest))) =
        tokensOf x ++ (Token.comma :: (tokensItems (y :: xs) ++ Token.rbrack :: rest)) := by
      rw [hx]; simp
    rw [hback, parseVal_tokensOf x _ g hwf.1 (by
      rw [hleni] at hf
      simp only [List.length_append, List.length_cons] at hf
      omega)]
    obtain ⟨g2, rfl⟩ : ∃ g2, g = g2 + 1 := ⟨g - 1, by omega⟩
    show parseArrItems g2 (tokensItems (y :: xs) ++ Token.rbrack :: rest)
      (acc ++ [x]) = _
    rw [parseItems_tokensItems (y :: xs) (acc ++ [x]) rest g2 hwf.2 (by
      rw [hleni] at hf
      simp only [List.length_append, List.length_cons] at hf
      omega)]
    simp

theorem parseMembers_tokensMembers : ∀ (kvs : List (String × Value))
    (acc : List (String × Value)) (rest : List Token) (f : Nat), wfMembers kvs →
    keysOK (acc ++ kvs) →
    2 * (tokensMembers kvs).length + 2 ≤ f →
    parseObjItems f (tokensMembers kvs ++ Token.rbrace :: rest) acc =
      .ok (.obj (acc ++ kvs), rest)
  | [], acc, rest, f, _, _, hf => by
    obtain ⟨g, rfl⟩ : ∃ g, f = g + 1 := ⟨f - 1, by omega⟩
    show parseObjItems (g + 1) (Token.rbrace :: rest) acc = _
    simp [parseObjItems]
  | [(k, v)], acc, rest, f, hwf, hkeys, hf => by
    obtain ⟨g, rfl⟩ : ∃ g, f = g + 2 := ⟨f - 2, by omega⟩
    have htm : tokensMembers [(k, v)] =
        Token.str k false '"' false :: Token.colon :: tokensOf v := rfl
    have hflen : 2 * (tokensOf v).length + 6 ≤ g + 2 := by
      rw [htm] at hf
      simp only [List.length_cons] at hf
      omega
    have harg : tokensMembers [(k, v)] ++ Token.rbrace :: rest =
        Token.str k false '"' false :: Token.colon ::
          (tokensOf v ++ Token.rbrace :: rest) := by
      rw [htm]; simp
    rw [harg]
    have hstep : parseObjItems (g + 2) (Token.str k false '"' false :: Token.colon ::
        (tokensOf v ++ Token.rbrace :: rest)) acc =
        (match parseValue g (tokensOf v ++ Token.rbrace :: rest) with
         | .error e => .error e
         | .ok (w, ts1) => parseObjAfter g ts1 (insertKV acc k w)) := rfl
    rw [hstep, parseVal_tokensOf v _ g hwf.1 (by omega)]
    have hins : insertKV acc k v = acc ++ [(k, v)] :=
      insertKV_append acc k v (keysOK_head_none acc k v [] hkeys)
    obtain ⟨g2, rfl⟩ : ∃ g2, g = g2 + 1 := ⟨g - 1, by omega⟩
    show parseObjAfter (g2 + 1) (Token.rbrace :: rest) (insertKV acc k v) = _
    simp [parseObjAfter, hins, tokensMembers]
  | (k, v) :: m :: kvs, acc, rest, f, hwf, hkeys, hf => by
    obtain ⟨g, rfl⟩ : ∃ g, f = g + 2 := ⟨f - 2, by omega⟩
    have hlenm : tokensMembers ((k, v) :: m :: kvs) =
        Token.str k false '"' false :: Token.colon ::
          (tokensOf v ++ Token.comma :: tokensMembers (m :: kvs)) := rfl
    have harg : tokensMembers ((k, v) :: m :: kvs) ++ Token.rbrace :: rest =
        Token.str k false '"' false :: Token.colon ::
          (tokensOf v ++ (Token.comma ::
            (tokensMembers (m :: kvs) ++ Token.rbrace :: rest))) := by
      rw [hlenm]; simp
    rw [harg]
    have hstep : parseObjItems (g + 2) (Token.str k false '"' false :: Token.colon ::
        (tokensOf v ++ (Token.comma ::
          (tokensMembers (m :: kvs) ++ Token.rbrace :: rest)))) acc =
        (match parseValue g (tokensOf v ++ (Token.comma ::
            (tokensMembers (m :: kvs) ++ Token.rbrace :: rest))) with
         | .error e => .error e
         | .ok (w, ts1) => parseObjAfter g ts1 (insertKV acc k w)) := rfl
    have hflen : 2 * ((tokensOf v).length + 1 + (tokensMembers (m :: kvs)).length) +
        6 ≤ g + 2 := by
      rw [hlenm] at hf
      simp only [List.length_cons, List.length_append] at hf
      omega
    rw [hstep, parseVal_tokensOf v _ g hwf.1 (by omega)]
    have hins : insertKV acc k v = acc ++ [(k, v)] :=
      insertKV_append acc k v (keysOK_head_none acc k v (m :: kvs) hkeys)
    obtain ⟨g2, rfl⟩ : ∃ g2, g = g2 + 1 := ⟨g - 1, by omega⟩
    show parseObjItems g2 (tokensMembers (m :: kvs) ++ Token.rbrace :: rest)
      (insertKV acc k v) = _
    rw [hins]
    have hkeys2 : keysOK ((acc ++ [(k, v)]) ++ (m :: kvs)) := by
      rw [← keysOK_assoc]
      exact hkeys
    rw [parseMembers_tokensMembers (m :: kvs) (acc ++ [(k, v)]) rest g2 hwf.2 hkeys2
      (by omega)]
    rw [← keysOK_assoc]

end

/-! ## Shared parser lemmas -/

/-- Decoding an unknown escape sequence: the backslash and the following
character are copied verbatim, the unknown-escape flag is raised and
decoding continues. -/
theorem lexStr_unknownEsc (q c : Char) (rest : List Char)
    (hbq : ¬(('\\' : Char) = q)) (hesc : escChar c = none) (hu : c ≠ 'u') :
    lexStr q ('\\' :: c :: rest) = consDec ['\\', c] true false (lexStr q rest) := by
  simp only [lexStr]
  try rw [if_neg hbq]
  try simp only [if_true]
  try rw [hesc]
  all_goals rfl

/-- Auto-closing a run of unmatched opening brackets: with enough fuel,
parsing `n + 1` opening brackets followed by end-of-input yields the
`n + 1`-fold nested empty array, the innermost container closed first. -/
theorem parseValue_openRun : ∀ (n f : Nat), 2 * n + 4 ≤ f →
    parseValue f (List.replicate (n + 1) Token.lbrack ++ [Token.eoi]) =
      .ok (nestedArr n, [Token.eoi]) := by
  intro n
  induction n with
  | zero =>
    intro f hf
    obtain ⟨a, rfl⟩ : ∃ a, f = a + 2 := ⟨f - 2, by omega⟩
    rfl
  | succ n ih =>
    intro f hf
    obtain ⟨a, rfl⟩ : ∃ a, f = a + 2 := ⟨f - 2, by omega⟩
    have h1 : parseValue (a + 2) (List.replicate (n + 2) Token.lbrack ++ [Token.eoi])
        = parseArrItems (a + 1) (List.replicate (n + 1) Token.lbrack ++ [Token.eoi]) [] := by
      rw [List.replicate_succ]
      rfl
    have h2 : parseArrItems (a + 1) (List.replicate (n + 1) Token.lbrack ++ [Token.eoi]) []
        = (match parseValue a (List.replicate (n + 1) Token.lbrack ++ [Token.eoi]) with
           | .error e => .error e
           | .ok (v, ts1) => parseArrAfter a ts1 ([] ++ [v])) := by
      rw [List.replicate_succ]
      rfl
    rw [h1, h2, ih a (by omega)]
    obtain ⟨b, rfl⟩ : ∃ b, a = b + 1 := ⟨a - 1, by omega⟩
    rfl

/-! ## Claim theorems (concrete behaviour) -/

/-- C3: `repair_json` maps the Python-style bare identifiers `True`,
`False`, `None` to the JSON primitives `true`, `false`, `null`; in
particular on the object of the reproduction script it returns
`a ↦ true, b ↦ null, c ↦ false`. -/
theorem C3_python_literals :
    resolveIdent "True" = .bool true ∧ resolveIdent "False" = .bool false ∧
    resolveIdent "None" = .null ∧
    repair_json "\x7b\"a\": True, \"b\": None, \"c\": False\x7d" =
      .ok (.obj [("a", .bool true), ("b", .null), ("c", .bool false)]) :=
  ⟨rfl, rfl, rfl, rfl⟩

/-- C4: a trailing comma before a closing bracket and a `//` comment are
both discarded: the documented input repairs to
`a ↦ 1, b ↦ [1, 2]`. -/
theorem C4_trailing_comma_and_comment :
    repair_json "\x7b \"a\": 1, \"b\": [1, 2,], // comment\n \x7d" =
      .ok (.obj [("a", .num (.int 1)), ("b", .arr [.num (.int 1), .num (.int 2)])]) :=
  rfl

/-- C6: boundary extraction discards non-JSON prose preceding the first
opening bracket. -/
theorem C6_prefix_extraction :
    repair_json "Here is the json: \x7b\"key\": \"value\"\x7d" =
      .ok (.obj [("key", .str "value")]) :=
  rfl

/-- C7: on the noisy byte blob of the API test, the schema-guided
extractor succeeds, discarding the surrounding prose and the stray `%`
token before the closing brace, and returns the summary and the score. -/
theorem C7_noisy_bytes_extraction :
    (JsonExtractor.mk apiTestSchema).extract
      "Thoughts... \x7b\"summary\": \"Done\", \"score\": 95.5 %\x7d Thanks!" =
      .ok (.obj [("summary", .str "Done"), ("score", .num (.dec 955 1))]) :=
  rfl

/-- C8: when the parsed object lacks a required name, `extract` raises a
validation error naming the first missing required name, in the order the
schema lists them, regardless of the declared properties. -/
theorem C8_missing_required (sch : Schema) (s : String)
    (kvs : List (String × Value)) (r : String)
    (h1 : repair_json s = .ok (.obj kvs))
    (h2 : sch.kind = .object)
    (h3 : firstMissing sch.required kvs = some r) :
    (JsonExtractor.mk sch).extract s = .error (.invalid (.missingField r)) := by
  unfold JsonExtractor.extract
  rw [h1]
  cases sch with
  | mk k props req =>
    simp only [Schema.kind] at h2
    subst h2
    simp only [Schema.required] at h3
    unfold validate
    simp only [Value.kindOf, Schema.kind, if_pos, h3]

/-- C8 witness: the API test instance — schema requiring `summary`,
input without it — raises the validation error naming `summary`. -/
theorem C8_missing_required_witness :
    (JsonExtractor.mk apiTestSchema).extract "\x7b'score': 10\x7d" =
      .error (.invalid (.missingField "summary")) :=
  C8_missing_required apiTestSchema "\x7b'score': 10\x7d"
    [("score", .num (.int 10))] "summary" rfl rfl rfl

/-- C10: when validation passes, `extract` returns exactly the parsed
value of the repair pipeline — the full object, with every member
(declared in the schema or not) passed through unchanged — and
conversely everything the repair pipeline parses that validates is
returned as is. -/
theorem C10_full_object_passthrough (je : JsonExtractor) (s : String) (v : Value) :
    (je.extract s = .ok v → repair_json s = .ok v) ∧
    (repair_json s = .ok v → validate "$" je.schema v = .ok () → je.extract s = .ok v) := by
  constructor
  · intro h
    simp only [JsonExtractor.extract] at h
    cases hr : repair_json s with
    | error e => rw [hr] at h; simp at h
    | ok w =>
      rw [hr] at h
      simp only [] at h
      cases hv : validate "$" je.schema w with
      | error e => rw [hv] at h; simp at h
      | ok u =>
        rw [hv] at h
        simp only [Except.ok.injEq] at h
        rw [h]
  · intro h1 h2
    simp only [JsonExtractor.extract, h1, h2]

/-- C10 witness: a schema declaring (and requiring) only `summary`
extracts an object that also carries an undeclared `extra` member; the
member comes through unfiltered. -/
theorem C10_full_object_passthrough_witness :
    (JsonExtractor.mk (.mk .object [("summary", .mk .string [] [])] ["summary"])).extract
      "\x7b\"summary\": \"x\", \"extra\": 7\x7d" =
      .ok (.obj [("summary", .str "x"), ("extra", .num (.int 7))]) :=
  (C10_full_object_passthrough
      (JsonExtractor.mk (.mk .object [("summary", .mk .string [] [])] ["summary"]))
      "\x7b\"summary\": \"x\", \"extra\": 7\x7d"
      (.obj [("summary", .str "x"), ("extra", .num (.int 7))])).2 rfl rfl

/-- C9: at end-of-input with containers still open the parser synthesizes
the missing closers in reverse order of opening — a run of `n + 1`
unmatched opening brackets yields the `n + 1`-fold nested array, and an
unterminated object-of-array input closes innermost first — while an
empty or whitespace-only input, or one with a closer where a value is
mandatory, fails with `StructuralError`. -/
theorem C9_autoclose_and_empty_failure :
    (∀ n : Nat,
      parseValue (2 * n + 4) (List.replicate (n + 1) Token.lbrack ++ [Token.eoi]) =
        .ok (nestedArr n, [Token.eoi])) ∧
    repair_json "[[[" = .ok (.arr [.arr [.arr []]]) ∧
    repair_json "\x7b\"a\": [1, 2" =
      .ok (.obj [("a", .arr [.num (.int 1), .num (.int 2)])]) ∧
    repair_json "" = .error (.structural .noValue) ∧
    repair_json "   " = .error (.structural .noValue) ∧
    repair_json "]" = .error (.structural .noValue) :=
  ⟨fun n => parseValue_openRun n (2 * n + 4) (le_refl _), rfl, rfl, rfl, rfl, rfl⟩

/-- C5: decoding a string literal decodes the standard JSON escapes and
copies every other backslash sequence into the decoded string verbatim,
backslash included, without error; concretely, the doubled-backslash
Windows path keeps its two backslashes and the malformed `\u123z` escape
survives verbatim. -/
theorem C5_unknown_escape_preserved (q c : Char) (rest : List Char)
    (hq : q = '"' ∨ q = squoteC) (hesc : escChar c = none) (hu : c ≠ 'u') :
    lexStr q ('\\' :: c :: rest) = consDec ['\\', c] true false (lexStr q rest) ∧
    repair_json "\x7b\"path\": \"C:\\\\\\\\Windows\", \"weird\": \"\\\\\\\\u123z\"\x7d" =
      .ok (.obj [("path", .str "C:\\\\Windows"), ("weird", .str "\\\\u123z")]) ∧
    repair_json "\"\\u123z\"" = .ok (.str "\\u123z") ∧
    "C:\\\\Windows".data.count '\\' = 2 ∧
    "Windows".data.isSuffixOf "C:\\\\Windows".data = true ∧
    "\\u123z".data.take 1 = ['\\'] ∧
    "123z".data.isSuffixOf "\\u123z".data = true := by
  refine ⟨?_, rfl, rfl, by decide, by decide, by decide, by decide⟩
  have hbq : ¬(('\\' : Char) = q) := by
    rcases hq with h | h <;> subst h <;> decide
  exact lexStr_unknownEsc q c rest hbq hesc hu

/-- C5 witness: the general unknown-escape law at `q = "` and `c = z`. -/
theorem C5_unknown_escape_preserved_witness :
    lexStr '"' ('\\' :: 'z' :: ['"']) = consDec ['\\', 'z'] true false (lexStr '"' ['"']) ∧
    repair_json "\x7b\"path\": \"C:\\\\\\\\Windows\", \"weird\": \"\\\\\\\\u123z\"\x7d" =
      .ok (.obj [("path", .str "C:\\\\Windows"), ("weird", .str "\\\\u123z")]) ∧
    repair_json "\"\\u123z\"" = .ok (.str "\\u123z") ∧
    "C:\\\\Windows".data.count '\\' = 2 ∧
    "Windows".data.isSuffixOf "C:\\\\Windows".data = true ∧
    "\\u123z".data.take 1 = ['\\'] ∧
    "123z".data.isSuffixOf "\\u123z".data = true :=
  C5_unknown_escape_preserved '"' 'z' ['"'] (Or.inl rfl) rfl (by decide)

/-- C1 counterexample: the input `"ab{cd"` is strictly valid JSON (a
top-level string containing an opening brace), but `repair_json` does not
return its standard parse: boundary extraction latches onto the brace
inside the literal and the repair fails with a lexer error. -/
theorem C1_counterexample :
    strictJsonParse "\"ab\x7bcd\"" = some (.str "ab\x7bcd") ∧
    repair_json "\"ab\x7bcd\"" = .error (.lex .untermString) ∧
    ¬ repair_json "\"ab\x7bcd\"" = .ok (.str "ab\x7bcd") := by
  refine ⟨rfl, rfl, ?_⟩
  intro h
  have he : repair_json "\"ab\x7bcd\"" = .error (.lex .untermString) := rfl
  rw [he] at h
  exact Except.noConfusion h

/-- C2 counterexample: `repair_json` succeeds on `"ab\u007bcd"`, yielding
the string `ab{cd`; serializing that value back to standard JSON text and
repairing again does not reproduce it — the brace now sits literally
inside the serialized string, extraction latches onto it and the second
repair fails. -/
theorem C2_counterexample :
    repair_json "\"ab\\u007bcd\"" = .ok (.str "ab\x7bcd") ∧
    serialize (.str "ab\x7bcd") = "\"ab\x7bcd\"" ∧
    repair_json (serialize (.str "ab\x7bcd")) = .error (.lex .untermString) ∧
    ¬ repair_json (serialize (.str "ab\x7bcd")) = .ok (.str "ab\x7bcd") := by
  refine ⟨rfl, rfl, rfl, ?_⟩
  intro h
  have he : repair_json (serialize (.str "ab\x7bcd")) = .error (.lex .untermString) := rfl
  rw [he] at h
  exact Except.noConfusion h

/-! ## From a lexing chain to the tokenizer -/

/-- A lexing chain that ends where only end-of-input remains is exactly a
run of the fuelled tokenizer (with fuel at least one step per token). -/
theorem lexSteps_tokenizeRaw {cs : List Char} {ts : List Token} {cs2 : List Char}
    (h : LexSteps cs ts cs2) :
    nextToken cs2 = .ok (Token.eoi, []) →
    ∀ f, ts.length + 1 ≤ f → tokenizeRaw f cs = .ok (ts ++ [Token.eoi]) := by
  induction h with
  | nil cs =>
    intro hend f hf
    obtain ⟨g, rfl⟩ : ∃ g, f = g + 1 := ⟨f - 1, by omega⟩
    simp only [tokenizeRaw, hend]
    rfl
  | step cs t cs1 ts cs2 h hne htl ih =>
    intro hend f hf
    obtain ⟨g, rfl⟩ : ∃ g, f = g + 1 := ⟨f - 1, by omega⟩
    have hrec := ih hend g (by simp only [List.length_cons] at hf; omega)
    cases t <;> first
    | exact absurd rfl hne
    | (simp only [tokenizeRaw, h, hrec]; rfl)

mutual

/-- Serialized values re-lex without comment tokens. -/
theorem tokensOf_no_comment : ∀ (v : Value) (t : Token), t ∈ tokensOf v →
    t.isComment = false
  | .null, t, ht => by
    simp only [tokensOf, List.mem_singleton] at ht; subst ht; rfl
  | .bool true, t, ht => by
    simp only [tokensOf, List.mem_singleton] at ht; subst ht; rfl
  | .bool false, t, ht => by
    simp only [tokensOf, List.mem_singleton] at ht; subst ht; rfl
  | .num .nan, t, ht => by
    simp only [tokensOf, List.mem_singleton] at ht; subst ht; rfl
  | .num (.inf false), t, ht => by
    simp only [tokensOf, List.mem_singleton] at ht; subst ht; rfl
  | .num (.inf true), t, ht => by
    simp only [tokensOf, List.mem_singleton] at ht; subst ht; rfl
  | .num (.int i), t, ht => by
    simp only [tokensOf, List.mem_singleton] at ht; subst ht; rfl
  | .num (.dec m e), t, ht => by
    simp only [tokensOf, List.mem_singleton] at ht; subst ht; rfl
  | .str s, t, ht => by
    simp only [tokensOf, List.mem_singleton] at ht; subst ht; rfl
  | .arr xs, t, ht => by
    simp only [tokensOf, List.mem_cons, List.mem_append, List.mem_singleton,
      List.not_mem_nil, or_false] at ht
    rcases ht with rfl | ht | rfl
    · rfl
    · exact tokensItems_no_comment xs t ht
    · rfl
  | .obj kvs, t, ht => by
    simp only [tokensOf, List.mem_cons, List.mem_append, List.mem_singleton,
      List.not_mem_nil, or_false] at ht
    rcases ht with rfl | ht | rfl
    · rfl
    · exact tokensMembers_no_comment kvs t ht
    · rfl

theorem tokensItems_no_comment : ∀ (xs : List Value) (t : Token),
    t ∈ tokensItems xs → t.isComment = false
  | [], t, ht => by simp only [tokensItems] at ht; exact absurd ht (List.not_mem_nil t)
  | [x], t, ht => tokensOf_no_comment x t (by simpa only [tokensItems] using ht)
  | x :: y :: xs, t, ht => by
    simp only [tokensItems, List.mem_append, List.mem_cons] at ht
    rcases ht with ht | rfl | ht
    · exact tokensOf_no_comment x t ht
    · rfl
    · exact tokensItems_no_comment (y :: xs) t ht

theorem tokensMembers_no_comment : ∀ (kvs : List (String × Value)) (t : Token),
    t ∈ tokensMembers kvs → t.isComment = false
  | [], t, ht => by simp only [tokensMembers] at ht; exact absurd ht (List.not_mem_nil t)
  | [(k, v)], t, ht => by
    simp only [tokensMembers, List.mem_cons] at ht
    rcases ht with rfl | rfl | ht
    · rfl
    · rfl
    · exact tokensOf_no_comment v t ht
  | (k, v) :: m :: kvs, t, ht => by
    simp only [tokensMembers, List.mem_cons, List.mem_append] at ht
    rcases ht with rfl | rfl | ht | rfl | ht
    · rfl
    · rfl
    · exact tokensOf_no_comment v t ht
    · rfl
    · exact tokensMembers_no_comment (m :: kvs) t ht

end

/-! ## Token counts never exceed character counts on serialized text -/

theorem natToChars_len_pos (n : Nat) : 1 ≤ (natToChars n).length := by
  show 1 ≤ ((natDigitsRev (n + 1) n).reverse).length
  rw [List.length_reverse]
  unfold natDigitsRev
  split <;> simp

theorem intToChars_len_pos (i : Int) : 1 ≤ (intToChars i).length := by
  unfold intToChars
  have := natToChars_len_pos i.natAbs
  split <;> simp <;> omega

theorem decToChars_len_pos (m : Int) (e : Nat) : 1 ≤ (decToChars m e).length := by
  unfold decToChars
  by_cases hm : m < 0 <;> by_cases he : e = 0 <;>
    simp [hm, he, List.length_append] <;> omega

mutual

theorem tokensOf_len_le : ∀ v : Value, (tokensOf v).length ≤ (serValue v).length
  | .null => by decide
  | .bool true => by decide
  | .bool false => by decide
  | .num .nan => by decide
  | .num (.inf false) => by decide
  | .num (.inf true) => by decide
  | .num (.int i) => by
    have := intToChars_len_pos i
    simp only [tokensOf, serValue, numToChars, List.length_singleton]
    omega
  | .num (.dec m e) => by
    have := decToChars_len_pos m e
    simp only [tokensOf, serValue, numToChars, List.length_singleton]
    omega
  | .str s => by
    simp [tokensOf, serValue, serString]
  | .arr xs => by
    have := tokensItems_len_le xs
    simp only [tokensOf, serValue, List.length_cons, List.length_append,
      List.length_singleton, List.length_nil]
    omega
  | .obj kvs => by
    have := tokensMembers_len_le kvs
    simp only [tokensOf, serValue, List.length_cons, List.length_append,
      List.length_singleton, List.length_nil]
    omega

theorem tokensItems_len_le : ∀ xs : List Value,
    (tokensItems xs).length ≤ (serItems xs).length
  | [] => le_refl 0
  | [x] => by simpa only [tokensItems, serItems] using tokensOf_len_le x
  | x :: y :: xs => by
    have h1 := tokensOf_len_le x
    have h2 := tokensItems_len_le (y :: xs)
    simp only [tokensItems, serItems, List.length_append, List.length_cons]
    omega

theorem tokensMembers_len_le : ∀ kvs : List (String × Value),
    (tokensMembers kvs).length ≤ (serMembers kvs).length
  | [] => le_refl 0
  | [(k, v)] => by
    have := tokensOf_len_le v
    simp only [tokensMembers, serMembers, serString, List.length_cons,
      List.length_append]
    omega
  | (k, v) :: m :: kvs => by
    have h1 := tokensOf_len_le v
    have h2 := tokensMembers_len_le (m :: kvs)
    simp only [tokensMembers, serMembers, serString, List.length_cons,
      List.length_append]
    omega

end

/-- Tokenizing the serialization of a well-formed value yields exactly its
token stream followed by end-of-input. -/
theorem tokenize_serValue (v : Value) (hwf : wfValue v) :
    tokenize (serValue v) = .ok (tokensOf v ++ [Token.eoi]) := by
  have hsteps : LexSteps (serValue v ++ []) (tokensOf v) [] :=
    serSteps_value v [] hwf trivial
  rw [List.append_nil] at hsteps
  have hraw := lexSteps_tokenizeRaw hsteps rfl ((serValue v).length + 1)
    (by have := tokensOf_len_le v; omega)
  unfold tokenize
  rw [hraw]
  have hfil : (tokensOf v ++ [Token.eoi]).filter (fun t => !t.isComment) =
      tokensOf v ++ [Token.eoi] := by
    apply List.filter_eq_self.mpr
    intro a ha
    rcases List.mem_append.mp ha with h | h
    · simp [tokensOf_no_comment v a h]
    · simp only [List.mem_singleton] at h; subst h; rfl
  show Except.ok ((tokensOf v ++ [Token.eoi]).filter (fun t => !t.isComment)) =
    Except.ok (tokensOf v ++ [Token.eoi])
  rw [hfil]

/-! ## The extractor scan passes serialized text through unchanged -/

/-- Outside a string the scanner never consults the remembered quote
character or escape flag. -/
theorem spanScan_q_irrel : ∀ (cs : List Char) (d : Nat) (q q' : Char) (e e' : Bool),
    spanScan d false q e cs = spanScan d false q' e' cs
  | [], _, _, _, _, _ => rfl
  | c :: cs, d, q, q', e, e' => by
    simp only [spanScan]
    split
    · rfl
    · split
      · rw [spanScan_q_irrel cs (d + 1) q q' false false]
      · split
        · split
          · rfl
          · rw [spanScan_q_irrel cs (d - 1) q q' false false]
        · rw [spanScan_q_irrel cs d q q' false false]

theorem spanScan_plain {c : Char} (cs : List Char) (d : Nat) (q : Char) (e : Bool)
    (hq : isQuoteChar c = false) (h1 : c ≠ lbraceC) (h2 : c ≠ '[')
    (h3 : c ≠ rbraceC) (h4 : c ≠ ']') :
    spanScan d false q e (c :: cs) = c :: spanScan d false q false cs := by
  simp [spanScan, hq, h1, h2, h3, h4]

theorem spanScan_quote {c : Char} (cs : List Char) (d : Nat) (q : Char) (e : Bool)
    (h : isQuoteChar c = true) :
    spanScan d false q e (c :: cs) = c :: spanScan d true c false cs := by
  simp only [spanScan]
  rw [if_pos h]

theorem spanScan_open {c : Char} (cs : List Char) (d : Nat) (q : Char) (e : Bool)
    (h : c = lbraceC ∨ c = '[') (hq : isQuoteChar c = false) :
    spanScan d false q e (c :: cs) = c :: spanScan (d + 1) false q false cs := by
  simp only [spanScan]
  rw [if_neg (by simp [hq]), if_pos (by rcases h with rfl | rfl <;> simp)]

theorem spanScan_closePass {c : Char} (cs : List Char) (d : Nat) (q : Char) (e : Bool)
    (h : c = rbraceC ∨ c = ']') (hq : isQuoteChar c = false)
    (hno : ¬(c = lbraceC ∨ c = '[')) (hd : ¬ d ≤ 1) :
    spanScan d false q e (c :: cs) = c :: spanScan (d - 1) false q false cs := by
  simp only [spanScan]
  rw [if_neg (by simp [hq]), if_neg (by simp; tauto),
    if_pos (by rcases h with rfl | rfl <;> simp), if_neg hd]

theorem spanScan_exitStr (cs : List Char) (d : Nat) :
    spanScan d true '"' false ('"' :: cs) = '"' :: spanScan d false '"' false cs := by
  simp only [spanScan]
  rw [if_neg (by decide)]
  simp

theorem spanScan_plainList : ∀ (pre cs : List Char) (d : Nat) (q : Char) (e : Bool),
    (∀ c ∈ pre, isQuoteChar c = false ∧ c ≠ lbraceC ∧ c ≠ '[' ∧ c ≠ rbraceC ∧ c ≠ ']') →
    spanScan d false q e (pre ++ cs) = pre ++ spanScan d false q false cs
  | [], cs, d, q, e, _ => spanScan_q_irrel cs d q q e false
  | c :: pre, cs, d, q, e, h => by
    obtain ⟨hq, h1, h2, h3, h4⟩ := h c (List.mem_cons_self c pre)
    rw [List.cons_append, spanScan_plain _ d q e hq h1 h2 h3 h4,
      spanScan_plainList pre cs d q false (fun x hx => h x (List.mem_cons_of_mem c hx))]
    rfl

theorem spanScan_escPair (x : Char) (cs : List Char) (d : Nat) :
    spanScan d true '"' false ('\\' :: x :: cs) =
      '\\' :: x :: spanScan d true '"' false cs := by
  simp [spanScan]

theorem spanScan_inStr_plain {c : Char} (cs : List Char) (d : Nat)
    (h1 : c ≠ '\\') (h2 : c ≠ '"') :
    spanScan d true '"' false (c :: cs) = c :: spanScan d true '"' false cs := by
  simp [spanScan, h1, h2]

theorem hexDigitChar_facts (k : Nat) (h : k < 16) :
    hexDigitChar k ≠ '"' ∧ hexDigitChar k ≠ '\\' ∧
    hexDigitChar k ≠ lbraceC ∧ hexDigitChar k ≠ '[' := by
  interval_cases k <;> exact ⟨by decide, by decide, by decide, by decide⟩

theorem spanScan_escapeChar (c : Char) (cs : List Char) (d : Nat) :
    spanScan d true '"' false (escapeChar c ++ cs) =
      escapeChar c ++ spanScan d true '"' false cs := by
  unfold escapeChar
  by_cases e1 : c = '"'
  · rw [if_pos e1]; exact spanScan_escPair _ cs d
  rw [if_neg e1]
  by_cases e2 : c = '\\'
  · rw [if_pos e2]; exact spanScan_escPair _ cs d
  rw [if_neg e2]
  by_cases e3 : c = '\n'
  · rw [if_pos e3]; exact spanScan_escPair _ cs d
  rw [if_neg e3]
  by_cases e4 : c = '\t'
  · rw [if_pos e4]; exact spanScan_escPair _ cs d
  rw [if_neg e4]
  by_cases e5 : c = '\r'
  · rw [if_pos e5]; exact spanScan_escPair _ cs d
  rw [if_neg e5]
  by_cases e6 : c = Char.ofNat 8
  · rw [if_pos e6]; exact spanScan_escPair _ cs d
  rw [if_neg e6]
  by_cases e7 : c = Char.ofNat 12
  · rw [if_pos e7]; exact spanScan_escPair _ cs d
  rw [if_neg e7]
  by_cases e8 : c.toNat < 32
  · rw [if_pos e8]
    obtain ⟨ha1, ha2, -, -⟩ := hexDigitChar_facts (c.toNat / 16) (by omega)
    obtain ⟨hb1, hb2, -, -⟩ := hexDigitChar_facts (c.toNat % 16) (by omega)
    show spanScan d true '"' false
        ('\\' :: 'u' :: '0' :: '0' :: hexDigitChar (c.toNat / 16) ::
          hexDigitChar (c.toNat % 16) :: cs) = _
    rw [spanScan_escPair,
      spanScan_inStr_plain _ d (by decide) (by decide),
      spanScan_inStr_plain _ d (by decide) (by decide),
      spanScan_inStr_plain _ d ha2 ha1,
      spanScan_inStr_plain _ d hb2 hb1]
    rfl
  · rw [if_neg e8]
    show spanScan d true '"' false (c :: cs) = _
    rw [spanScan_inStr_plain _ d e2 e1]
    rfl

theorem spanScan_flatMap (l : List Char) (cs : List Char) (d : Nat) :
    spanScan d true '"' false (l.flatMap escapeChar ++ cs) =
      l.flatMap escapeChar ++ spanScan d true '"' false cs := by
  induction l with
  | nil => simp
  | cons c l ih =>
    rw [List.flatMap_cons, List.append_assoc, spanScan_escapeChar, ih,
      List.append_assoc]

theorem spanScan_serString (s : String) (cs : List Char) (d : Nat) (q : Char) (e : Bool) :
    spanScan d false q e (serString s ++ cs) =
      serString s ++ spanScan d false q false cs := by
  show spanScan d false q e ('"' :: (s.data.flatMap escapeChar ++ ['"']) ++ cs) = _
  rw [List.cons_append, spanScan_quote _ d q e (by decide)]
  rw [List.append_assoc, spanScan_flatMap]
  rw [show (['"'] : List Char) ++ cs = '"' :: cs from rfl]
  rw [spanScan_exitStr]
  rw [spanScan_q_irrel cs d '"' q false false]
  simp [serString, List.append_assoc]

/-! ## Serialized scalars consist of scan-transparent characters -/

theorem digit_plain {c : Char} (h : isDigitChar c = true) :
    isQuoteChar c = false ∧ c ≠ lbraceC ∧ c ≠ '[' ∧ c ≠ rbraceC ∧ c ≠ ']' := by
  obtain ⟨-, hA, hB, hC, hD, -, -, hq, -⟩ := digit_class c h
  exact ⟨hq, hA, hC, hB, hD⟩

theorem intToChars_plain (i : Int) : ∀ c ∈ intToChars i,
    isQuoteChar c = false ∧ c ≠ lbraceC ∧ c ≠ '[' ∧ c ≠ rbraceC ∧ c ≠ ']' := by
  intro c hc
  unfold intToChars at hc
  rcases List.mem_append.mp hc with hc | hc
  · by_cases hi : i < 0
    · rw [if_pos hi] at hc
      simp only [List.mem_singleton] at hc
      subst hc
      exact ⟨by decide, by decide, by decide, by decide, by decide⟩
    · rw [if_neg hi] at hc
      exact absurd hc (List.not_mem_nil c)
  · exact digit_plain (natToChars_digits _ c hc)

theorem decToChars_plain (m : Int) (e : Nat) : ∀ c ∈ decToChars m e,
    isQuoteChar c = false ∧ c ≠ lbraceC ∧ c ≠ '[' ∧ c ≠ rbraceC ∧ c ≠ ']' := by
  intro c hc
  have hsgn : ∀ x ∈ (if m < 0 then (['-'] : List Char) else []),
      isQuoteChar x = false ∧ x ≠ lbraceC ∧ x ≠ '[' ∧ x ≠ rbraceC ∧ x ≠ ']' := by
    intro x hx
    by_cases hm : m < 0
    · rw [if_pos hm] at hx
      simp only [List.mem_singleton] at hx
      subst hx
      exact ⟨by decide, by decide, by decide, by decide, by decide⟩
    · rw [if_neg hm] at hx
      exact absurd hx (List.not_mem_nil x)
  have hpad : ∀ x ∈ List.replicate (e + 1 - (natToChars m.natAbs).length) '0' ++
      natToChars m.natAbs,
      isDigitChar x = true := by
    intro x hx
    rcases List.mem_append.mp hx with hx | hx
    · rw [List.eq_of_mem_replicate hx]; decide
    · exact natToChars_digits _ x hx
  unfold decToChars at hc
  by_cases he : e = 0
  · rw [if_pos he] at hc
    rcases List.mem_append.mp hc with hc | hc
    · rcases List.mem_append.mp hc with hc | hc
      · exact hsgn c hc
      · exact digit_plain (natToChars_digits _ c hc)
    · rcases List.mem_cons.mp hc with rfl | hc
      · exact ⟨by decide, by decide, by decide, by decide, by decide⟩
      · simp only [List.mem_singleton] at hc
        subst hc
        exact ⟨by decide, by decide, by decide, by decide, by decide⟩
  · rw [if_neg he] at hc
    rcases List.mem_append.mp hc with hc | hc
    · rcases List.mem_append.mp hc with hc | hc
      · exact hsgn c hc
      · exact digit_plain (hpad c (List.take_subset _ _ hc))
    · rcases List.mem_cons.mp hc with rfl | hc
      · exact ⟨by decide, by decide, by decide, by decide, by decide⟩
      · exact digit_plain (hpad c (List.drop_subset _ _ hc))

theorem numToChars_plain (n : JNum) : ∀ c ∈ numToChars n,
    isQuoteChar c = false ∧ c ≠ lbraceC ∧ c ≠ '[' ∧ c ≠ rbraceC ∧ c ≠ ']' := by
  cases n with
  | int i => exact intToChars_plain i
  | dec m e => exact decToChars_plain m e
  | nan => intro c hc; fin_cases hc <;>
      exact ⟨by decide, by decide, by decide, by decide, by decide⟩
  | inf neg =>
    cases neg <;> (intro c hc; fin_cases hc <;>
      exact ⟨by decide, by decide, by decide, by decide, by decide⟩)

mutual

theorem spanScan_serValue : ∀ (v : Value) (cs : List Char) (d : Nat) (q : Char) (e : Bool),
    1 ≤ d →
    spanScan d false q e (serValue v ++ cs) = serValue v ++ spanScan d false q false cs
  | .null, cs, d, q, e, _ => spanScan_plainList _ cs d q e (by decide)
  | .bool true, cs, d, q, e, _ => spanScan_plainList _ cs d q e (by decide)
  | .bool false, cs, d, q, e, _ => spanScan_plainList _ cs d q e (by decide)
  | .num n, cs, d, q, e, _ => spanScan_plainList _ cs d q e (numToChars_plain n)
  | .str s, cs, d, q, e, _ => spanScan_serString s cs d q e
  | .arr xs, cs, d, q, e, hd => by
    show spanScan d false q e ('[' :: (serItems xs ++ [']']) ++ cs) = _
    rw [List.cons_append, spanScan_open _ d q e (Or.inr rfl) (by decide)]
    rw [List.append_assoc, List.singleton_append]
    rw [spanScan_serItems xs (']' :: cs) (d + 1) q false (by omega)]
    rw [spanScan_closePass _ (d + 1) q false (Or.inr rfl) (by decide) (by decide)
      (by omega)]
    simp [serValue, List.append_assoc]
  | .obj kvs, cs, d, q, e, hd => by
    show spanScan d false q e (lbraceC :: (serMembers kvs ++ [rbraceC]) ++ cs) = _
    rw [List.cons_append, spanScan_open _ d q e (Or.inl rfl) (by decide)]
    rw [List.append_assoc, List.singleton_append]
    rw [spanScan_serMembers kvs (rbraceC :: cs) (d + 1) q false (by omega)]
    rw [spanScan_closePass _ (d + 1) q false (Or.inl rfl) (by decide) (by decide)
      (by omega)]
    simp [serValue, List.append_assoc]

theorem spanScan_serItems : ∀ (xs : List Value) (cs : List Char) (d : Nat) (q : Char)
    (e : Bool), 1 ≤ d →
    spanScan d false q e (serItems xs ++ cs) = serItems xs ++ spanScan d false q false cs
  | [], cs, d, q, e, _ => spanScan_q_irrel cs d q q e false
  | [x], cs, d, q, e, hd => spanScan_serValue x cs d q e hd
  | x :: y :: xs, cs, d, q, e, hd => by
    show spanScan d false q e ((serValue x ++ ',' :: serItems (y :: xs)) ++ cs) = _
    rw [List.append_assoc, spanScan_serValue x _ d q e hd, List.cons_append]
    rw [spanScan_plain _ d q false (by decide) (by decide) (by decide) (by decide)
      (by decide)]
    rw [spanScan_serItems (y :: xs) cs d q false hd]
    simp [serItems, List.append_assoc]

theorem spanScan_serMembers : ∀ (kvs : List (String × Value)) (cs : List Char) (d : Nat)
    (q : Char) (e : Bool), 1 ≤ d →
    spanScan d false q e (serMembers kvs ++ cs) =
      serMembers kvs ++ spanScan d false q false cs
  | [], cs, d, q, e, _ => spanScan_q_irrel cs d q q e false
  | [(k, v)], cs, d, q, e, hd => by
    show spanScan d false q e ((serString k ++ ':' :: serValue v) ++ cs) = _
    rw [List.append_assoc, spanScan_serString k _ d q e, List.cons_append]
    rw [spanScan_plain _ d q false (by decide) (by decide) (by decide) (by decide)
      (by decide)]
    rw [spanScan_serValue v cs d q false hd]
    simp [serMembers, List.append_assoc]
  | (k, v) :: m :: kvs, cs, d, q, e, hd => by
    show spanScan d false q e
      (((serString k ++ ':' :: serValue v) ++ ',' :: serMembers (m :: kvs)) ++ cs) = _
    rw [List.append_assoc, List.append_assoc, spanScan_serString k _ d q e,
      List.cons_append]
    rw [spanScan_plain _ d q false (by decide) (by decide) (by decide) (by decide)
      (by decide)]
    rw [spanScan_serValue v _ d q false hd, List.cons_append]
    rw [spanScan_plain _ d q false (by decide) (by decide) (by decide) (by decide)
      (by decide)]
    rw [spanScan_serMembers (m :: kvs) cs d q false hd]
    simp [serMembers, List.append_assoc]

end

/-- Boundary extraction returns the serialization of a container value
unchanged: the scan opens at the leading bracket and closes exactly at its
matching closer, the final character. -/
theorem extractSpan_serValue_container (v : Value) (h : v.isContainer = true) :
    extractSpan (serValue v) = serValue v := by
  cases v with
  | arr xs =>
    show extractSpan ('[' :: (serItems xs ++ [']'])) = _
    unfold extractSpan
    rw [show findOpen ('[' :: (serItems xs ++ [']'])) =
        some ('[' :: (serItems xs ++ [']'])) from by simp [findOpen]]
    show '[' :: spanScan 1 false '"' false (serItems xs ++ [']']) = _
    rw [show (([']'] : List Char)) = ']' :: [] from rfl]
    rw [spanScan_serItems xs (']' :: []) 1 '"' false (by omega)]
    rfl
  | obj kvs =>
    show extractSpan (lbraceC :: (serMembers kvs ++ [rbraceC])) = _
    unfold extractSpan
    rw [show findOpen (lbraceC :: (serMembers kvs ++ [rbraceC])) =
        some (lbraceC :: (serMembers kvs ++ [rbraceC])) from by simp [findOpen]]
    show lbraceC :: spanScan 1 false '"' false (serMembers kvs ++ [rbraceC]) = _
    rw [show (([rbraceC] : List Char)) = rbraceC :: [] from rfl]
    rw [spanScan_serMembers kvs (rbraceC :: []) 1 '"' false (by omega)]
    rfl
  | null => simp [Value.isContainer] at h
  | bool b => simp [Value.isContainer] at h
  | num n => simp [Value.isContainer] at h
  | str s => simp [Value.isContainer] at h

/-! ## Scalar serializations contain no opening bracket -/

theorem findOpen_none_of_no_open : ∀ cs : List Char,
    hasOpenChar cs = false → findOpen cs = none
  | [], _ => rfl
  | c :: cs, h => by
    unfold hasOpenChar at h
    simp only [List.any_cons, Bool.or_eq_false_iff] at h
    unfold findOpen
    rw [if_neg (by simp only [h.1]; exact Bool.false_ne_true)]
    exact findOpen_none_of_no_open cs h.2

theorem extractSpan_no_open (cs : List Char) (h : hasOpenChar cs = false) :
    extractSpan cs = cs := by
  unfold extractSpan
  rw [findOpen_none_of_no_open cs h]

theorem hasOpen_of_plain (cs : List Char)
    (h : ∀ c ∈ cs, isQuoteChar c = false ∧ c ≠ lbraceC ∧ c ≠ '[' ∧ c ≠ rbraceC ∧ c ≠ ']') :
    hasOpenChar cs = false := by
  unfold hasOpenChar
  rw [List.any_eq_false]
  intro c hc
  obtain ⟨-, h1, h2, -, -⟩ := h c hc
  simp [h1, h2]

theorem escapeChar_no_open (c : Char) (h1 : c ≠ lbraceC) (h2 : c ≠ '[') :
    ∀ x ∈ escapeChar c, ¬(x = lbraceC ∨ x = '[') := by
  unfold escapeChar
  by_cases e1 : c = '"'
  · rw [if_pos e1]; decide
  rw [if_neg e1]
  by_cases e2 : c = '\\'
  · rw [if_pos e2]; decide
  rw [if_neg e2]
  by_cases e3 : c = '\n'
  · rw [if_pos e3]; decide
  rw [if_neg e3]
  by_cases e4 : c = '\t'
  · rw [if_pos e4]; decide
  rw [if_neg e4]
  by_cases e5 : c = '\r'
  · rw [if_pos e5]; decide
  rw [if_neg e5]
  by_cases e6 : c = Char.ofNat 8
  · rw [if_pos e6]; decide
  rw [if_neg e6]
  by_cases e7 : c = Char.ofNat 12
  · rw [if_pos e7]; decide
  rw [if_neg e7]
  by_cases e8 : c.toNat < 32
  · rw [if_pos e8]
    obtain ⟨-, -, ha3, ha4⟩ := hexDigitChar_facts (c.toNat / 16) (by omega)
    obtain ⟨-, -, hb3, hb4⟩ := hexDigitChar_facts (c.toNat % 16) (by omega)
    intro x hx
    fin_cases hx
    · decide
    · decide
    · decide
    · decide
    · rintro (h | h)
      · exact ha3 h
      · exact ha4 h
    · rintro (h | h)
      · exact hb3 h
      · exact hb4 h
  · rw [if_neg e8]
    intro x hx
    simp only [List.mem_singleton] at hx
    subst hx
    rintro (rfl | rfl)
    · exact h1 rfl
    · exact h2 rfl

theorem serString_no_open (s : String)
    (h : s.data.all (fun c => !(c = lbraceC || c = '[')) = true) :
    hasOpenChar (serString s) = false := by
  unfold hasOpenChar serString
  rw [List.any_eq_false]
  intro c hc
  rcases List.mem_cons.mp hc with rfl | hc
  · decide
  rcases List.mem_append.mp hc with hc | hc
  · obtain ⟨a, ha, hca⟩ := List.mem_flatMap.mp hc
    have hh := List.all_eq_true.mp h a ha
    simp at hh
    have hne := escapeChar_no_open a hh.1 hh.2 c hca
    simp
    exact ⟨fun h2 => hne (Or.inl h2), fun h2 => hne (Or.inr h2)⟩
  · simp only [List.mem_singleton] at hc
    subst hc
    decide

theorem hasOpen_serValue_scalar (v : Value) (hc : v.isContainer = false)
    (hb : topStringBraceFree v = true) : hasOpenChar (serValue v) = false := by
  cases v with
  | null => decide
  | bool b => cases b <;> decide
  | num n => exact hasOpen_of_plain _ (numToChars_plain n)
  | str s => exact serString_no_open s hb
  | arr xs => simp [Value.isContainer] at hc
  | obj kvs => simp [Value.isContainer] at hc

/-! ## Every value the repair parser produces is well-formed -/

/-- The head of a whitespace-skip result is never whitespace. -/
theorem skipWs_head : ∀ (cs : List Char) (c : Char) (rest : List Char),
    skipWs cs = c :: rest → isWsChar c = false
  | [], c, rest, h => by simp [skipWs] at h
  | d :: tl, c, rest, h => by
    by_cases hw : isWsChar d = true
    · rw [show skipWs (d :: tl) = skipWs tl from by simp [skipWs, hw]] at h
      exact skipWs_head tl c rest h
    · rw [skipWs_cons_not (by simpa using hw)] at h
      injection h with h1 h2
      rw [← h1]
      simpa using hw

/-- The tokenizer on an input with a non-whitespace head, written as a
plain conditional chain. -/
theorem nextToken_cons (c : Char) (rest : List Char) (hw : isWsChar c = false) :
    nextToken (c :: rest) =
      (if c = lbraceC then .ok (Token.lbrace, rest)
      else if c = rbraceC then .ok (Token.rbrace, rest)
      else if c = '[' then .ok (Token.lbrack, rest)
      else if c = ']' then .ok (Token.rbrack, rest)
      else if c = ':' then .ok (Token.colon, rest)
      else if c = ',' then .ok (Token.comma, rest)
      else if isQuoteChar c then
        match lexStr c rest with
        | none => .error .untermString
        | some (d, u, rc, tl) => .ok (Token.str (String.mk d) u c rc, tl)
      else if c = '/' then
        match rest with
        | c2 :: rest2 =>
          if c2 = '/' then .ok (Token.comment, dropLine rest2)
          else if c2 = '*' then
            match dropBlock rest2 with
            | some tl => .ok (Token.comment, tl)
            | none => .error .untermComment
          else
            let p := takeIdent rest
            .ok (Token.ident (String.mk (c :: p.1)), p.2)
        | [] => .ok (Token.ident (String.mk [c]), [])
      else if isDigitChar c then .ok (lexNum (c :: rest))
      else if (c = '-' || c = '+') &&
          (match rest with | c2 :: _ => isDigitChar c2 | [] => false) then
        .ok (lexNum (c :: rest))
      else
        let p := takeIdent rest
        .ok (Token.ident (String.mk (c :: p.1)), p.2)) := by
  unfold nextToken
  rw [skipWs_cons_not hw]

/-- The number lexer always emits a number token with a normalized value. -/
theorem lexNum_out_norm (cs : List Char) :
    ∃ rw nn tl, lexNum cs = (Token.num rw nn, tl) ∧ numNorm nn := by
  refine ⟨_, _, _, rfl, ?_⟩
  split
  · trivial
  · dsimp only
    split <;> split <;> exact numNorm_mkDec _ _ _

/-- Every number token the number lexer emits carries a normalized value. -/
theorem lexNum_norm (cs : List Char) (raw : String) (n : JNum) (cs1 : List Char)
    (h : lexNum cs = (Token.num raw n, cs1)) : numNorm n := by
  obtain ⟨rw0, nn, tl, he, hn⟩ := lexNum_out_norm cs
  rw [he] at h
  injection h with hA hB
  injection hA with hA1 hA2
  subst hA2
  exact hn

/-- Every number token the tokenizer emits carries a normalized value. -/
theorem nextToken_num_norm (cs : List Char) (raw : String) (n : JNum)
    (cs1 : List Char) (h : nextToken cs = .ok (Token.num raw n, cs1)) : numNorm n := by
  cases hsw : skipWs cs with
  | nil =>
    rw [show nextToken cs = .ok (Token.eoi, []) from by
      unfold nextToken; rw [hsw]] at h
    exact absurd h (by simp)
  | cons c rest =>
    have hw := skipWs_head cs c rest hsw
    rw [show nextToken cs = nextToken (c :: rest) from by
      unfold nextToken; rw [hsw, skipWs_cons_not hw]] at h
    rw [nextToken_cons c rest hw] at h
    by_cases h1 : c = lbraceC
    · rw [if_pos h1] at h; exact absurd h (by simp)
    rw [if_neg h1] at h
    by_cases h2 : c = rbraceC
    · rw [if_pos h2] at h; exact absurd h (by simp)
    rw [if_neg h2] at h
    by_cases h3 : c = '['
    · rw [if_pos h3] at h; exact absurd h (by simp)
    rw [if_neg h3] at h
    by_cases h4 : c = ']'
    · rw [if_pos h4] at h; exact absurd h (by simp)
    rw [if_neg h4] at h
    by_cases h5 : c = ':'
    · rw [if_pos h5] at h; exact absurd h (by simp)
    rw [if_neg h5] at h
    by_cases h6 : c = ','
    · rw [if_pos h6] at h; exact absurd h (by simp)
    rw [if_neg h6] at h
    by_cases h7 : isQuoteChar c = true
    · rw [if_pos h7] at h
      cases hls : lexStr c rest with
      | none => rw [hls] at h; exact absurd h (by simp)
      | some quad =>
        obtain ⟨d, u, rc, tl⟩ := quad
        rw [hls] at h
        exact absurd h (by simp)
    rw [if_neg h7] at h
    by_cases h8 : c = '/'
    · rw [if_pos h8] at h
      cases rest with
      | nil => exact absurd h (by simp)
      | cons c2 rest2 =>
        by_cases h9 : c2 = '/'
        · exact absurd h (by simp [h9])
        by_cases h10 : c2 = '*'
        · cases hdb : dropBlock rest2 with
          | none => exact absurd h (by simp [h9, h10, hdb])
          | some tl => exact absurd h (by simp [h9, h10, hdb])
        · exact absurd h (by simp [h9, h10])
    rw [if_neg h8] at h
    by_cases h11 : isDigitChar c = true
    · rw [if_pos h11] at h
      cases hp : lexNum (c :: rest) with
      | mk t cs2 =>
        rw [hp] at h
        simp only [Except.ok.injEq, Prod.mk.injEq] at h
        exact lexNum_norm (c :: rest) raw n cs1 (by rw [hp, h.1, h.2])
    rw [if_neg h11] at h
    split at h
    · cases hp : lexNum (c :: rest) with
      | mk t cs2 =>
        rw [hp] at h
        simp only [Except.ok.injEq, Prod.mk.injEq] at h
        exact lexNum_norm (c :: rest) raw n cs1 (by rw [hp, h.1, h.2])
    · exact absurd h (by simp)

/-- Number tokens in a raw tokenizer run are normalized. -/
theorem tokenizeRaw_num_norm : ∀ (f : Nat) (cs : List Char) (ts : List Token),
    tokenizeRaw f cs = .ok ts → tokNumsNorm ts
  | 0, cs, ts, h => by exact absurd h (by simp [tokenizeRaw])
  | f + 1, cs, ts, h => by
    unfold tokenizeRaw at h
    split at h
    · exact absurd h (by simp)
    rename_i t tl hnt
    split at h
    · simp only [Except.ok.injEq] at h
      subst h
      intro raw n hmem
      simp only [List.mem_singleton] at hmem
      exact absurd hmem (by simp)
    rename_i x hne
    split at h
    · exact absurd h (by simp)
    rename_i ts0 hrec
    simp only [Except.ok.injEq] at h
    subst h
    intro raw n hmem
    rcases List.mem_cons.mp hmem with heq | hmem
    · subst heq
      exact nextToken_num_norm cs raw n tl hnt
    · exact tokenizeRaw_num_norm f tl ts0 hrec raw n hmem

/-- Number tokens in the comment-filtered token stream are normalized. -/
theorem tokenize_num_norm (cs : List Char) (ts : List Token)
    (h : tokenize cs = .ok ts) : tokNumsNorm ts := by
  unfold tokenize at h
  cases hraw : tokenizeRaw (cs.length + 1) cs with
  | error e => rw [hraw] at h; exact absurd h (by simp)
  | ok ts0 =>
    rw [hraw] at h
    simp only [Except.ok.injEq] at h
    subst h
    intro raw n hmem
    exact tokenizeRaw_num_norm _ cs ts0 hraw raw n (List.mem_of_mem_filter hmem)

/-! ## The repair parser only builds well-formed values -/

theorem lookupKV_insertKV_ne (tl : List (String × Value)) (k : String) (v : Value)
    (k0 : String) (hne : ¬ k0 = k) :
    lookupKV (insertKV tl k v) k0 = lookupKV tl k0 := by
  induction tl with
  | nil =>
    show lookupKV [(k, v)] k0 = none
    simp only [lookupKV]
    rw [if_neg (fun hh : k = k0 => hne hh.symm)]
  | cons kv tl ih =>
    obtain ⟨k1, v1⟩ := kv
    by_cases h1 : k1 = k
    · subst h1
      simp only [insertKV, if_pos rfl, lookupKV]
      rw [if_neg (fun hh : k1 = k0 => hne hh.symm),
        if_neg (fun hh : k1 = k0 => hne hh.symm)]
    · simp only [insertKV, if_neg h1]
      by_cases h2 : k1 = k0
      · simp [lookupKV, h2]
      · simp [lookupKV, h2, ih]

theorem keysOK_insertKV (acc : List (String × Value)) (k : String) (v : Value)
    (h : keysOK acc) : keysOK (insertKV acc k v) := by
  induction acc with
  | nil => exact ⟨rfl, trivial⟩
  | cons kv tl ih =>
    obtain ⟨k0, v0⟩ := kv
    obtain ⟨h1, h2⟩ := h
    by_cases he : k0 = k
    · subst he
      simp only [insertKV, if_pos rfl]
      exact ⟨h1, h2⟩
    · simp only [insertKV, if_neg he]
      exact ⟨by rw [lookupKV_insertKV_ne tl k v k0 he]; exact h1, ih h2⟩

theorem wfMembers_insertKV (acc : List (String × Value)) (k : String) (v : Value)
    (hm : wfMembers acc) (hv : wfValue v) : wfMembers (insertKV acc k v) := by
  induction acc with
  | nil => exact ⟨hv, trivial⟩
  | cons kv tl ih =>
    obtain ⟨k0, v0⟩ := kv
    obtain ⟨h1, h2⟩ := hm
    by_cases he : k0 = k
    · subst he
      simp only [insertKV, if_pos rfl]
      exact ⟨hv, h2⟩
    · simp only [insertKV, if_neg he]
      exact ⟨h1, ih h2⟩

theorem wfList_snoc (acc : List Value) (v : Value) (ha : wfList acc) (hv : wfValue v) :
    wfList (acc ++ [v]) := by
  induction acc with
  | nil => exact ⟨hv, trivial⟩
  | cons x xs ih => exact ⟨ha.1, ih ha.2⟩

theorem wf_resolveIdent (w : String) : wfValue (resolveIdent w) := by
  unfold resolveIdent
  split
  · trivial
  split
  · trivial
  split
  · trivial
  split
  · trivial
  split
  · trivial
  split
  · trivial
  · trivial

theorem tokNumsNorm_mono {ts xs : List Token} (h : tokNumsNorm ts) (hs : xs ⊆ ts) :
    tokNumsNorm xs :=
  fun raw n hm => h raw n (hs hm)

mutual

theorem parseValue_wf : ∀ (f : Nat) (ts : List Token) (v : Value) (rest : List Token),
    tokNumsNorm ts → parseValue f ts = .ok (v, rest) → wfValue v ∧ rest ⊆ ts
  | 0, ts, v, rest, hn, h => by exact absurd h (by simp [parseValue])
  | f + 1, ts, v, rest, hn, h => by
    unfold parseValue at h
    split at h
    · obtain ⟨hwf, hsub⟩ := parseObjItems_wf f _ [] v rest
        (tokNumsNorm_mono hn (fun x hx => List.mem_cons_of_mem _ hx)) trivial trivial h
      exact ⟨hwf, fun x hx => List.mem_cons_of_mem _ (hsub hx)⟩
    · obtain ⟨hwf, hsub⟩ := parseArrItems_wf f _ [] v rest
        (tokNumsNorm_mono hn (fun x hx => List.mem_cons_of_mem _ hx)) trivial h
      exact ⟨hwf, fun x hx => List.mem_cons_of_mem _ (hsub hx)⟩
    · simp only [Except.ok.injEq, Prod.mk.injEq] at h
      obtain ⟨hv, hr⟩ := h
      subst hv; subst hr
      exact ⟨trivial, fun x hx => List.mem_cons_of_mem _ hx⟩
    · rename_i raw n0 rest0
      simp only [Except.ok.injEq, Prod.mk.injEq] at h
      obtain ⟨hv, hr⟩ := h
      subst hv; subst hr
      exact ⟨hn raw n0 (List.mem_cons_self _ _), fun x hx => List.mem_cons_of_mem _ hx⟩
    · simp only [Except.ok.injEq, Prod.mk.injEq] at h
      obtain ⟨hv, hr⟩ := h
      subst hv; subst hr
      exact ⟨wf_resolveIdent _, fun x hx => List.mem_cons_of_mem _ hx⟩
    · exact absurd h (by simp)

theorem parseArrItems_wf : ∀ (f : Nat) (ts : List Token) (acc : List Value) (v : Value)
    (rest : List Token),
    tokNumsNorm ts → wfList acc → parseArrItems f ts acc = .ok (v, rest) →
    wfValue v ∧ rest ⊆ ts
  | 0, ts, acc, v, rest, hn, ha, h => by exact absurd h (by simp [parseArrItems])
  | f + 1, ts, acc, v, rest, hn, ha, h => by
    unfold parseArrItems at h
    split at h
    · simp only [Except.ok.injEq, Prod.mk.injEq] at h
      obtain ⟨hv, hr⟩ := h
      subst hv; subst hr
      exact ⟨ha, fun x hx => List.mem_cons_of_mem _ hx⟩
    · simp only [Except.ok.injEq, Prod.mk.injEq] at h
      obtain ⟨hv, hr⟩ := h
      subst hv; subst hr
      exact ⟨ha, fun x hx => hx⟩
    · cases hpv : parseValue f ts with
      | error e => rw [hpv] at h; exact absurd h (by simp)
      | ok p =>
        obtain ⟨v1, ts1⟩ := p
        rw [hpv] at h
        replace h : parseArrAfter f ts1 (acc ++ [v1]) = .ok (v, rest) := h
        obtain ⟨hwf1, hsub1⟩ := parseValue_wf f ts v1 ts1 hn hpv
        obtain ⟨hwf, hsub⟩ := parseArrAfter_wf f ts1 (acc ++ [v1]) v rest
          (tokNumsNorm_mono hn hsub1) (wfList_snoc acc v1 ha hwf1) h
        exact ⟨hwf, fun x hx => hsub1 (hsub hx)⟩

theorem parseArrAfter_wf : ∀ (f : Nat) (ts : List Token) (acc : List Value) (v : Value)
    (rest : List Token),
    tokNumsNorm ts → wfList acc → parseArrAfter f ts acc = .ok (v, rest) →
    wfValue v ∧ rest ⊆ ts
  | 0, ts, acc, v, rest, hn, ha, h => by exact absurd h (by simp [parseArrAfter])
  | f + 1, ts, acc, v, rest, hn, ha, h => by
    unfold parseArrAfter at h
    split at h
    · obtain ⟨hwf, hsub⟩ := parseArrItems_wf f _ acc v rest
        (tokNumsNorm_mono hn (fun x hx => List.mem_cons_of_mem _ hx)) ha h
      exact ⟨hwf, fun x hx => List.mem_cons_of_mem _ (hsub hx)⟩
    · simp only [Except.ok.injEq, Prod.mk.injEq] at h
      obtain ⟨hv, hr⟩ := h
      subst hv; subst hr
      exact ⟨ha, fun x hx => List.mem_cons_of_mem _ hx⟩
    · simp only [Except.ok.injEq, Prod.mk.injEq] at h
      obtain ⟨hv, hr⟩ := h
      subst hv; subst hr
      exact ⟨ha, fun x hx => hx⟩
    · obtain ⟨hwf, hsub⟩ := parseArrAfter_wf f _ acc v rest
        (tokNumsNorm_mono hn (fun x hx => List.mem_cons_of_mem _ hx)) ha h
      exact ⟨hwf, fun x hx => List.mem_cons_of_mem _ (hsub hx)⟩
    · simp only [Except.ok.injEq, Prod.mk.injEq] at h
      obtain ⟨hv, hr⟩ := h
      subst hv; subst hr
      exact ⟨ha, fun x hx => hx⟩

theorem parseObjItems_wf : ∀ (f : Nat) (ts : List Token) (acc : List (String × Value))
    (v : Value) (rest : List Token),
    tokNumsNorm ts → keysOK acc → wfMembers acc →
    parseObjItems f ts acc = .ok (v, rest) → wfValue v ∧ rest ⊆ ts
  | 0, ts, acc, v, rest, hn, hk, hm, h => by exact absurd h (by simp [parseObjItems])
  | f + 1, ts, acc, v, rest, hn, hk, hm, h => by
    unfold parseObjItems at h
    split at h
    · simp only [Except.ok.injEq, Prod.mk.injEq] at h
      obtain ⟨hv, hr⟩ := h
      subst hv; subst hr
      exact ⟨⟨hk, hm⟩, fun x hx => List.mem_cons_of_mem _ hx⟩
    · simp only [Except.ok.injEq, Prod.mk.injEq] at h
      obtain ⟨hv, hr⟩ := h
      subst hv; subst hr
      exact ⟨⟨hk, hm⟩, fun x hx => hx⟩
    · obtain ⟨hwf, hsub⟩ := parseObjAfterKey_wf f _ acc _ v rest
        (tokNumsNorm_mono hn (fun x hx => List.mem_cons_of_mem _ hx)) hk hm h
      exact ⟨hwf, fun x hx => List.mem_cons_of_mem _ (hsub hx)⟩
    · obtain ⟨hwf, hsub⟩ := parseObjAfterKey_wf f _ acc _ v rest
        (tokNumsNorm_mono hn (fun x hx => List.mem_cons_of_mem _ hx)) hk hm h
      exact ⟨hwf, fun x hx => List.mem_cons_of_mem _ (hsub hx)⟩
    · exact absurd h (by simp)

theorem parseObjAfterKey_wf : ∀ (f : Nat) (ts : List Token)
    (acc : List (String × Value)) (k : String) (v : Value) (rest : List Token),
    tokNumsNorm ts → keysOK acc → wfMembers acc →
    parseObjAfterKey f ts acc k = .ok (v, rest) → wfValue v ∧ rest ⊆ ts
  | 0, ts, acc, k, v, rest, hn, hk, hm, h => by
    exact absurd h (by simp [parseObjAfterKey])
  | f + 1, ts, acc, k, v, rest, hn, hk, hm, h => by
    unfold parseObjAfterKey at h
    split at h
    · rename_i rest0
      cases hpv : parseValue f rest0 with
      | error e => rw [hpv] at h; exact absurd h (by simp)
      | ok p =>
        obtain ⟨v1, ts1⟩ := p
        rw [hpv] at h
        replace h : parseObjAfter f ts1 (insertKV acc k v1) = .ok (v, rest) := h
        obtain ⟨hwf1, hsub1⟩ := parseValue_wf f rest0 v1 ts1
          (tokNumsNorm_mono hn (fun x hx => List.mem_cons_of_mem _ hx)) hpv
        obtain ⟨hwf, hsub⟩ := parseObjAfter_wf f ts1 (insertKV acc k v1) v rest
          (tokNumsNorm_mono hn (fun x hx => List.mem_cons_of_mem _ (hsub1 hx)))
          (keysOK_insertKV acc k v1 hk) (wfMembers_insertKV acc k v1 hm hwf1) h
        exact ⟨hwf, fun x hx => List.mem_cons_of_mem _ (hsub1 (hsub hx))⟩
    · simp only [Except.ok.injEq, Prod.mk.injEq] at h
      obtain ⟨hv, hr⟩ := h
      subst hv; subst hr
      exact ⟨⟨hk, hm⟩, fun x hx => hx⟩
    · exact absurd h (by simp)

theorem parseObjAfter_wf : ∀ (f : Nat) (ts : List Token) (acc : List (String × Value))
    (v : Value) (rest : List Token),
    tokNumsNorm ts → keysOK acc → wfMembers acc →
    parseObjAfter f ts acc = .ok (v, rest) → wfValue v ∧ rest ⊆ ts
  | 0, ts, acc, v, rest, hn, hk, hm, h => by exact absurd h (by simp [parseObjAfter])
  | f + 1, ts, acc, v, rest, hn, hk, hm, h => by
    unfold parseObjAfter at h
    split at h
    · obtain ⟨hwf, hsub⟩ := parseObjItems_wf f _ acc v rest
        (tokNumsNorm_mono hn (fun x hx => List.mem_cons_of_mem _ hx)) hk hm h
      exact ⟨hwf, fun x hx => List.mem_cons_of_mem _ (hsub hx)⟩
    · simp only [Except.ok.injEq, Prod.mk.injEq] at h
      obtain ⟨hv, hr⟩ := h
      subst hv; subst hr
      exact ⟨⟨hk, hm⟩, fun x hx => List.mem_cons_of_mem _ hx⟩
    · simp only [Except.ok.injEq, Prod.mk.injEq] at h
      obtain ⟨hv, hr⟩ := h
      subst hv; subst hr
      exact ⟨⟨hk, hm⟩, fun x hx => hx⟩
    · obtain ⟨hwf, hsub⟩ := parseObjAfter_wf f _ acc v rest
        (tokNumsNorm_mono hn (fun x hx => List.mem_cons_of_mem _ hx)) hk hm h
      exact ⟨hwf, fun x hx => List.mem_cons_of_mem _ (hsub hx)⟩
    · simp only [Except.ok.injEq, Prod.mk.injEq] at h
      obtain ⟨hv, hr⟩ := h
      subst hv; subst hr
      exact ⟨⟨hk, hm⟩, fun x hx => hx⟩

end

/-- Every value the public repair entry point returns is well-formed:
numbers normalized and object keys pairwise distinct, hereditarily. -/
theorem repair_json_wf (s : String) (v : Value) (h : repair_json s = .ok v) :
    wfValue v := by
  unfold repair_json at h
  dsimp only at h
  split at h
  · exact absurd h (by simp)
  · rename_i ts hts
    cases hpv : parseValue (2 * ts.length + 2) ts with
    | error e => rw [hpv] at h; exact absurd h (by simp)
    | ok p =>
      obtain ⟨v1, ts1⟩ := p
      rw [hpv] at h
      replace h : (Except.ok v1 : Except RepairError Value) = .ok v := h
      injection h with h1
      subst h1
      exact (parseValue_wf _ ts v1 ts1 (tokenize_num_norm _ ts hts) hpv).1

/-- C2 (amended): `repair_json` is idempotent up to serialization for every
result value except a top-level string containing an opening brace or
bracket character: if `repair_json` succeeds with such a value, repairing
the serialized result reproduces it exactly. -/
theorem C2_idempotence_amended (s : String) (v : Value)
    (h : repair_json s = .ok v) (hb : topStringBraceFree v = true) :
    repair_json (serialize v) = .ok v := by
  have hwf : wfValue v := repair_json_wf s v h
  have hspan : extractSpan (serialize v).data = serValue v := by
    show extractSpan (serValue v) = serValue v
    by_cases hc : v.isContainer = true
    · exact extractSpan_serValue_container v hc
    · exact extractSpan_no_open _ (hasOpen_serValue_scalar v (by simpa using hc) hb)
  have htok : tokenize (serValue v) = .ok (tokensOf v ++ [Token.eoi]) :=
    tokenize_serValue v hwf
  have hparse : parseValue (2 * (tokensOf v ++ [Token.eoi]).length + 2)
      (tokensOf v ++ [Token.eoi]) = .ok (v, [Token.eoi]) :=
    parseVal_tokensOf v [Token.eoi] _ hwf
      (by simp only [List.length_append, List.length_singleton]; omega)
  unfold repair_json
  dsimp only
  rw [hspan, htok]
  show ((match parseValue (2 * (tokensOf v ++ [Token.eoi]).length + 2)
      (tokensOf v ++ [Token.eoi]) with
    | Except.error e => Except.error (RepairError.structural e)
    | Except.ok (w, r) => Except.ok w) : Except RepairError Value) = .ok v
  rw [hparse]

/-- Witness for the amended C2: repairing `[1, 2,]` yields the two-element
array, and repairing its serialization reproduces the same value. -/
theorem C2_idempotence_amended_witness :
    repair_json "[1, 2,]" = .ok (.arr [.num (.int 1), .num (.int 2)]) ∧
    topStringBraceFree (.arr [.num (.int 1), .num (.int 2)]) = true ∧
    repair_json (serialize (.arr [.num (.int 1), .num (.int 2)])) =
      .ok (.arr [.num (.int 1), .num (.int 2)]) :=
  ⟨rfl, rfl, C2_idempotence_amended "[1, 2,]" _ rfl rfl⟩

/-! ## Strict parses are repair parses (token level) -/

mutual

theorem strictValue_consumed : ∀ (f : Nat) (ts : List Token) (v : Value)
    (rest : List Token), strictValue f ts = some (v, rest) →
    ∃ pre, pre ≠ [] ∧ ts = pre ++ rest
  | 0, ts, v, rest, h => by exact absurd h (by simp [strictValue])
  | f + 1, ts, v, rest, h => by
    unfold strictValue at h
    split at h
    · simp only [Option.some.injEq, Prod.mk.injEq] at h
      obtain ⟨-, hr⟩ := h
      subst hr
      exact ⟨[Token.lbrace, Token.rbrace], by simp, rfl⟩
    · rename_i rest0 hno
      obtain ⟨pre, hne, heq⟩ := strictMembers_consumed f rest0 [] v rest h
      exact ⟨Token.lbrace :: pre, by simp, by rw [heq]; rfl⟩
    · simp only [Option.some.injEq, Prod.mk.injEq] at h
      obtain ⟨-, hr⟩ := h
      subst hr
      exact ⟨[Token.lbrack, Token.rbrack], by simp, rfl⟩
    · rename_i rest0 hno
      obtain ⟨pre, hne, heq⟩ := strictItems_consumed f rest0 [] v rest h
      exact ⟨Token.lbrack :: pre, by simp, by rw [heq]; rfl⟩
    · rename_i s u q rc rest0
      simp only [Option.some.injEq, Prod.mk.injEq] at h
      obtain ⟨-, hr⟩ := h
      subst hr
      exact ⟨[Token.str s u q rc], by simp, rfl⟩
    · rename_i raw n rest0
      simp only [Option.some.injEq, Prod.mk.injEq] at h
      obtain ⟨-, hr⟩ := h
      subst hr
      exact ⟨[Token.num raw n], by simp, rfl⟩
    · rename_i w rest0
      split at h
      · simp only [Option.some.injEq, Prod.mk.injEq] at h
        obtain ⟨-, hr⟩ := h
        subst hr
        exact ⟨[Token.ident w], by simp, rfl⟩
      split at h
      · simp only [Option.some.injEq, Prod.mk.injEq] at h
        obtain ⟨-, hr⟩ := h
        subst hr
        exact ⟨[Token.ident w], by simp, rfl⟩
      split at h
      · simp only [Option.some.injEq, Prod.mk.injEq] at h
        obtain ⟨-, hr⟩ := h
        subst hr
        exact ⟨[Token.ident w], by simp, rfl⟩
      · exact absurd h (by simp)
    · exact absurd h (by simp)

theorem strictItems_consumed : ∀ (f : Nat) (ts : List Token) (acc : List Value)
    (v : Value) (rest : List Token), strictItems f ts acc = some (v, rest) →
    ∃ pre, pre ≠ [] ∧ ts = pre ++ rest
  | 0, ts, acc, v, rest, h => by exact absurd h (by simp [strictItems])
  | f + 1, ts, acc, v, rest, h => by
    unfold strictItems at h
    cases hsv : strictValue f ts with
    | none => rw [hsv] at h; exact absurd h (by simp)
    | some p =>
      obtain ⟨v1, ts1⟩ := p
      rw [hsv] at h
      obtain ⟨pre1, hne1, heq1⟩ := strictValue_consumed f ts v1 ts1 hsv
      cases hts1 : ts1 with
      | nil => rw [hts1] at h; exact absurd h (by simp)
      | cons t1 tl1 =>
        rw [hts1] at h
        rw [hts1] at heq1
        cases t1 with
        | comma =>
          replace h : strictItems f tl1 (acc ++ [v1]) = some (v, rest) := h
          obtain ⟨pre2, hne2, heq2⟩ :=
            strictItems_consumed f tl1 (acc ++ [v1]) v rest h
          refine ⟨pre1 ++ Token.comma :: pre2, by simp, ?_⟩
          rw [heq1, heq2]
          simp
        | rbrack =>
          replace h : some (Value.arr (acc ++ [v1]), tl1) = some (v, rest) := h
          simp only [Option.some.injEq, Prod.mk.injEq] at h
          obtain ⟨-, hr⟩ := h
          subst hr
          refine ⟨pre1 ++ [Token.rbrack], by simp, ?_⟩
          rw [heq1]
          simp
        | lbrace => exact absurd h (by simp)
        | rbrace => exact absurd h (by simp)
        | lbrack => exact absurd h (by simp)
        | colon => exact absurd h (by simp)
        | str s u q rc => exact absurd h (by simp)
        | num raw n => exact absurd h (by simp)
        | ident w => exact absurd h (by simp)
        | comment => exact absurd h (by simp)
        | eoi => exact absurd h (by simp)

theorem strictMembers_consumed : ∀ (f : Nat) (ts : List Token)
    (acc : List (String × Value)) (v : Value) (rest : List Token),
    strictMembers f ts acc = some (v, rest) → ∃ pre, pre ≠ [] ∧ ts = pre ++ rest
  | 0, ts, acc, v, rest, h => by exact absurd h (by simp [strictMembers])
  | f + 1, ts, acc, v, rest, h => by
    unfold strictMembers at h
    split at h
    · rename_i k u q rc rest0
      cases hsv : strictValue f rest0 with
      | none => rw [hsv] at h; exact absurd h (by simp)
      | some p =>
        obtain ⟨v1, ts1⟩ := p
        rw [hsv] at h
        obtain ⟨pre1, hne1, heq1⟩ := strictValue_consumed f rest0 v1 ts1 hsv
        cases hts1 : ts1 with
        | nil => rw [hts1] at h; exact absurd h (by simp)
        | cons t1 tl1 =>
          rw [hts1] at h
          rw [hts1] at heq1
          cases t1 with
          | comma =>
            replace h : strictMembers f tl1 (insertKV acc k v1) = some (v, rest) := h
            obtain ⟨pre2, hne2, heq2⟩ :=
              strictMembers_consumed f tl1 (insertKV acc k v1) v rest h
            refine ⟨Token.str k u q rc :: Token.colon :: pre1 ++ Token.comma :: pre2,
              by simp, ?_⟩
            rw [heq1, heq2]
            simp
          | rbrace =>
            replace h : some (Value.obj (insertKV acc k v1), tl1) = some (v, rest) := h
            simp only [Option.some.injEq, Prod.mk.injEq] at h
            obtain ⟨-, hr⟩ := h
            subst hr
            refine ⟨Token.str k u q rc :: Token.colon :: pre1 ++ [Token.rbrace],
              by simp, ?_⟩
            rw [heq1]
            simp
          | lbrace => exact absurd h (by simp)
          | lbrack => exact absurd h (by simp)
          | rbrack => exact absurd h (by simp)
          | colon => exact absurd h (by simp)
          | str s2 u2 q2 rc2 => exact absurd h (by simp)
          | num raw n => exact absurd h (by simp)
          | ident w => exact absurd h (by simp)
          | comment => exact absurd h (by simp)
          | eoi => exact absurd h (by simp)
    · exact absurd h (by simp)

end

/-- A successful strict value parse starts at a value-start token. -/
theorem strictValue_head (f : Nat) (ts : List Token) (v : Value) (rest : List Token)
    (h : strictValue f ts = some (v, rest)) :
    ∃ t tl, ts = t :: tl ∧ t.isValueStart = true := by
  cases f with
  | zero => exact absurd h (by simp [strictValue])
  | succ f =>
    unfold strictValue at h
    split at h
    · exact ⟨Token.lbrace, _, rfl, rfl⟩
    · exact ⟨Token.lbrace, _, rfl, rfl⟩
    · exact ⟨Token.lbrack, _, rfl, rfl⟩
    · exact ⟨Token.lbrack, _, rfl, rfl⟩
    · rename_i s u q rc rest0
      exact ⟨Token.str s u q rc, rest0, rfl, rfl⟩
    · rename_i raw n rest0
      exact ⟨Token.num raw n, rest0, rfl, rfl⟩
    · rename_i w rest0
      exact ⟨Token.ident w, rest0, rfl, rfl⟩
    · exact absurd h (by simp)

mutual

/-- A successful strict parse of a value is reproduced verbatim by the
repair parser, given fuel at least one step per remaining token. -/
theorem strictValue_parseValue : ∀ (f : Nat) (ts : List Token) (v : Value)
    (rest : List Token) (g : Nat),
    strictValue f ts = some (v, rest) → 2 * ts.length + 1 ≤ g →
    parseValue g ts = .ok (v, rest)
  | 0, ts, v, rest, g, h, hg => by exact absurd h (by simp [strictValue])
  | f + 1, ts, v, rest, g, h, hg => by
    unfold strictValue at h
    split at h
    · rename_i tl
      simp only [Option.some.injEq, Prod.mk.injEq] at h
      obtain ⟨hv, hr⟩ := h
      subst hv; subst hr
      simp only [List.length_cons] at hg
      obtain ⟨g2, rfl⟩ : ∃ g2, g = g2 + 2 := ⟨g - 2, by omega⟩
      rfl
    · rename_i rest0 hno
      simp only [List.length_cons] at hg
      obtain ⟨g1, rfl⟩ : ∃ g1, g = g1 + 1 := ⟨g - 1, by omega⟩
      show parseObjItems g1 rest0 [] = .ok (v, rest)
      exact strictMembers_parse f rest0 [] v rest g1 h (by omega)
    · rename_i tl
      simp only [Option.some.injEq, Prod.mk.injEq] at h
      obtain ⟨hv, hr⟩ := h
      subst hv; subst hr
      simp only [List.length_cons] at hg
      obtain ⟨g2, rfl⟩ : ∃ g2, g = g2 + 2 := ⟨g - 2, by omega⟩
      rfl
    · rename_i rest0 hno
      simp only [List.length_cons] at hg
      obtain ⟨g1, rfl⟩ : ∃ g1, g = g1 + 1 := ⟨g - 1, by omega⟩
      show parseArrItems g1 rest0 [] = .ok (v, rest)
      exact strictItems_parse f rest0 [] v rest g1 h (by omega)
    · rename_i s u q rc rest0
      simp only [Option.some.injEq, Prod.mk.injEq] at h
      obtain ⟨hv, hr⟩ := h
      subst hv; subst hr
      obtain ⟨g1, rfl⟩ : ∃ g1, g = g1 + 1 := ⟨g - 1, by omega⟩
      rfl
    · rename_i raw n rest0
      simp only [Option.some.injEq, Prod.mk.injEq] at h
      obtain ⟨hv, hr⟩ := h
      subst hv; subst hr
      obtain ⟨g1, rfl⟩ : ∃ g1, g = g1 + 1 := ⟨g - 1, by omega⟩
      rfl
    · rename_i w rest0
      obtain ⟨g1, rfl⟩ : ∃ g1, g = g1 + 1 := ⟨g - 1, by omega⟩
      split at h
      · rename_i hw
        subst hw
        simp only [Option.some.injEq, Prod.mk.injEq] at h
        obtain ⟨hv, hr⟩ := h
        subst hv; subst hr
        rfl
      split at h
      · rename_i hw
        subst hw
        simp only [Option.some.injEq, Prod.mk.injEq] at h
        obtain ⟨hv, hr⟩ := h
        subst hv; subst hr
        rfl
      split at h
      · rename_i hw
        subst hw
        simp only [Option.some.injEq, Prod.mk.injEq] at h
        obtain ⟨hv, hr⟩ := h
        subst hv; subst hr
        rfl
      · exact absurd h (by simp)
    · exact absurd h (by simp)

theorem strictItems_parse : ∀ (f : Nat) (ts : List Token) (acc : List Value)
    (v : Value) (rest : List Token) (g : Nat),
    strictItems f ts acc = some (v, rest) → 2 * ts.length + 2 ≤ g →
    parseArrItems g ts acc = .ok (v, rest)
  | 0, ts, acc, v, rest, g, h, hg => by exact absurd h (by simp [strictItems])
  | f + 1, ts, acc, v, rest, g, h, hg => by
    unfold strictItems at h
    cases hsv : strictValue f ts with
    | none => rw [hsv] at h; exact absurd h (by simp)
    | some p =>
      obtain ⟨v1, ts1⟩ := p
      rw [hsv] at h
      obtain ⟨t, tl, hts, hvs⟩ := strictValue_head f ts v1 ts1 hsv
      obtain ⟨pre1, hne1, heq1⟩ := strictValue_consumed f ts v1 ts1 hsv
      obtain ⟨g1, rfl⟩ : ∃ g1, g = g1 + 1 := ⟨g - 1, by omega⟩
      rw [hts, parseArrItems_stepVS g1 t tl acc hvs, ← hts]
      rw [strictValue_parseValue f ts v1 ts1 g1 hsv (by omega)]
      have hlen1 : ts1.length + 1 ≤ ts.length := by
        rw [heq1]
        simp only [List.length_append]
        have : 1 ≤ pre1.length := by
          cases pre1 with
          | nil => exact absurd rfl hne1
          | cons a b => simp
        omega
      cases hts1 : ts1 with
      | nil => rw [hts1] at h; exact absurd h (by simp)
      | cons t1 tl1 =>
        rw [hts1] at h
        rw [hts1] at hlen1
        cases t1 with
        | comma =>
          replace h : strictItems f tl1 (acc ++ [v1]) = some (v, rest) := h
          obtain ⟨g2, rfl⟩ : ∃ g2, g1 = g2 + 1 := ⟨g1 - 1, by omega⟩
          show parseArrItems g2 tl1 (acc ++ [v1]) = .ok (v, rest)
          refine strictItems_parse f tl1 (acc ++ [v1]) v rest g2 h ?_
          simp only [List.length_cons] at hlen1
          omega
        | rbrack =>
          replace h : some (Value.arr (acc ++ [v1]), tl1) = some (v, rest) := h
          simp only [Option.some.injEq, Prod.mk.injEq] at h
          obtain ⟨hv, hr⟩ := h
          subst hv; subst hr
          obtain ⟨g2, rfl⟩ : ∃ g2, g1 = g2 + 1 := ⟨g1 - 1, by omega⟩
          rfl
        | lbrace => exact absurd h (by simp)
        | rbrace => exact absurd h (by simp)
        | lbrack => exact absurd h (by simp)
        | colon => exact absurd h (by simp)
        | str s u q rc => exact absurd h (by simp)
        | num raw n => exact absurd h (by simp)
        | ident w => exact absurd h (by simp)
        | comment => exact absurd h (by simp)
        | eoi => exact absurd h (by simp)

theorem strictMembers_parse : ∀ (f : Nat) (ts : List Token)
    (acc : List (String × Value)) (v : Value) (rest : List Token) (g : Nat),
    strictMembers f ts acc = some (v, rest) → 2 * ts.length + 2 ≤ g →
    parseObjItems g ts acc = .ok (v, rest)
  | 0, ts, acc, v, rest, g, h, hg => by exact absurd h (by simp [strictMembers])
  | f + 1, ts, acc, v, rest, g, h, hg => by
    unfold strictMembers at h
    split at h
    · rename_i k u q rc rest0
      cases hsv : strictValue f rest0 with
      | none => rw [hsv] at h; exact absurd h (by simp)
      | some p =>
        obtain ⟨v1, ts1⟩ := p
        rw [hsv] at h
        obtain ⟨pre1, hne1, heq1⟩ := strictValue_consumed f rest0 v1 ts1 hsv
        simp only [List.length_cons] at hg
        obtain ⟨g2, rfl⟩ : ∃ g2, g = g2 + 2 := ⟨g - 2, by omega⟩
        show parseObjAfterKey (g2 + 1) (Token.colon :: rest0) acc k = .ok (v, rest)
        show (match parseValue g2 rest0 with
          | Except.error e => Except.error e
          | Except.ok (w, ts2) => parseObjAfter g2 ts2 (insertKV acc k w)) = .ok (v, rest)
        rw [strictValue_parseValue f rest0 v1 ts1 g2 hsv (by omega)]
        have hlen1 : ts1.length + 1 ≤ rest0.length := by
          rw [heq1]
          simp only [List.length_append]
          have : 1 ≤ pre1.length := by
            cases pre1 with
            | nil => exact absurd rfl hne1
            | cons a b => simp
          omega
        show parseObjAfter g2 ts1 (insertKV acc k v1) = .ok (v, rest)
        cases hts1 : ts1 with
        | nil => rw [hts1] at h; exact absurd h (by simp)
        | cons t1 tl1 =>
          rw [hts1] at h
          rw [hts1] at hlen1
          cases t1 with
          | comma =>
            replace h : strictMembers f tl1 (insertKV acc k v1) = some (v, rest) := h
            obtain ⟨g3, rfl⟩ : ∃ g3, g2 = g3 + 1 := ⟨g2 - 1, by omega⟩
            show parseObjItems g3 tl1 (insertKV acc k v1) = .ok (v, rest)
            refine strictMembers_parse f tl1 (insertKV acc k v1) v rest g3 h ?_
            simp only [List.length_cons] at hlen1
            omega
          | rbrace =>
            replace h : some (Value.obj (insertKV acc k v1), tl1) = some (v, rest) := h
            simp only [Option.some.injEq, Prod.mk.injEq] at h
            obtain ⟨hv, hr⟩ := h
            subst hv; subst hr
            obtain ⟨g3, rfl⟩ : ∃ g3, g2 = g3 + 1 := ⟨g2 - 1, by omega⟩
            rfl
          | lbrace => exact absurd h (by simp)
          | lbrack => exact absurd h (by simp)
          | rbrack => exact absurd h (by simp)
          | colon => exact absurd h (by simp)
          | str s2 u2 q2 rc2 => exact absurd h (by simp)
          | num raw n => exact absurd h (by simp)
          | ident w => exact absurd h (by simp)
          | comment => exact absurd h (by simp)
          | eoi => exact absurd h (by simp)
    · exact absurd h (by simp)

end

/-! ## Whitespace framing -/

theorem skipWs_decomp : ∀ cs : List Char,
    ∃ w, cs = w ++ skipWs cs ∧ ∀ c ∈ w, isWsChar c = true
  | [] => ⟨[], rfl, by simp⟩
  | c :: cs => by
    by_cases hw : isWsChar c = true
    · obtain ⟨w, heq, hws⟩ := skipWs_decomp cs
      refine ⟨c :: w, ?_, ?_⟩
      · rw [show skipWs (c :: cs) = skipWs cs from by simp [skipWs, hw]]
        rw [List.cons_append, ← heq]
      · intro x hx
        rcases List.mem_cons.mp hx with rfl | hx
        · exact hw
        · exact hws x hx
    · refine ⟨[], ?_, by simp⟩
      rw [skipWs_cons_not (by simpa using hw)]
      rfl

theorem skipWs_ws_append : ∀ (w cs : List Char), (∀ c ∈ w, isWsChar c = true) →
    skipWs (w ++ cs) = skipWs cs
  | [], cs, _ => rfl
  | c :: w, cs, h => by
    rw [List.cons_append,
      show skipWs (c :: (w ++ cs)) = skipWs (w ++ cs) from by
        simp [skipWs, h c (List.mem_cons_self c w)]]
    exact skipWs_ws_append w cs (fun x hx => h x (List.mem_cons_of_mem c hx))

theorem nextToken_ws_append (w cs : List Char) (h : ∀ c ∈ w, isWsChar c = true) :
    nextToken (w ++ cs) = nextToken cs := by
  unfold nextToken
  rw [skipWs_ws_append w cs h]

theorem wsChar_plain {c : Char} (h : isWsChar c = true) :
    isQuoteChar c = false ∧ c ≠ lbraceC ∧ c ≠ '[' ∧ c ≠ rbraceC ∧ c ≠ ']' := by
  have : c = ' ' ∨ c = '\n' ∨ c = '\t' ∨ c = '\x0d' := by
    simpa [isWsChar, or_assoc] using h
  rcases this with rfl | rfl | rfl | rfl <;>
    exact ⟨by decide, by decide, by decide, by decide, by decide⟩

theorem findOpen_ws_append : ∀ (w cs : List Char), (∀ c ∈ w, isWsChar c = true) →
    findOpen (w ++ cs) = findOpen cs
  | [], cs, _ => rfl
  | c :: w, cs, h => by
    obtain ⟨-, h1, h2, -, -⟩ := wsChar_plain (h c (List.mem_cons_self c w))
    rw [List.cons_append,
      show findOpen (c :: (w ++ cs)) =
        (if c = lbraceC || c = '[' then some (c :: (w ++ cs))
         else findOpen (w ++ cs)) from rfl,
      if_neg (by simp [h1, h2])]
    exact findOpen_ws_append w cs (fun x hx => h x (List.mem_cons_of_mem c hx))

theorem spanScan_ws_append (w : List Char) (cs : List Char) (d : Nat) (q : Char)
    (e : Bool) (h : ∀ c ∈ w, isWsChar c = true) :
    spanScan d false q e (w ++ cs) = w ++ spanScan d false q false cs :=
  spanScan_plainList w cs d q e (fun c hc => wsChar_plain (h c hc))

/-! ## String lexeme framing -/

theorem quote_cases {q : Char} (hq : isQuoteChar q = true) : q = '"' ∨ q = squoteC := by
  simpa [isQuoteChar] using hq

theorem quote_ne_bs {q : Char} (hq : isQuoteChar q = true) : ¬ (('\\' : Char) = q) := by
  rcases quote_cases hq with rfl | rfl <;> decide

theorem spanScan_inStr_plainQ {c : Char} (q : Char) (cs : List Char) (d : Nat)
    (h1 : c ≠ '\\') (h2 : c ≠ q) :
    spanScan d true q false (c :: cs) = c :: spanScan d true q false cs := by
  simp [spanScan, h1, h2]

theorem spanScan_escPairQ (q x : Char) (cs : List Char) (d : Nat) :
    spanScan d true q false ('\\' :: x :: cs) =
      '\\' :: x :: spanScan d true q false cs := by
  simp [spanScan]

theorem spanScan_exitStrQ (q : Char) (cs : List Char) (d : Nat)
    (hq : ¬ q = '\\') :
    spanScan d true q false (q :: cs) = q :: spanScan d false q false cs := by
  simp only [spanScan]
  rw [if_neg hq]
  simp

theorem hexVal_some_facts {c : Char} {a : Nat} (h : hexVal c = some a) :
    ¬ c = '\\' ∧ isQuoteChar c = false := by
  constructor
  · rintro rfl
    rw [show hexVal '\\' = none from rfl] at h
    exact Option.noConfusion h
  · by_cases hcq : isQuoteChar c = true
    · rcases quote_cases hcq with rfl | rfl
      · rw [show hexVal '"' = none from rfl] at h
        exact absurd h (by simp)
      · rw [show hexVal squoteC = none from rfl] at h
        exact absurd h (by simp)
    · simpa using hcq

theorem consDec_true_ne (pre : List Char) (rc0 : Bool)
    (r : Option (List Char × Bool × Bool × List Char)) (d0 : List Char) (rc : Bool)
    (cs1 : List Char) (h : consDec pre true rc0 r = some (d0, false, rc, cs1)) :
    False := by
  cases r with
  | none => exact Option.noConfusion h
  | some p =>
    obtain ⟨a, b, c, d⟩ := p
    simp [consDec] at h

theorem lexStr_bs_nil (q : Char) (hq : ¬ (('\\' : Char) = q)) :
    lexStr q ['\\'] = none := by
  rw [lexStr.eq_2, if_neg hq]
  rfl

theorem lexStr_uEsc (q h1c h2c h3c h4c : Char) (rest : List Char)
    (hq : ¬ (('\\' : Char) = q)) (a b c3 d : Nat) (ha : hexVal h1c = some a)
    (hb : hexVal h2c = some b) (hc : hexVal h3c = some c3) (hd : hexVal h4c = some d) :
    lexStr q ('\\' :: 'u' :: h1c :: h2c :: h3c :: h4c :: rest) =
      consDec [Char.ofNat (((a * 16 + b) * 16 + c3) * 16 + d)] false false
        (lexStr q rest) := by
  have hstep : lexStr q ('\\' :: 'u' :: h1c :: h2c :: h3c :: h4c :: rest) =
      (match hexVal h1c, hexVal h2c, hexVal h3c, hexVal h4c with
       | some a, some b, some c3, some d =>
         consDec [Char.ofNat (((a * 16 + b) * 16 + c3) * 16 + d)] false false
           (lexStr q rest)
       | _, _, _, _ =>
         consDec ['\\', 'u'] true false
           (lexStr q (h1c :: h2c :: h3c :: h4c :: rest))) := by
    rw [lexStr.eq_3, if_neg hq, if_pos rfl]
  rw [hstep, ha, hb, hc, hd]

theorem lexStr_frame (q : Char) (hq : isQuoteChar q = true) : ∀ (n : Nat)
    (cs : List Char), cs.length ≤ n → ∀ (d0 : List Char) (rc : Bool) (cs1 : List Char),
    lexStr q cs = some (d0, false, rc, cs1) →
    ∃ b, cs = b ++ cs1 ∧ b ≠ [] ∧
      (∀ X, lexStr q (b ++ X) = some (d0, false, rc, X)) ∧
      (∀ (dd : Nat) (Y : List Char),
        spanScan dd true q false (b ++ Y) = b ++ spanScan dd false q false Y) := by
  have hqb : ¬ (('\\' : Char) = q) := quote_ne_bs hq
  intro n
  induction n with
  | zero =>
    intro cs hcs d0 rc cs1 h
    cases cs with
    | nil => exact absurd h (by simp [lexStr])
    | cons c cs2 => simp at hcs
  | succ n ih =>
    intro cs hcs d0 rc cs1 h
    cases cs with
    | nil => exact absurd h (by simp [lexStr])
    | cons c cs2 =>
      by_cases hcq : c = q
      · subst hcq
        rw [lexStr_closeQuote] at h
        simp only [Option.some.injEq, Prod.mk.injEq] at h
        obtain ⟨hd0, -, hrc, hcs1⟩ := h
        subst hd0; subst hrc; subst hcs1
        refine ⟨[c], rfl, by simp, ?_, ?_⟩
        · intro X
          exact lexStr_closeQuote c X
        · intro dd Y
          exact spanScan_exitStrQ c Y dd (fun hh => hqb hh.symm)
      by_cases hcb : c = '\\'
      · subst hcb
        cases cs2 with
        | nil =>
          rw [lexStr_bs_nil _ hqb] at h
          exact Option.noConfusion h
        | cons e cs3 =>
          by_cases hu : e = 'u'
          · subst hu
            rcases cs3 with _ | ⟨x1, _ | ⟨x2, _ | ⟨x3, _ | ⟨x4, cs4⟩⟩⟩⟩
            · replace h : consDec ['\\', 'u'] true false (lexStr q []) =
                  some (d0, false, rc, cs1) := by
                rw [← h, lexStr.eq_3, if_neg hqb, if_pos rfl]
              exact absurd (consDec_true_ne _ _ _ _ _ _ h) (fun hf => hf)
            · replace h : consDec ['\\', 'u'] true false (lexStr q [x1]) =
                  some (d0, false, rc, cs1) := by
                rw [← h, lexStr.eq_3, if_neg hqb, if_pos rfl]
              exact absurd (consDec_true_ne _ _ _ _ _ _ h) (fun hf => hf)
            · replace h : consDec ['\\', 'u'] true false (lexStr q [x1, x2]) =
                  some (d0, false, rc, cs1) := by
                rw [← h, lexStr.eq_3, if_neg hqb, if_pos rfl]
              exact absurd (consDec_true_ne _ _ _ _ _ _ h) (fun hf => hf)
            · replace h : consDec ['\\', 'u'] true false (lexStr q [x1, x2, x3]) =
                  some (d0, false, rc, cs1) := by
                rw [← h, lexStr.eq_3, if_neg hqb, if_pos rfl]
              exact absurd (consDec_true_ne _ _ _ _ _ _ h) (fun hf => hf)
            · replace h : (match hexVal x1, hexVal x2, hexVal x3, hexVal x4 with
                 | some a, some b, some c3, some d =>
                   consDec [Char.ofNat (((a * 16 + b) * 16 + c3) * 16 + d)] false false
                     (lexStr q cs4)
                 | _, _, _, _ =>
                   consDec ['\\', 'u'] true false
                     (lexStr q (x1 :: x2 :: x3 :: x4 :: cs4))) =
                  some (d0, false, rc, cs1) := by
                rw [← h, lexStr.eq_3, if_neg hqb, if_pos rfl]
              cases hv1 : hexVal x1 with
              | none =>
                rw [hv1] at h
                replace h : consDec ['\\', 'u'] true false
                    (lexStr q (x1 :: x2 :: x3 :: x4 :: cs4)) =
                    some (d0, false, rc, cs1) := h
                exact absurd (consDec_true_ne _ _ _ _ _ _ h) (fun hf => hf)
              | some a =>
              rw [hv1] at h
              cases hv2 : hexVal x2 with
              | none =>
                rw [hv2] at h
                replace h : consDec ['\\', 'u'] true false
                    (lexStr q (x1 :: x2 :: x3 :: x4 :: cs4)) =
                    some (d0, false, rc, cs1) := h
                exact absurd (consDec_true_ne _ _ _ _ _ _ h) (fun hf => hf)
              | some b =>
              rw [hv2] at h
              cases hv3 : hexVal x3 with
              | none =>
                rw [hv3] at h
                replace h : consDec ['\\', 'u'] true false
                    (lexStr q (x1 :: x2 :: x3 :: x4 :: cs4)) =
                    some (d0, false, rc, cs1) := h
                exact absurd (consDec_true_ne _ _ _ _ _ _ h) (fun hf => hf)
              | some c3 =>
              rw [hv3] at h
              cases hv4 : hexVal x4 with
              | none =>
                rw [hv4] at h
                replace h : consDec ['\\', 'u'] true false
                    (lexStr q (x1 :: x2 :: x3 :: x4 :: cs4)) =
                    some (d0, false, rc, cs1) := h
                exact absurd (consDec_true_ne _ _ _ _ _ _ h) (fun hf => hf)
              | some dv =>
              rw [hv4] at h
              replace h : consDec [Char.ofNat (((a * 16 + b) * 16 + c3) * 16 + dv)]
                  false false (lexStr q cs4) = some (d0, false, rc, cs1) := h
              cases hrec : lexStr q cs4 with
              | none =>
                rw [hrec] at h
                exact Option.noConfusion h
              | some p =>
                obtain ⟨d2, u2, rc2, tl2⟩ := p
                rw [hrec] at h
                simp only [consDec, Option.some.injEq, Prod.mk.injEq,
                  Bool.false_or] at h
                obtain ⟨hd0, hu2, hrc, htl⟩ := h
                subst hu2
                obtain ⟨b2, hb2eq, hb2ne, hb2lex, hb2span⟩ :=
                  ih cs4 (by simp at hcs; omega) d2 rc2 cs1 (by rw [hrec, htl])
                refine ⟨'\\' :: 'u' :: x1 :: x2 :: x3 :: x4 :: b2, ?_, by simp,
                  ?_, ?_⟩
                · simp [hb2eq]
                · intro X
                  rw [show ('\\' :: 'u' :: x1 :: x2 :: x3 :: x4 :: b2) ++ X =
                    '\\' :: 'u' :: x1 :: x2 :: x3 :: x4 :: (b2 ++ X) from rfl]
                  rw [lexStr_uEsc q x1 x2 x3 x4 (b2 ++ X) hqb a b c3 dv hv1 hv2
                    hv3 hv4, hb2lex X]
                  simp [consDec, ← hd0, hrc]
                · intro dd Y
                  rw [show (('\\' :: 'u' :: x1 :: x2 :: x3 :: x4 :: b2) ++ Y) =
                    '\\' :: 'u' :: (x1 :: x2 :: x3 :: x4 :: (b2 ++ Y)) from rfl]
                  rw [spanScan_escPairQ]
                  obtain ⟨hx1b, hx1q⟩ := hexVal_some_facts hv1
                  obtain ⟨hx2b, hx2q⟩ := hexVal_some_facts hv2
                  obtain ⟨hx3b, hx3q⟩ := hexVal_some_facts hv3
                  obtain ⟨hx4b, hx4q⟩ := hexVal_some_facts hv4
                  have hne : ∀ x : Char, isQuoteChar x = false → x ≠ q := by
                    intro x hx hxx
                    rw [hxx] at hx
                    rw [hq] at hx
                    exact Bool.noConfusion hx
                  rw [spanScan_inStr_plainQ q _ dd hx1b (hne x1 hx1q),
                    spanScan_inStr_plainQ q _ dd hx2b (hne x2 hx2q),
                    spanScan_inStr_plainQ q _ dd hx3b (hne x3 hx3q),
                    spanScan_inStr_plainQ q _ dd hx4b (hne x4 hx4q),
                    hb2span dd Y]
                  rfl
          · cases hesc : escChar e with
            | some dch =>
              rw [lexStr_knownEsc q e dch cs3 hqb hesc hu] at h
              cases hrec : lexStr q cs3 with
              | none =>
                rw [hrec] at h
                exact Option.noConfusion h
              | some p =>
                obtain ⟨d2, u2, rc2, tl2⟩ := p
                rw [hrec] at h
                simp only [consDec, Option.some.injEq, Prod.mk.injEq,
                  Bool.false_or] at h
                obtain ⟨hd0, hu2, hrc, htl⟩ := h
                subst hu2
                obtain ⟨b2, hb2eq, hb2ne, hb2lex, hb2span⟩ :=
                  ih cs3 (by simp at hcs; omega) d2 rc2 cs1 (by rw [hrec, htl])
                refine ⟨'\\' :: e :: b2, ?_, by simp, ?_, ?_⟩
                · simp [hb2eq]
                · intro X
                  rw [show ('\\' :: e :: b2) ++ X = '\\' :: e :: (b2 ++ X) from rfl]
                  rw [lexStr_knownEsc q e dch (b2 ++ X) hqb hesc hu, hb2lex X]
                  simp [consDec, ← hd0, hrc]
                · intro dd Y
                  rw [show (('\\' :: e :: b2) ++ Y) = '\\' :: e :: (b2 ++ Y) from rfl]
                  rw [spanScan_escPairQ, hb2span dd Y]
                  rfl
            | none =>
              rw [lexStr_unknownEsc q e cs3 hqb hesc hu] at h
              exact absurd (consDec_true_ne _ _ _ _ _ _ h) (fun hf => hf)
      · rw [lexStr_plain q c cs2 hcq hcb] at h
        cases hrec : lexStr q cs2 with
        | none =>
          rw [hrec] at h
          exact Option.noConfusion h
        | some p =>
          obtain ⟨d2, u2, rc2, tl2⟩ := p
          rw [hrec] at h
          simp only [consDec, Option.some.injEq, Prod.mk.injEq, Bool.false_or] at h
          obtain ⟨hd0, hu2, hrc, htl⟩ := h
          subst hu2
          obtain ⟨b2, hb2eq, hb2ne, hb2lex, hb2span⟩ :=
            ih cs2 (by simp at hcs; omega) d2 rc2 cs1 (by rw [hrec, htl])
          refine ⟨c :: b2, ?_, by simp, ?_, ?_⟩
          · simp [hb2eq]
          · intro X
            rw [show (c :: b2) ++ X = c :: (b2 ++ X) from rfl]
            rw [lexStr_plain q c (b2 ++ X) hcq hcb, hb2lex X]
            simp [consDec, ← hd0, hrc]
          · intro dd Y
            rw [show ((c :: b2) ++ Y) = c :: (b2 ++ Y) from rfl]
            rw [spanScan_inStr_plainQ q _ dd hcb hcq, hb2span dd Y]
            rfl

/-! ## Identifier and number lexeme framing -/

theorem takeIdent_decomp : ∀ cs : List Char,
    cs = (takeIdent cs).1 ++ (takeIdent cs).2 ∧
    (∀ c ∈ (takeIdent cs).1, isIdentChar c = true) ∧
    identDelim (takeIdent cs).2
  | [] => ⟨rfl, by simp [takeIdent], trivial⟩
  | c :: cs => by
    by_cases hc : isIdentChar c = true
    · obtain ⟨he, hall, hdel⟩ := takeIdent_decomp cs
      rw [show takeIdent (c :: cs) = (c :: (takeIdent cs).1, (takeIdent cs).2) from by
        simp [takeIdent, hc]]
      refine ⟨by rw [List.cons_append, ← he], ?_, hdel⟩
      intro x hx
      rcases List.mem_cons.mp hx with rfl | hx
      · exact hc
      · exact hall x hx
    · rw [takeIdent_cons_not (by simpa using hc)]
      refine ⟨rfl, by simp, ?_⟩
      show ¬ (isIdentChar c = true)
      exact hc

theorem signScan_decomp (cs : List Char) :
    cs = (signScan cs).2.1 ++ (signScan cs).2.2 ∧
    (((signScan cs).2.1 = [] ∧ (signScan cs).1 = false) ∨
     ((signScan cs).2.1 = ['-'] ∧ (signScan cs).1 = true) ∨
     ((signScan cs).2.1 = ['+'] ∧ (signScan cs).1 = false)) := by
  cases cs with
  | nil => exact ⟨rfl, Or.inl ⟨rfl, rfl⟩⟩
  | cons c tl =>
    by_cases h1 : c = '-'
    · subst h1
      rw [show signScan ('-' :: tl) = (true, ['-'], tl) from rfl]
      exact ⟨rfl, Or.inr (Or.inl ⟨rfl, rfl⟩)⟩
    by_cases h2 : c = '+'
    · subst h2
      rw [show signScan ('+' :: tl) = (false, ['+'], tl) from rfl]
      exact ⟨rfl, Or.inr (Or.inr ⟨rfl, rfl⟩)⟩
    · rw [show signScan (c :: tl) = (false, [], c :: tl) from by simp [signScan, h1, h2]]
      exact ⟨rfl, Or.inl ⟨rfl, rfl⟩⟩

theorem takeDigitsL_decomp : ∀ cs : List Char,
    cs = (takeDigitsL cs).1 ++ (takeDigitsL cs).2 ∧
    (∀ c ∈ (takeDigitsL cs).1, isDigitChar c = true) ∧
    (∀ c rs, (takeDigitsL cs).2 = c :: rs → isDigitChar c = false)
  | [] => ⟨rfl, by simp [takeDigitsL], by intro c rs h; simp [takeDigitsL] at h⟩
  | c :: cs => by
    by_cases hc : isDigitChar c = true
    · obtain ⟨he, hall, hhead⟩ := takeDigitsL_decomp cs
      rw [show takeDigitsL (c :: cs) = (c :: (takeDigitsL cs).1, (takeDigitsL cs).2) from by
        simp [takeDigitsL, hc]]
      refine ⟨by rw [List.cons_append, ← he], ?_, hhead⟩
      intro x hx
      rcases List.mem_cons.mp hx with rfl | hx
      · exact hc
      · exact hall x hx
    · rw [takeDigitsL_cons_not (by simpa using hc)]
      refine ⟨rfl, by simp, ?_⟩
      intro c2 rs h
      injection h with h1 h2
      rw [← h1]
      simpa using hc

theorem takeDigitsL_nil_of_head (X : List Char)
    (h : ∀ c rs, X = c :: rs → isDigitChar c = false) : takeDigitsL X = ([], X) := by
  cases X with
  | nil => rfl
  | cons c rs => exact takeDigitsL_cons_not (h c rs rfl)

theorem fracScan_cons_not {c : Char} (tl : List Char) (h : ¬ c = '.') :
    fracScan (c :: tl) = ([], c :: tl) := by
  simp [fracScan, h]

theorem fracScan_nil_of_head (X : List Char)
    (h : ∀ c rs, X = c :: rs → ¬ c = '.') : fracScan X = ([], X) := by
  cases X with
  | nil => rfl
  | cons c rs => exact fracScan_cons_not rs (h c rs rfl)

theorem fracScan_dot (ds rest : List Char) (hne : ds ≠ [])
    (hds : ∀ c ∈ ds, isDigitChar c = true)
    (hrest : ∀ c rs, rest = c :: rs → isDigitChar c = false) :
    fracScan ('.' :: (ds ++ rest)) = (ds, rest) := by
  have htake : takeDigitsL (ds ++ rest) = (ds, rest) :=
    takeDigitsL_append ds rest hds (takeDigitsL_nil_of_head rest hrest)
  simp [fracScan, htake, hne]

theorem fracScan_decomp (cs : List Char) :
    ((fracScan cs).1 = [] ∧ (fracScan cs).2 = cs) ∨
    ((fracScan cs).1 ≠ [] ∧ cs = '.' :: ((fracScan cs).1 ++ (fracScan cs).2) ∧
      (∀ c ∈ (fracScan cs).1, isDigitChar c = true) ∧
      (∀ c rs, (fracScan cs).2 = c :: rs → isDigitChar c = false)) := by
  cases cs with
  | nil => exact Or.inl ⟨rfl, rfl⟩
  | cons c tl =>
    by_cases hdot : c = '.'
    · subst hdot
      obtain ⟨he, hall, hhead⟩ := takeDigitsL_decomp tl
      by_cases hnil : (takeDigitsL tl).1 = []
      · rw [show fracScan ('.' :: tl) = ([], '.' :: tl) from by simp [fracScan, hnil]]
        exact Or.inl ⟨rfl, rfl⟩
      · rw [show fracScan ('.' :: tl) = ((takeDigitsL tl).1, (takeDigitsL tl).2) from by
          simp [fracScan, hnil]]
        exact Or.inr ⟨hnil, by rw [← he], hall, hhead⟩
    · rw [fracScan_cons_not tl hdot]
      exact Or.inl ⟨rfl, rfl⟩

theorem expScan_decomp (cs : List Char) (sg : Bool) (er ed r : List Char)
    (h : expScan cs = some (sg, er, ed, r)) :
    cs = er ++ r ∧ ed ≠ [] ∧ (∀ c ∈ ed, isDigitChar c = true) ∧
    (∀ c rs, r = c :: rs → isDigitChar c = false) ∧
    ((∃ e0, (e0 = 'e' ∨ e0 = 'E') ∧ sg = false ∧ er = e0 :: ed) ∨
     (∃ e0 s0, (e0 = 'e' ∨ e0 = 'E') ∧ ((s0 = '-' ∧ sg = true) ∨ (s0 = '+' ∧ sg = false)) ∧
       er = e0 :: s0 :: ed)) := by
  cases cs with
  | nil => exact absurd h (by simp [expScan])
  | cons c tl =>
    by_cases hcond : (c = 'e' || c = 'E') = true
    · have hEor : c = 'e' ∨ c = 'E' := by
        rcases Bool.or_eq_true_iff.mp hcond with h1 | h1
        · exact Or.inl (by simpa using h1)
        · exact Or.inr (by simpa using h1)
      cases tl with
      | nil =>
        rw [show expScan [c] = none from by
          simp only [expScan]
          rw [if_pos hcond]
          rfl] at h
        exact Option.noConfusion h
      | cons s tl2 =>
        by_cases hs1 : s = '-'
        · subst hs1
          obtain ⟨hd2, hall, hhead⟩ := takeDigitsL_decomp tl2
          by_cases hnil : (takeDigitsL tl2).1 = []
          · rw [show expScan (c :: '-' :: tl2) = none from by
              simp only [expScan]
              rw [if_pos hcond]
              simp [hnil]] at h
            exact Option.noConfusion h
          · rw [show expScan (c :: '-' :: tl2) =
                some (true, c :: '-' :: (takeDigitsL tl2).1, (takeDigitsL tl2).1,
                  (takeDigitsL tl2).2) from by
              simp only [expScan]
              rw [if_pos hcond]
              simp [hnil]] at h
            simp only [Option.some.injEq, Prod.mk.injEq] at h
            obtain ⟨hsg, her, hed, hr⟩ := h
            refine ⟨?_, ?_, ?_, ?_, Or.inr ⟨c, '-', hEor, Or.inl ⟨rfl, hsg.symm⟩, ?_⟩⟩
            · rw [← her, ← hr]
              simp only [List.cons_append]
              rw [← hd2]
            · rw [← hed]; exact hnil
            · rw [← hed]; exact hall
            · rw [← hr]; exact hhead
            · rw [← her, ← hed]
        by_cases hs2 : s = '+'
        · subst hs2
          obtain ⟨hd2, hall, hhead⟩ := takeDigitsL_decomp tl2
          by_cases hnil : (takeDigitsL tl2).1 = []
          · rw [show expScan (c :: '+' :: tl2) = none from by
              simp only [expScan]
              rw [if_pos hcond]
              simp [hnil]] at h
            exact Option.noConfusion h
          · rw [show expScan (c :: '+' :: tl2) =
                some (false, c :: '+' :: (takeDigitsL tl2).1, (takeDigitsL tl2).1,
                  (takeDigitsL tl2).2) from by
              simp only [expScan]
              rw [if_pos hcond]
              simp [hnil]] at h
            simp only [Option.some.injEq, Prod.mk.injEq] at h
            obtain ⟨hsg, her, hed, hr⟩ := h
            refine ⟨?_, ?_, ?_, ?_, Or.inr ⟨c, '+', hEor, Or.inr ⟨rfl, hsg.symm⟩, ?_⟩⟩
            · rw [← her, ← hr]
              simp only [List.cons_append]
              rw [← hd2]
            · rw [← hed]; exact hnil
            · rw [← hed]; exact hall
            · rw [← hr]; exact hhead
            · rw [← her, ← hed]
        · obtain ⟨hd2, hall, hhead⟩ := takeDigitsL_decomp (s :: tl2)
          by_cases hnil : (takeDigitsL (s :: tl2)).1 = []
          · rw [show expScan (c :: s :: tl2) = none from by
              simp only [expScan]
              rw [if_pos hcond]
              simp [hs1, hs2, hnil]] at h
            exact Option.noConfusion h
          · rw [show expScan (c :: s :: tl2) =
                some (false, c :: (takeDigitsL (s :: tl2)).1, (takeDigitsL (s :: tl2)).1,
                  (takeDigitsL (s :: tl2)).2) from by
              simp only [expScan]
              rw [if_pos hcond]
              simp [hs1, hs2, hnil]] at h
            simp only [Option.some.injEq, Prod.mk.injEq] at h
            obtain ⟨hsg, her, hed, hr⟩ := h
            refine ⟨?_, ?_, ?_, ?_, Or.inl ⟨c, hEor, hsg.symm, ?_⟩⟩
            · rw [← her, ← hr]
              simp only [List.cons_append]
              rw [← hd2]
            · rw [← hed]; exact hnil
            · rw [← hed]; exact hall
            · rw [← hr]; exact hhead
            · rw [← her, ← hed]
    · rw [show expScan (c :: tl) = none from by
        simp only [expScan]
        rw [if_neg hcond]] at h
      exact Option.noConfusion h

theorem expScan_build1 (e0 : Char) (hE : e0 = 'e' ∨ e0 = 'E') (ed X : List Char)
    (hne : ed ≠ []) (hall : ∀ c ∈ ed, isDigitChar c = true)
    (hX : ∀ c rs, X = c :: rs → isDigitChar c = false) :
    expScan (e0 :: (ed ++ X)) = some (false, e0 :: ed, ed, X) := by
  obtain ⟨d1, dt, rfl⟩ := List.exists_cons_of_ne_nil hne
  have hd1 : isDigitChar d1 = true := hall d1 (by simp)
  obtain ⟨hm, hp, -, -, -⟩ := digit_not_special d1 hd1
  have hcond : (e0 = 'e' || e0 = 'E') = true := by
    rcases hE with rfl | rfl <;> simp
  have htake : takeDigitsL ((d1 :: dt) ++ X) = (d1 :: dt, X) :=
    takeDigitsL_append _ _ hall (takeDigitsL_nil_of_head X hX)
  rw [List.cons_append] at htake
  simp only [expScan, List.cons_append]
  rw [if_pos hcond]
  simp [hm, hp, htake]

theorem expScan_build2 (e0 s0 : Char) (sg : Bool) (hE : e0 = 'e' ∨ e0 = 'E')
    (hs : (s0 = '-' ∧ sg = true) ∨ (s0 = '+' ∧ sg = false)) (ed X : List Char)
    (hne : ed ≠ []) (hall : ∀ c ∈ ed, isDigitChar c = true)
    (hX : ∀ c rs, X = c :: rs → isDigitChar c = false) :
    expScan (e0 :: s0 :: (ed ++ X)) = some (sg, e0 :: s0 :: ed, ed, X) := by
  have hcond : (e0 = 'e' || e0 = 'E') = true := by
    rcases hE with rfl | rfl <;> simp
  have htake : takeDigitsL (ed ++ X) = (ed, X) :=
    takeDigitsL_append _ _ hall (takeDigitsL_nil_of_head X hX)
  simp only [expScan]
  rw [if_pos hcond]
  rcases hs with ⟨rfl, rfl⟩ | ⟨rfl, rfl⟩
  · simp [htake, hne]
  · simp [htake, hne]

theorem numDelim_head {X : List Char} (h : numDelim X) :
    ∀ c rs, X = c :: rs → isDigitChar c = false ∧ ¬ c = '.' ∧ ¬ c = 'e' ∧ ¬ c = 'E' := by
  intro c rs hX
  subst hX
  have h2 : ¬ ((isDigitChar c || c = '.' || c = 'e' || c = 'E') = true) := h
  simp only [Bool.or_eq_true_iff, decide_eq_true_eq] at h2
  push_neg at h2
  exact ⟨by simpa using h2.1.1.1, h2.1.1.2, h2.1.2, h2.2⟩

theorem signScan_decomp2 (cs : List Char) (neg : Bool) (sraw r : List Char)
    (h : signScan cs = (neg, sraw, r)) :
    cs = sraw ++ r ∧
    ((sraw = [] ∧ neg = false) ∨ (sraw = ['-'] ∧ neg = true) ∨
     (sraw = ['+'] ∧ neg = false)) := by
  have hd := signScan_decomp cs
  rw [h] at hd
  exact hd

theorem takeDigitsL_decomp2 (cs : List Char) (ds r : List Char)
    (h : takeDigitsL cs = (ds, r)) :
    cs = ds ++ r ∧ (∀ c ∈ ds, isDigitChar c = true) ∧
    (∀ c rs, r = c :: rs → isDigitChar c = false) := by
  have hd := takeDigitsL_decomp cs
  rw [h] at hd
  exact hd

theorem fracScan_decomp2 (cs : List Char) (fd r : List Char)
    (h : fracScan cs = (fd, r)) :
    (fd = [] ∧ r = cs) ∨
    (fd ≠ [] ∧ cs = '.' :: (fd ++ r) ∧ (∀ c ∈ fd, isDigitChar c = true) ∧
     (∀ c rs, r = c :: rs → isDigitChar c = false)) := by
  have hd := fracScan_decomp cs
  rw [h] at hd
  exact hd

/-- The number lexer characterized by its four component scans, in the
case of a present exponent part. -/
theorem lexNum_specSome (cs : List Char) (neg : Bool)
    (sgnRaw tail intD rest1 fracD rest2 : List Char) (sg : Bool)
    (eraw edig er : List Char)
    (hsign : signScan cs = (neg, sgnRaw, tail))
    (htake : takeDigitsL tail = (intD, rest1))
    (hfrac : fracScan rest1 = (fracD, rest2))
    (hexp : expScan rest2 = some (sg, eraw, edig, er)) :
    lexNum cs =
      (Token.num (String.mk (sgnRaw ++ intD ++
          (if fracD = [] then [] else '.' :: fracD) ++ eraw))
        (if ((fracD.length : Int) -
            (if sg then -(natDigits edig : Int) else (natDigits edig : Int))) ≤ 0 then
          mkDec neg (natDigits (intD ++ fracD) *
            10 ^ (-(((fracD.length : Int)) -
              (if sg then -(natDigits edig : Int) else (natDigits edig : Int)))).toNat) 0
        else
          mkDec neg (natDigits (intD ++ fracD))
            (((fracD.length : Int) -
              (if sg then -(natDigits edig : Int) else (natDigits edig : Int))).toNat)),
       er) := by
  simp only [lexNum, hsign, htake, hfrac, hexp]
  simp [List.append_assoc]

theorem signScan_rebuild (neg : Bool) (sraw rest : List Char)
    (hshape : (sraw = [] ∧ neg = false) ∨ (sraw = ['-'] ∧ neg = true) ∨
      (sraw = ['+'] ∧ neg = false))
    (hhead : sraw = [] → ∀ c rs, rest = c :: rs → ¬ c = '-' ∧ ¬ c = '+') :
    signScan (sraw ++ rest) = (neg, sraw, rest) := by
  rcases hshape with ⟨rfl, rfl⟩ | ⟨rfl, rfl⟩ | ⟨rfl, rfl⟩
  · cases rest with
    | nil => rfl
    | cons c rs =>
      obtain ⟨h1, h2⟩ := hhead rfl c rs rfl
      simp [signScan, h1, h2]
  · rfl
  · rfl

/-- Full frame for the number lexer: the consumed characters are exactly
the raw lexeme, the lexeme consists of scan-transparent characters, the
remainder starts with a non-digit, and the lexeme re-lexes identically
before any non-extending remainder. -/
theorem lexNum_frame (cs : List Char) (raw : String) (n : JNum) (cs1 : List Char)
    (h : lexNum cs = (Token.num raw n, cs1)) :
    cs = raw.data ++ cs1 ∧
    (∃ tl2, raw.data = (signScan cs).2.1 ++ (takeDigitsL (signScan cs).2.2).1 ++ tl2) ∧
    (∀ c ∈ raw.data,
      isQuoteChar c = false ∧ c ≠ lbraceC ∧ c ≠ '[' ∧ c ≠ rbraceC ∧ c ≠ ']') ∧
    (∀ c rs, cs1 = c :: rs → isDigitChar c = false) ∧
    (raw.data ≠ [] → ∀ X, numDelim X → lexNum (raw.data ++ X) = (Token.num raw n, X)) := by
  obtain ⟨neg, sraw, csa, hsign⟩ : ∃ a b c, signScan cs = (a, b, c) := ⟨_, _, _, rfl⟩
  obtain ⟨intD, csb, hint⟩ : ∃ a b, takeDigitsL csa = (a, b) := ⟨_, _, rfl⟩
  obtain ⟨fracD, csc, hfrac⟩ : ∃ a b, fracScan csb = (a, b) := ⟨_, _, rfl⟩
  obtain ⟨hcsa, hshape⟩ := signScan_decomp2 cs neg sraw csa hsign
  obtain ⟨hcsb, hintall, hinthead⟩ := takeDigitsL_decomp2 csa intD csb hint
  have hfd := fracScan_decomp2 csb fracD csc hfrac
  have hsraw_plain : ∀ c ∈ sraw,
      isQuoteChar c = false ∧ c ≠ lbraceC ∧ c ≠ '[' ∧ c ≠ rbraceC ∧ c ≠ ']' := by
    intro c hc
    rcases hshape with ⟨rfl, -⟩ | ⟨rfl, -⟩ | ⟨rfl, -⟩
    · exact absurd hc (List.not_mem_nil c)
    · simp only [List.mem_singleton] at hc
      subst hc
      exact ⟨by decide, by decide, by decide, by decide, by decide⟩
    · simp only [List.mem_singleton] at hc
      subst hc
      exact ⟨by decide, by decide, by decide, by decide, by decide⟩
  cases hexp : expScan csc with
  | none =>
    by_cases hfne : fracD = []
    · subst hfne
      obtain ⟨-, heq1⟩ | ⟨hbad, -, -, -⟩ := hfd
      swap
      · exact absurd rfl hbad
      subst heq1
      have hspec := lexNum_specInt cs csa intD csc neg sraw hsign hint hfrac hexp
      rw [h] at hspec
      injection hspec with h1 h2
      injection h1 with hraw hn
      have hrawdata : raw.data = sraw ++ intD := by rw [hraw]
      refine ⟨?_, ?_, ?_, ?_, ?_⟩
      · rw [hcsa, hcsb, hrawdata, ← h2]
        simp [List.append_assoc]
      · exact ⟨[], by rw [hrawdata, hsign, hint]; simp⟩
      · intro c hc
        rw [hrawdata] at hc
        rcases List.mem_append.mp hc with hc | hc
        · exact hsraw_plain c hc
        · exact digit_plain (hintall c hc)
      · intro c rs hcs1
        rw [h2] at hcs1
        exact hinthead c rs hcs1
      · intro hne X hX
        have hXd : ∀ c rs, X = c :: rs → isDigitChar c = false :=
          fun c rs hc => (numDelim_head hX c rs hc).1
        have hintne : sraw = [] → intD ≠ [] := by
          intro hs hi
          rw [hrawdata, hs, hi] at hne
          exact hne rfl
        have hsign2 : signScan (raw.data ++ X) = (neg, sraw, intD ++ X) := by
          rw [hrawdata, List.append_assoc]
          refine signScan_rebuild neg sraw (intD ++ X) hshape ?_
          intro hs c rs hc
          cases hintD : intD with
          | nil => exact absurd hintD (hintne hs)
          | cons d dt =>
            rw [hintD] at hc
            simp only [List.cons_append] at hc
            injection hc with hc1 hc2
            rw [← hc1]
            have hd : isDigitChar d = true := hintall d (by simp [hintD])
            obtain ⟨hm, hp, -, -, -⟩ := digit_not_special d hd
            exact ⟨hm, hp⟩
        have hint2 : takeDigitsL (intD ++ X) = (intD, X) :=
          takeDigitsL_append _ _ hintall (takeDigitsL_nil_of_head X hXd)
        have hfrac2 : fracScan X = ([], X) := fracScan_delim X hX
        have hexp2 : expScan X = none := expScan_delim X hX
        have hfin := lexNum_specInt (raw.data ++ X) (intD ++ X) intD X neg sraw
          (by rw [hsign2]) hint2 hfrac2 hexp2
        rw [hfin, hraw]
        try rw [hn]
    · obtain ⟨hbad, -⟩ | ⟨-, heq, hfall, hfhead⟩ := hfd
      · exact absurd hbad hfne
      have hspec := lexNum_specFrac cs csa intD csb fracD csc neg sraw hsign hint
        hfrac hfne hexp
      rw [h] at hspec
      injection hspec with h1 h2
      injection h1 with hraw hn
      have hrawdata : raw.data = sraw ++ intD ++ '.' :: fracD := by rw [hraw]
      refine ⟨?_, ?_, ?_, ?_, ?_⟩
      · rw [hcsa, hcsb, heq, hrawdata, ← h2]
        simp [List.append_assoc]
      · exact ⟨'.' :: fracD, by rw [hrawdata, hsign, hint]; try simp⟩
      · intro c hc
        rw [hrawdata] at hc
        simp only [List.mem_append, List.mem_cons] at hc
        rcases hc with (hc | hc) | rfl | hc
        · exact hsraw_plain c hc
        · exact digit_plain (hintall c hc)
        · exact ⟨by decide, by decide, by decide, by decide, by decide⟩
        · exact digit_plain (hfall c hc)
      · intro c rs hcs1
        rw [h2] at hcs1
        exact hfhead c rs hcs1
      · intro hne X hX
        have hXd : ∀ c rs, X = c :: rs → isDigitChar c = false :=
          fun c rs hc => (numDelim_head hX c rs hc).1
        have hsign2 : signScan (raw.data ++ X) =
            (neg, sraw, intD ++ '.' :: (fracD ++ X)) := by
          rw [hrawdata, List.append_assoc, List.append_assoc]
          rw [show ('.' :: fracD) ++ X = '.' :: (fracD ++ X) from rfl]
          refine signScan_rebuild neg sraw (intD ++ '.' :: (fracD ++ X)) hshape ?_
          intro hs c rs hc
          cases hintD : intD with
          | nil =>
            rw [hintD] at hc
            simp only [List.nil_append] at hc
            injection hc with hc1 hc2
            rw [← hc1]
            exact ⟨by decide, by decide⟩
          | cons d dt =>
            rw [hintD] at hc
            simp only [List.cons_append] at hc
            injection hc with hc1 hc2
            rw [← hc1]
            have hd : isDigitChar d = true := hintall d (by simp [hintD])
            obtain ⟨hm, hp, -, -, -⟩ := digit_not_special d hd
            exact ⟨hm, hp⟩
        have hint2 : takeDigitsL (intD ++ '.' :: (fracD ++ X)) =
            (intD, '.' :: (fracD ++ X)) :=
          takeDigitsL_append _ _ hintall (takeDigitsL_cons_not (by decide))
        have hfrac2 : fracScan ('.' :: (fracD ++ X)) = (fracD, X) :=
          fracScan_dot fracD X hfne hfall hXd
        have hexp2 : expScan X = none := expScan_delim X hX
        have hfin := lexNum_specFrac (raw.data ++ X) (intD ++ '.' :: (fracD ++ X))
          intD ('.' :: (fracD ++ X)) fracD X neg sraw (by rw [hsign2]) hint2 hfrac2
          hfne hexp2
        rw [hfin, hraw]
        try rw [hn]
  | some q =>
    obtain ⟨esg, eraw, edig, er⟩ := q
    obtain ⟨hcsc, hedne, hedall, herhead, hershape⟩ :=
      expScan_decomp csc esg eraw edig er hexp
    have hspec := lexNum_specSome cs neg sraw csa intD csb fracD csc esg eraw edig er
      hsign hint hfrac hexp
    rw [h] at hspec
    injection hspec with h1 h2
    injection h1 with hraw hn
    have hrawdata : raw.data = sraw ++ intD ++
        (if fracD = [] then [] else '.' :: fracD) ++ eraw := by rw [hraw]
    have hfr : csb = (if fracD = [] then [] else '.' :: fracD) ++ csc := by
      rcases hfd with ⟨rfl, rfl⟩ | ⟨hne2, heq2, -, -⟩
      · simp
      · rw [if_neg hne2]
        exact heq2
    have heraw_plain : ∀ c ∈ eraw,
        isQuoteChar c = false ∧ c ≠ lbraceC ∧ c ≠ '[' ∧ c ≠ rbraceC ∧ c ≠ ']' := by
      intro c hc
      rcases hershape with ⟨e0, hE, -, rfl⟩ | ⟨e0, s0, hE, hS, rfl⟩
      · rcases List.mem_cons.mp hc with rfl | hc
        · rcases hE with rfl | rfl
          · exact ⟨by decide, by decide, by decide, by decide, by decide⟩
          · exact ⟨by decide, by decide, by decide, by decide, by decide⟩
        · exact digit_plain (hedall c hc)
      · rcases List.mem_cons.mp hc with rfl | hc
        · rcases hE with rfl | rfl
          · exact ⟨by decide, by decide, by decide, by decide, by decide⟩
          · exact ⟨by decide, by decide, by decide, by decide, by decide⟩
        rcases List.mem_cons.mp hc with rfl | hc
        · rcases hS with ⟨rfl, -⟩ | ⟨rfl, -⟩
          · exact ⟨by decide, by decide, by decide, by decide, by decide⟩
          · exact ⟨by decide, by decide, by decide, by decide, by decide⟩
        · exact digit_plain (hedall c hc)
    have herawhead : ∀ Z c rs, eraw ++ Z = c :: rs →
        isDigitChar c = false ∧ ¬ c = '-' ∧ ¬ c = '+' ∧ ¬ c = '.' := by
      intro Z c rs hc
      rcases hershape with ⟨e0, hE, -, rfl⟩ | ⟨e0, s0, hE, -, rfl⟩ <;>
        (simp only [List.cons_append] at hc
         injection hc with hc1 hc2
         rw [← hc1]
         rcases hE with rfl | rfl
         · exact ⟨by decide, by decide, by decide, by decide⟩
         · exact ⟨by decide, by decide, by decide, by decide⟩)
    refine ⟨?_, ?_, ?_, ?_, ?_⟩
    · rw [hcsa, hcsb, hfr, hcsc, hrawdata, ← h2]
      simp [List.append_assoc]
    · refine ⟨(if fracD = [] then [] else '.' :: fracD) ++ eraw, ?_⟩
      rw [hrawdata, hsign, hint]
      simp [List.append_assoc]
    · intro c hc
      rw [hrawdata] at hc
      simp only [List.mem_append] at hc
      rcases hc with ((hc | hc) | hc) | hc
      · exact hsraw_plain c hc
      · exact digit_plain (hintall c hc)
      · by_cases hne2 : fracD = []
        · rw [if_pos hne2] at hc
          exact absurd hc (List.not_mem_nil c)
        · rw [if_neg hne2] at hc
          rcases List.mem_cons.mp hc with rfl | hc
          · exact ⟨by decide, by decide, by decide, by decide, by decide⟩
          · rcases hfd with ⟨hfd1, -⟩ | ⟨-, -, hfall, -⟩
            · exact absurd hfd1 hne2
            · exact digit_plain (hfall c hc)
      · exact heraw_plain c hc
    · intro c rs hcs1
      rw [h2] at hcs1
      exact herhead c rs hcs1
    · intro hne X hX
      have hXd : ∀ c rs, X = c :: rs → isDigitChar c = false :=
        fun c rs hc => (numDelim_head hX c rs hc).1
      have hmid : (if fracD = [] then ([] : List Char) else '.' :: fracD) ++
          (eraw ++ X) = (if fracD = [] then ([] : List Char) else '.' :: fracD) ++
          (eraw ++ X) := rfl
      have hmidhead : ∀ c rs,
          (if fracD = [] then ([] : List Char) else '.' :: fracD) ++ (eraw ++ X) =
            c :: rs → isDigitChar c = false ∧ ¬ c = '-' ∧ ¬ c = '+' := by
        intro c rs hc
        by_cases hne2 : fracD = []
        · rw [if_pos hne2] at hc
          simp only [List.nil_append] at hc
          obtain ⟨ha, hb, hcc, -⟩ := herawhead X c rs hc
          exact ⟨ha, hb, hcc⟩
        · rw [if_neg hne2] at hc
          simp only [List.cons_append] at hc
          injection hc with hc1 hc2
          rw [← hc1]
          exact ⟨by decide, by decide, by decide⟩
      have hsign2 : signScan (raw.data ++ X) = (neg, sraw, intD ++
          ((if fracD = [] then [] else '.' :: fracD) ++ (eraw ++ X))) := by
        rw [hrawdata]
        simp only [List.append_assoc]
        refine signScan_rebuild neg sraw _ hshape ?_
        intro hs c rs hc
        cases hintD : intD with
        | nil =>
          rw [hintD] at hc
          simp only [List.nil_append] at hc
          obtain ⟨-, hb, hcc⟩ := hmidhead c rs hc
          exact ⟨hb, hcc⟩
        | cons d dt =>
          rw [hintD] at hc
          simp only [List.cons_append] at hc
          injection hc with hc1 hc2
          rw [← hc1]
          have hd : isDigitChar d = true := hintall d (by simp [hintD])
          obtain ⟨hm, hp, -, -, -⟩ := digit_not_special d hd
          exact ⟨hm, hp⟩
      have hint2 : takeDigitsL (intD ++
          ((if fracD = [] then [] else '.' :: fracD) ++ (eraw ++ X))) =
          (intD, (if fracD = [] then [] else '.' :: fracD) ++ (eraw ++ X)) :=
        takeDigitsL_append _ _ hintall (takeDigitsL_nil_of_head _
          (fun c rs hc => (hmidhead c rs hc).1))
      have hfrac2 : fracScan ((if fracD = [] then [] else '.' :: fracD) ++
          (eraw ++ X)) = (fracD, eraw ++ X) := by
        by_cases hne2 : fracD = []
        · rw [if_pos hne2, hne2]
          simp only [List.nil_append]
          cases hX0 : eraw ++ X with
          | nil =>
            rcases hershape with ⟨e0, -, -, rfl⟩ | ⟨e0, s0, -, -, rfl⟩ <;>
              simp at hX0
          | cons c rs =>
            obtain ⟨-, -, -, hdot⟩ := herawhead X c rs hX0
            exact fracScan_cons_not rs hdot
        · rw [if_neg hne2]
          simp only [List.cons_append]
          rcases hfd with ⟨hfd1, -⟩ | ⟨-, -, hfall, -⟩
          · exact absurd hfd1 hne2
          · exact fracScan_dot fracD (eraw ++ X) hne2 hfall
              (fun c rs hc => (herawhead X c rs hc).1)
      have hexp2 : expScan (eraw ++ X) = some (esg, eraw, edig, X) := by
        rcases hershape with ⟨e0, hE, hsg, rfl⟩ | ⟨e0, s0, hE, hS, rfl⟩
        · subst hsg
          simp only [List.cons_append]
          exact expScan_build1 e0 hE edig X hedne hedall hXd
        · simp only [List.cons_append]
          exact expScan_build2 e0 s0 esg hE hS edig X hedne hedall hXd
      have hfin := lexNum_specSome (raw.data ++ X) neg sraw
        (intD ++ ((if fracD = [] then [] else '.' :: fracD) ++ (eraw ++ X))) intD
        ((if fracD = [] then [] else '.' :: fracD) ++ (eraw ++ X)) fracD (eraw ++ X)
        esg eraw edig X (by rw [hsign2]) hint2 hfrac2 hexp2
      rw [hfin, hraw]
      try rw [hn]

/-! ## Token-level framing of the tokenizer -/

theorem nextToken_inv (cs : List Char) (t : Token) (cs1 : List Char)
    (h : nextToken cs = .ok (t, cs1)) (hne : t ≠ .eoi) :
    ∃ w c rest, cs = w ++ c :: rest ∧ (∀ x ∈ w, isWsChar x = true) ∧
      isWsChar c = false ∧ nextToken (c :: rest) = .ok (t, cs1) := by
  cases hsw : skipWs cs with
  | nil =>
    rw [show nextToken cs = .ok (Token.eoi, []) from by
      unfold nextToken; rw [hsw]] at h
    injection h with h1
    injection h1 with h2 h3
    exact absurd h2.symm hne
  | cons c rest =>
    obtain ⟨w, hdec, hws⟩ := skipWs_decomp cs
    rw [hsw] at hdec
    have hwc := skipWs_head cs c rest hsw
    refine ⟨w, c, rest, hdec, hws, hwc, ?_⟩
    rw [show nextToken (c :: rest) = nextToken cs from by
      unfold nextToken
      rw [hsw, skipWs_cons_not hwc]]
    exact h

theorem nextToken_cons_shape (c : Char) (rest : List Char) (hw : isWsChar c = false)
    (t : Token) (cs1 : List Char) (h : nextToken (c :: rest) = .ok (t, cs1)) :
    (c = lbraceC ∧ t = .lbrace ∧ cs1 = rest) ∨
    (c = rbraceC ∧ t = .rbrace ∧ cs1 = rest) ∨
    (c = '[' ∧ t = .lbrack ∧ cs1 = rest) ∨
    (c = ']' ∧ t = .rbrack ∧ cs1 = rest) ∨
    (c = ':' ∧ t = .colon ∧ cs1 = rest) ∨
    (c = ',' ∧ t = .comma ∧ cs1 = rest) ∨
    (isQuoteChar c = true ∧ ∃ d u rc, lexStr c rest = some (d, u, rc, cs1) ∧
      t = .str (String.mk d) u c rc) ∨
    (t = .comment) ∨
    ((isDigitChar c = true ∨
       ((c = '-' ∨ c = '+') ∧ ∃ c2 r2, rest = c2 :: r2 ∧ isDigitChar c2 = true)) ∧
      ∃ raw n, t = .num raw n ∧ lexNum (c :: rest) = (.num raw n, cs1)) ∨
    (∃ p, t = .ident (String.mk (c :: p)) ∧ takeIdent rest = (p, cs1)) := by
  rw [nextToken_cons c rest hw] at h
  by_cases h1 : c = lbraceC
  · rw [if_pos h1] at h
    injection h with hp
    injection hp with hp1 hp2
    exact Or.inl ⟨h1, hp1.symm, hp2.symm⟩
  rw [if_neg h1] at h
  by_cases h2 : c = rbraceC
  · rw [if_pos h2] at h
    injection h with hp
    injection hp with hp1 hp2
    exact Or.inr (Or.inl ⟨h2, hp1.symm, hp2.symm⟩)
  rw [if_neg h2] at h
  by_cases h3 : c = '['
  · rw [if_pos h3] at h
    injection h with hp
    injection hp with hp1 hp2
    exact Or.inr (Or.inr (Or.inl ⟨h3, hp1.symm, hp2.symm⟩))
  rw [if_neg h3] at h
  by_cases h4 : c = ']'
  · rw [if_pos h4] at h
    injection h with hp
    injection hp with hp1 hp2
    exact Or.inr (Or.inr (Or.inr (Or.inl ⟨h4, hp1.symm, hp2.symm⟩)))
  rw [if_neg h4] at h
  by_cases h5 : c = ':'
  · rw [if_pos h5] at h
    injection h with hp
    injection hp with hp1 hp2
    exact Or.inr (Or.inr (Or.inr (Or.inr (Or.inl ⟨h5, hp1.symm, hp2.symm⟩))))
  rw [if_neg h5] at h
  by_cases h6 : c = ','
  · rw [if_pos h6] at h
    injection h with hp
    injection hp with hp1 hp2
    exact Or.inr (Or.inr (Or.inr (Or.inr (Or.inr (Or.inl ⟨h6, hp1.symm, hp2.symm⟩)))))
  rw [if_neg h6] at h
  by_cases h7 : isQuoteChar c = true
  · rw [if_pos h7] at h
    cases hls : lexStr c rest with
    | none => rw [hls] at h; exact absurd h (by simp)
    | some quad =>
      obtain ⟨d, u, rc, tl⟩ := quad
      rw [hls] at h
      injection h with hp
      injection hp with hp1 hp2
      refine Or.inr (Or.inr (Or.inr (Or.inr (Or.inr (Or.inr (Or.inl
        ⟨h7, d, u, rc, ?_, hp1.symm⟩))))))
      rw [hp2]
  rw [if_neg h7] at h
  by_cases h8 : c = '/'
  · rw [if_pos h8] at h
    cases rest with
    | nil =>
      injection h with hp
      injection hp with hp1 hp2
      exact Or.inr (Or.inr (Or.inr (Or.inr (Or.inr (Or.inr (Or.inr (Or.inr (Or.inr
        ⟨[], hp1.symm, by rw [← hp2]; rfl⟩))))))))
    | cons c2 rest2 =>
      replace h : (if c2 = '/' then
          (Except.ok (Token.comment, dropLine rest2) : Except LexError (Token × List Char))
        else if c2 = '*' then
          match dropBlock rest2 with
          | some tl => .ok (Token.comment, tl)
          | none => .error .untermComment
        else
          .ok (Token.ident (String.mk (c :: (takeIdent (c2 :: rest2)).1)),
            (takeIdent (c2 :: rest2)).2)) = .ok (t, cs1) := h
      by_cases h9 : c2 = '/'
      · rw [if_pos h9] at h
        injection h with hp
        injection hp with hp1 hp2
        exact Or.inr (Or.inr (Or.inr (Or.inr (Or.inr (Or.inr (Or.inr (Or.inl
          hp1.symm)))))))
      rw [if_neg h9] at h
      by_cases h10 : c2 = '*'
      · rw [if_pos h10] at h
        cases hdb : dropBlock rest2 with
        | none => rw [hdb] at h; exact absurd h (by simp)
        | some tl =>
          rw [hdb] at h
          injection h with hp
          injection hp with hp1 hp2
          exact Or.inr (Or.inr (Or.inr (Or.inr (Or.inr (Or.inr (Or.inr (Or.inl
            hp1.symm)))))))
      · rw [if_neg h10] at h
        injection h with hp
        injection hp with hp1 hp2
        refine Or.inr (Or.inr (Or.inr (Or.inr (Or.inr (Or.inr (Or.inr (Or.inr (Or.inr
          ⟨(takeIdent (c2 :: rest2)).1, hp1.symm, ?_⟩))))))))
        rw [← hp2]
  · rw [if_neg h8] at h
    by_cases h11 : isDigitChar c = true
    · rw [if_pos h11] at h
      cases hp : lexNum (c :: rest) with
      | mk t2 cs2 =>
        rw [hp] at h
        injection h with hpp
        injection hpp with hp1 hp2
        obtain ⟨rw2, nn, tl, he, -⟩ := lexNum_out_norm (c :: rest)
        rw [he] at hp
        injection hp with hq1 hq2
        refine Or.inr (Or.inr (Or.inr (Or.inr (Or.inr (Or.inr (Or.inr (Or.inr
          (Or.inl ⟨Or.inl h11, rw2, nn, ?_, ?_⟩))))))))
        · rw [← hp1, ← hq1]
        · rw [← hq1, hp2]
    rw [if_neg h11] at h
    split at h
    · rename_i hcond
      cases hp : lexNum (c :: rest) with
      | mk t2 cs2 =>
        rw [hp] at h
        injection h with hpp
        injection hpp with hp1 hp2
        obtain ⟨rw2, nn, tl, he, -⟩ := lexNum_out_norm (c :: rest)
        rw [he] at hp
        injection hp with hq1 hq2
        simp only [Bool.and_eq_true, Bool.or_eq_true_iff, decide_eq_true_eq]
          at hcond
        obtain ⟨hsgn, hmatch⟩ := hcond
        have hc2 : ∃ c2 r2, rest = c2 :: r2 ∧ isDigitChar c2 = true := by
          cases rest with
          | nil => exact absurd hmatch (by simp)
          | cons c2 r2 => exact ⟨c2, r2, rfl, hmatch⟩
        refine Or.inr (Or.inr (Or.inr (Or.inr (Or.inr (Or.inr (Or.inr (Or.inr
          (Or.inl ⟨Or.inr ⟨hsgn, hc2⟩, rw2, nn, ?_, ?_⟩))))))))
        · rw [← hp1, ← hq1]
        · rw [← hq1, hp2]
    · injection h with hp
      injection hp with hp1 hp2
      refine Or.inr (Or.inr (Or.inr (Or.inr (Or.inr (Or.inr (Or.inr (Or.inr (Or.inr
        ⟨(takeIdent rest).1, hp1.symm, ?_⟩))))))))
      rw [← hp2]

/-- Quote dispatch for either quote character. -/
theorem nextToken_quoteChar (q : Char) (hq : isQuoteChar q = true) (tl : List Char) :
    nextToken (q :: tl) =
      (match lexStr q tl with
       | none => .error .untermString
       | some (d, u, rc, tl2) => .ok (.str (String.mk d) u q rc, tl2)) := by
  rcases quote_cases hq with rfl | rfl
  · exact nextToken_quote tl
  · rfl

/-- Sign dispatch into the number lexer for either sign character. -/
theorem nextToken_signNum (c0 c1 : Char) (tl : List Char) (hs : c0 = '-' ∨ c0 = '+')
    (h : isDigitChar c1 = true) :
    nextToken (c0 :: c1 :: tl) = .ok (lexNum (c0 :: c1 :: tl)) := by
  rcases hs with rfl | rfl
  · exact nextToken_dashNum c1 tl h
  · simp only [nextToken, skipWs_cons_not (show isWsChar '+' = false by decide)]
    rw [if_neg (by decide), if_neg (by decide), if_neg (by decide), if_neg (by decide),
        if_neg (by decide), if_neg (by decide)]
    rw [show isQuoteChar '+' = false from by decide, if_neg (by simp), if_neg (by decide)]
    rw [show isDigitChar '+' = false from by decide, if_neg (by simp)]
    simp [h]

/-- A structural token lexed from an input decomposes it into leading
whitespace, the structural character, and the remainder, and the same
character re-lexes to the same token before any remainder. -/
theorem nextToken_frame_struct (cs : List Char) (t : Token) (ch : Char) (cs1 : List Char)
    (hp : (t = .lbrace ∧ ch = lbraceC) ∨ (t = .rbrace ∧ ch = rbraceC) ∨
          (t = .lbrack ∧ ch = '[') ∨ (t = .rbrack ∧ ch = ']') ∨
          (t = .colon ∧ ch = ':') ∨ (t = .comma ∧ ch = ','))
    (h : nextToken cs = .ok (t, cs1)) :
    ∃ w, cs = w ++ ch :: cs1 ∧ (∀ x ∈ w, isWsChar x = true) ∧
      (∀ X, nextToken (w ++ ch :: X) = .ok (t, X)) := by
  have hne : t ≠ .eoi := by
    rcases hp with ⟨h0, -⟩ | ⟨h0, -⟩ | ⟨h0, -⟩ | ⟨h0, -⟩ | ⟨h0, -⟩ | ⟨h0, -⟩ <;> simp [h0]
  obtain ⟨w, c, rest, hdec, hws, hwc, h2⟩ := nextToken_inv cs t cs1 h hne
  have hshape := nextToken_cons_shape c rest hwc t cs1 h2
  rcases hp with ⟨rfl, rfl⟩ | ⟨rfl, rfl⟩ | ⟨rfl, rfl⟩ | ⟨rfl, rfl⟩ | ⟨rfl, rfl⟩ | ⟨rfl, rfl⟩ <;>
    rcases hshape with ⟨hc, ht, hr⟩ | ⟨hc, ht, hr⟩ | ⟨hc, ht, hr⟩ | ⟨hc, ht, hr⟩ |
      ⟨hc, ht, hr⟩ | ⟨hc, ht, hr⟩ | ⟨hq2, d, u, rc2, hls, ht⟩ | ht |
      ⟨hd2, raw2, n2, ht, hlx⟩ | ⟨p, ht, htk⟩ <;>
    first
    | exact Token.noConfusion ht
    | (subst hc; subst hr;
       exact ⟨w, hdec, hws, fun X => by
         rw [nextToken_ws_append w _ hws]
         first
         | exact nextToken_lbrace X
         | exact nextToken_rbrace X
         | exact nextToken_lbrack X
         | exact nextToken_rbrack X
         | exact nextToken_colon X
         | exact nextToken_comma X⟩)

/-- A terminated string token decomposes the input into whitespace, the
whole string lexeme, and the remainder; the lexeme re-lexes to the same
token before any remainder, and the extractor scan passes it through
unchanged from any outside-string state. -/
theorem nextToken_frame_str (cs : List Char) (s : String) (q : Char) (rc : Bool)
    (cs1 : List Char) (h : nextToken cs = .ok (.str s false q rc, cs1)) :
    ∃ w b, cs = w ++ (q :: b) ++ cs1 ∧ (∀ x ∈ w, isWsChar x = true) ∧
      isQuoteChar q = true ∧
      (∀ X, nextToken (w ++ (q :: b) ++ X) = .ok (.str s false q rc, X)) ∧
      (∀ (dd : Nat) (qq : Char) (e : Bool) (Y : List Char),
        spanScan dd false qq e ((q :: b) ++ Y) = (q :: b) ++ spanScan dd false qq false Y) := by
  have hne : (Token.str s false q rc) ≠ Token.eoi := by simp
  obtain ⟨w, c, rest, hdec, hws, hwc, h2⟩ := nextToken_inv cs _ cs1 h hne
  have hshape := nextToken_cons_shape c rest hwc _ cs1 h2
  rcases hshape with ⟨hc, ht, hr⟩ | ⟨hc, ht, hr⟩ | ⟨hc, ht, hr⟩ | ⟨hc, ht, hr⟩ |
    ⟨hc, ht, hr⟩ | ⟨hc, ht, hr⟩ | ⟨hq2, d, u, rc2, hls, ht⟩ | ht |
    ⟨hd2, raw2, n2, ht, hlx⟩ | ⟨p, ht, htk⟩
  · exact absurd ht (by simp)
  · exact absurd ht (by simp)
  · exact absurd ht (by simp)
  · exact absurd ht (by simp)
  · exact absurd ht (by simp)
  · exact absurd ht (by simp)
  · injection ht with ht1 ht2 ht3 ht4
    subst ht1
    cases ht2
    cases ht3
    cases ht4
    obtain ⟨b, hbe, hbne, hblex, hbspan⟩ :=
      lexStr_frame q hq2 rest.length rest le_rfl d rc cs1 hls
    refine ⟨w, b, ?_, hws, hq2, ?_, ?_⟩
    · rw [hdec, hbe]
      simp
    · intro X
      rw [List.append_assoc, nextToken_ws_append w _ hws]
      rw [show (q :: b) ++ X = q :: (b ++ X) from rfl,
        nextToken_quoteChar q hq2 (b ++ X), hblex X]
    · intro dd qq e Y
      rw [show (q :: b) ++ Y = q :: (b ++ Y) from rfl,
        spanScan_quote (b ++ Y) dd qq e hq2, hbspan dd Y,
        spanScan_q_irrel Y dd q qq false false]
      rfl
  · exact absurd ht (by simp)
  · exact absurd ht (by simp)
  · exact absurd ht (by simp)

/-- A number token decomposes the input into whitespace, the raw lexeme,
and a remainder that starts with a non-digit; the lexeme is nonempty and
scan-transparent, and re-lexes to the same token before any
non-extending remainder. -/
theorem nextToken_frame_num (cs : List Char) (raw : String) (n : JNum) (cs1 : List Char)
    (h : nextToken cs = .ok (.num raw n, cs1)) :
    ∃ w, cs = w ++ raw.data ++ cs1 ∧ (∀ x ∈ w, isWsChar x = true) ∧ raw.data ≠ [] ∧
      (∀ c ∈ raw.data,
        isQuoteChar c = false ∧ c ≠ lbraceC ∧ c ≠ '[' ∧ c ≠ rbraceC ∧ c ≠ ']') ∧
      (∀ c rs, cs1 = c :: rs → isDigitChar c = false) ∧
      (∀ X, numDelim X → nextToken (w ++ raw.data ++ X) = .ok (.num raw n, X)) := by
  have hne : (Token.num raw n) ≠ Token.eoi := by simp
  obtain ⟨w, c, rest, hdec, hws, hwc, h2⟩ := nextToken_inv cs _ cs1 h hne
  have hshape := nextToken_cons_shape c rest hwc _ cs1 h2
  rcases hshape with ⟨hc, ht, hr⟩ | ⟨hc, ht, hr⟩ | ⟨hc, ht, hr⟩ | ⟨hc, ht, hr⟩ |
    ⟨hc, ht, hr⟩ | ⟨hc, ht, hr⟩ | ⟨hq2, d, u, rc2, hls, ht⟩ | ht |
    ⟨hd2, raw2, n2, ht, hlx⟩ | ⟨p, ht, htk⟩
  · exact absurd ht (by simp)
  · exact absurd ht (by simp)
  · exact absurd ht (by simp)
  · exact absurd ht (by simp)
  · exact absurd ht (by simp)
  · exact absurd ht (by simp)
  · exact absurd ht (by simp)
  · exact absurd ht (by simp)
  · injection ht with ht1 ht2
    cases ht1
    cases ht2
    obtain ⟨hfe, ⟨tl2, htl2⟩, hplain, hhead, hrelex⟩ := lexNum_frame (c :: rest) raw n cs1 hlx
    have hrne : raw.data ≠ [] := by
      intro h0
      have hcs1 : cs1 = c :: rest := by
        rw [h0] at hfe
        simpa using hfe.symm
      have hcd := hhead c rest hcs1
      rcases hd2 with hdig | ⟨hsgn, c2, r2, hr2, hc2d⟩
      · exact absurd hdig (by simp [hcd])
      · rw [h0] at htl2
        rcases hsgn with rfl | rfl <;> simp [signScan] at htl2
    have hcs : cs = w ++ raw.data ++ cs1 := by
      rw [hdec, List.append_assoc, ← hfe]
    obtain ⟨rtl, hrtl, hresteq⟩ : ∃ rtl, raw.data = c :: rtl ∧ rest = rtl ++ cs1 := by
      cases hr : raw.data with
      | nil => exact absurd hr hrne
      | cons a as =>
        rw [hr, List.cons_append] at hfe
        injection hfe with e1 e2
        exact ⟨as, by rw [e1], e2⟩
    refine ⟨w, hcs, hws, hrne, hplain, hhead, ?_⟩
    intro X hX
    rw [List.append_assoc, nextToken_ws_append w _ hws]
    have hrel := hrelex hrne X hX
    rw [hrtl, List.cons_append] at hrel ⊢
    rcases hd2 with hdig | ⟨hsgn, c2, r2, hr2, hc2d⟩
    · rw [nextToken_numChunk c (rtl ++ X) hdig, hrel]
    · cases rtl with
      | nil =>
        exfalso
        simp only [List.nil_append] at hresteq
        rw [hr2] at hresteq
        exact absurd hc2d (by simp [hhead c2 r2 hresteq.symm])
      | cons a as =>
        have ha : isDigitChar a = true := by
          rw [List.cons_append] at hresteq
          rw [hresteq] at hr2
          injection hr2 with e3 e4
          rw [e3]
          exact hc2d
        rw [List.cons_append] at hrel ⊢
        rw [nextToken_signNum c a (as ++ X) hsgn ha, hrel]
  · exact absurd ht (by simp)

/-- A `true`, `false` or `null` identifier token decomposes the input
into whitespace, the word, and a remainder that cannot extend an
identifier; the word is scan-transparent and re-lexes to the same token
before any non-extending remainder. -/
theorem nextToken_frame_ident (cs : List Char) (wd : String) (cs1 : List Char)
    (h : nextToken cs = .ok (.ident wd, cs1))
    (hwd : wd = "true" ∨ wd = "false" ∨ wd = "null") :
    ∃ w, cs = w ++ wd.data ++ cs1 ∧ (∀ x ∈ w, isWsChar x = true) ∧
      (∀ c ∈ wd.data,
        isQuoteChar c = false ∧ c ≠ lbraceC ∧ c ≠ '[' ∧ c ≠ rbraceC ∧ c ≠ ']') ∧
      identDelim cs1 ∧
      (∀ X, identDelim X → nextToken (w ++ wd.data ++ X) = .ok (.ident wd, X)) := by
  have hne : (Token.ident wd) ≠ Token.eoi := by simp
  obtain ⟨w, c, rest, hdec, hws, hwc, h2⟩ := nextToken_inv cs _ cs1 h hne
  have hshape := nextToken_cons_shape c rest hwc _ cs1 h2
  rcases hshape with ⟨hc, ht, hr⟩ | ⟨hc, ht, hr⟩ | ⟨hc, ht, hr⟩ | ⟨hc, ht, hr⟩ |
    ⟨hc, ht, hr⟩ | ⟨hc, ht, hr⟩ | ⟨hq2, d, u, rc2, hls, ht⟩ | ht |
    ⟨hd2, raw2, n2, ht, hlx⟩ | ⟨p, ht, htk⟩
  · exact absurd ht (by simp)
  · exact absurd ht (by simp)
  · exact absurd ht (by simp)
  · exact absurd ht (by simp)
  · exact absurd ht (by simp)
  · exact absurd ht (by simp)
  · exact absurd ht (by simp)
  · exact absurd ht (by simp)
  · exact absurd ht (by simp)
  · injection ht with ht1
    have hdata : wd.data = c :: p := by rw [ht1]
    have hti := takeIdent_decomp rest
    rw [htk] at hti
    obtain ⟨hre, hall, hdel⟩ := hti
    have hcs : cs = w ++ wd.data ++ cs1 := by
      rw [hdec, hre, hdata, List.append_assoc, List.cons_append]
    have hplain : ∀ x ∈ wd.data,
        isQuoteChar x = false ∧ x ≠ lbraceC ∧ x ≠ '[' ∧ x ≠ rbraceC ∧ x ≠ ']' := by
      rcases hwd with rfl | rfl | rfl <;> decide
    refine ⟨w, hcs, hws, hplain, hdel, ?_⟩
    intro X hX
    rw [List.append_assoc, nextToken_ws_append w _ hws]
    rcases hwd with rfl | rfl | rfl
    · obtain ⟨e1, e2⟩ :=
        List.cons.inj (show ('t' :: ['r', 'u', 'e'] : List Char) = c :: p from hdata)
      rw [show ("true".data ++ X) = 't' :: (['r', 'u', 'e'] ++ X) from rfl,
        nextToken_identChunk 't' ['r', 'u', 'e'] X (by decide) (by decide) (by decide)
          (by decide) (by decide) (by decide) (by decide) (by decide) (by decide)
          (by decide) (by simp) (by decide) hX]
    · obtain ⟨e1, e2⟩ :=
        List.cons.inj (show ('f' :: ['a', 'l', 's', 'e'] : List Char) = c :: p from hdata)
      rw [show ("false".data ++ X) = 'f' :: (['a', 'l', 's', 'e'] ++ X) from rfl,
        nextToken_identChunk 'f' ['a', 'l', 's', 'e'] X (by decide) (by decide) (by decide)
          (by decide) (by decide) (by decide) (by decide) (by decide) (by decide)
          (by decide) (by simp) (by decide) hX]
    · obtain ⟨e1, e2⟩ :=
        List.cons.inj (show ('n' :: ['u', 'l', 'l'] : List Char) = c :: p from hdata)
      rw [show ("null".data ++ X) = 'n' :: (['u', 'l', 'l'] ++ X) from rfl,
        nextToken_identChunk 'n' ['u', 'l', 'l'] X (by decide) (by decide) (by decide)
          (by decide) (by decide) (by decide) (by decide) (by decide) (by decide)
          (by decide) (by simp) (by decide) hX]

/-- End-of-input is only produced at the true end: the remainder is empty. -/
theorem nextToken_eoi (cs tl : List Char) (h : nextToken cs = .ok (.eoi, tl)) :
    tl = [] ∧ nextToken cs = .ok (.eoi, []) := by
  cases hsw : skipWs cs with
  | nil =>
    have hres : nextToken cs = .ok (.eoi, []) := by
      unfold nextToken
      rw [hsw]
    rw [hres] at h
    injection h with h1
    injection h1 with h2 h3
    exact ⟨h3.symm, hres⟩
  | cons c rest =>
    have hwc := skipWs_head cs c rest hsw
    have heq : nextToken (c :: rest) = nextToken cs := by
      unfold nextToken
      rw [hsw, skipWs_cons_not hwc]
    have hshape := nextToken_cons_shape c rest hwc .eoi tl (by rw [heq]; exact h)
    rcases hshape with ⟨-, ht, -⟩ | ⟨-, ht, -⟩ | ⟨-, ht, -⟩ | ⟨-, ht, -⟩ |
      ⟨-, ht, -⟩ | ⟨-, ht, -⟩ | ⟨-, d, u, rc, hls, ht⟩ | ht |
      ⟨-, raw, n, ht, -⟩ | ⟨p, ht, -⟩ <;> exact absurd ht (by simp)

/-- One tokenizer step on a non-final token, as a plain equation. -/
theorem tokenizeRaw_cons_ne (f : Nat) (cs : List Char) (t : Token) (tl : List Char)
    (hnt : nextToken cs = .ok (t, tl)) (hne : t ≠ .eoi) :
    tokenizeRaw (f + 1) cs =
      (match tokenizeRaw f tl with
       | .error e => .error e
       | .ok ts => .ok (t :: ts)) := by
  simp only [tokenizeRaw, hnt]

/-- One tokenizer step on the final token, as a plain equation. -/
theorem tokenizeRaw_eoi (f : Nat) (cs tl : List Char)
    (hnt : nextToken cs = .ok (.eoi, tl)) :
    tokenizeRaw (f + 1) cs = .ok [Token.eoi] := by
  simp only [tokenizeRaw, hnt]

/-- A successful raw tokenization is a lexing chain followed by
end-of-input on the final remainder. -/
theorem tokenizeRaw_inv : ∀ (f : Nat) (cs : List Char) (r : List Token),
    tokenizeRaw f cs = .ok r →
    ∃ ts cs2, r = ts ++ [Token.eoi] ∧ LexSteps cs ts cs2 ∧
      nextToken cs2 = .ok (Token.eoi, []) := by
  intro f
  induction f with
  | zero =>
    intro cs r h
    simp only [tokenizeRaw] at h
    exact Except.noConfusion h
  | succ f ih =>
    intro cs r h
    cases hnt : nextToken cs with
    | error e =>
      simp only [tokenizeRaw, hnt] at h
      exact Except.noConfusion h
    | ok p =>
      obtain ⟨t, tl⟩ := p
      by_cases hte : t = .eoi
      · subst hte
        rw [tokenizeRaw_eoi f cs tl hnt] at h
        injection h with h1
        obtain ⟨-, hnt2⟩ := nextToken_eoi cs tl hnt
        exact ⟨[], cs, h1.symm, LexSteps.nil cs, hnt2⟩
      · rw [tokenizeRaw_cons_ne f cs t tl hnt hte] at h
        cases hrec : tokenizeRaw f tl with
        | error e =>
          rw [hrec] at h
          exact Except.noConfusion h
        | ok ts2 =>
          rw [hrec] at h
          injection h with h1
          obtain ⟨ts, cs2, hts, hsteps, hend⟩ := ih tl ts2 hrec
          refine ⟨t :: ts, cs2, ?_, LexSteps.step cs t tl ts cs2 hnt hte hsteps, hend⟩
          rw [← h1, hts]
          rfl

theorem chainDelim_numDelim (cs : List Char) (h : chainDelim cs) : numDelim cs := by
  cases cs with
  | nil => trivial
  | cons c tl =>
    rcases h with h | rfl | rfl | rfl | rfl
    · have : c = ' ' ∨ c = '\n' ∨ c = '\t' ∨ c = '\x0d' := by
        simpa [isWsChar, or_assoc] using h
      rcases this with rfl | rfl | rfl | rfl <;> simp only [numDelim] <;> decide
    · simp only [numDelim]
      decide
    · simp only [numDelim]
      decide
    · simp only [numDelim]
      decide
    · simp only [numDelim]
      decide

theorem chainDelim_identDelim (cs : List Char) (h : chainDelim cs) : identDelim cs := by
  cases cs with
  | nil => trivial
  | cons c tl =>
    rcases h with h | rfl | rfl | rfl | rfl
    · have : c = ' ' ∨ c = '\n' ∨ c = '\t' ∨ c = '\x0d' := by
        simpa [isWsChar, or_assoc] using h
      rcases this with rfl | rfl | rfl | rfl <;> simp only [identDelim] <;> decide
    · simp only [identDelim]
      decide
    · simp only [identDelim]
      decide
    · simp only [identDelim]
      decide
    · simp only [identDelim]
      decide

theorem isStrict_not_comment (t : Token) (h : t.isStrict = true) : t.isComment = false := by
  cases t <;> first | rfl | exact absurd h (by simp [Token.isStrict])

theorem LexSteps.decomp : ∀ (ts1 : List Token) {cs : List Char} (ts2 : List Token)
    {cs2 : List Char}, LexSteps cs (ts1 ++ ts2) cs2 →
    ∃ mid, LexSteps cs ts1 mid ∧ LexSteps mid ts2 cs2
  | [], cs, ts2, cs2, h => ⟨cs, .nil cs, h⟩
  | t :: ts1, cs, ts2, cs2, h => by
    rw [List.cons_append] at h
    cases h with
    | step _ _ cs1 _ _ hnt hne htl =>
      obtain ⟨mid, h1, h2⟩ := LexSteps.decomp ts1 ts2 htl
      exact ⟨mid, .step _ _ _ _ _ hnt hne h1, h2⟩

theorem LexSteps.ws_prepend (w a : List Char) (ts : List Token)
    (cs2 : List Char) (hw : ∀ x ∈ w, isWsChar x = true) (hne : ts ≠ [])
    (h : LexSteps a ts cs2) : LexSteps (w ++ a) ts cs2 := by
  cases h with
  | nil => exact absurd rfl hne
  | step _ _ cs1 _ _ hnt hne2 htl =>
    exact .step _ _ _ _ _ (by rw [nextToken_ws_append w a hw]; exact hnt) hne2 htl

theorem spanScan_closeStop {c : Char} (cs : List Char) (d : Nat) (q : Char) (e : Bool)
    (h : c = rbraceC ∨ c = ']') (hq : isQuoteChar c = false)
    (hno : ¬(c = lbraceC ∨ c = '[')) (hd : d ≤ 1) :
    spanScan d false q e (c :: cs) = [c] := by
  simp only [spanScan]
  rw [if_neg (by simp [hq]), if_neg (by simp; tauto),
    if_pos (by rcases h with rfl | rfl <;> simp), if_pos hd]

theorem spanScan_sepChunk (w : List Char) (ch : Char) (cs : List Char) (d : Nat)
    (q : Char) (e : Bool) (hw : ∀ x ∈ w, isWsChar x = true)
    (h1 : isQuoteChar ch = false) (h2 : ch ≠ lbraceC) (h3 : ch ≠ '[')
    (h4 : ch ≠ rbraceC) (h5 : ch ≠ ']') :
    spanScan d false q e (w ++ ch :: cs) = w ++ ch :: spanScan d false q false cs := by
  rw [spanScan_ws_append w _ d q e hw, spanScan_plain cs d q false h1 h2 h3 h4 h5]

theorem spanScan_closeChunkPass (w : List Char) (ch : Char) (cs : List Char) (d : Nat)
    (q : Char) (e : Bool) (hw : ∀ x ∈ w, isWsChar x = true)
    (h : ch = rbraceC ∨ ch = ']') (hd : 2 ≤ d) :
    spanScan d false q e (w ++ ch :: cs) = w ++ ch :: spanScan (d - 1) false q false cs := by
  rw [spanScan_ws_append w _ d q e hw,
    spanScan_closePass cs d q false h (by rcases h with rfl | rfl <;> decide)
      (by rcases h with rfl | rfl <;> decide) (by omega)]

theorem spanScan_closeChunkStop (w : List Char) (ch : Char) (cs : List Char)
    (q : Char) (e : Bool) (hw : ∀ x ∈ w, isWsChar x = true)
    (h : ch = rbraceC ∨ ch = ']') :
    spanScan 1 false q e (w ++ ch :: cs) = w ++ [ch] := by
  rw [spanScan_ws_append w _ 1 q e hw,
    spanScan_closeStop cs 1 q false h (by rcases h with rfl | rfl <;> decide)
      (by rcases h with rfl | rfl <;> decide) (le_refl 1)]

theorem chainDelim_wsCons (w : List Char) (ch : Char) (X : List Char)
    (hw : ∀ x ∈ w, isWsChar x = true)
    (hch : ch = ',' ∨ ch = ']' ∨ ch = rbraceC ∨ ch = ':') :
    chainDelim (w ++ ch :: X) := by
  cases w with
  | nil =>
    rcases hch with rfl | rfl | rfl | rfl
    · exact Or.inr (Or.inl rfl)
    · exact Or.inr (Or.inr (Or.inl rfl))
    · exact Or.inr (Or.inr (Or.inr (Or.inl rfl)))
    · exact Or.inr (Or.inr (Or.inr (Or.inr rfl)))
  | cons c w2 => exact Or.inl (hw c (List.mem_cons_self c w2))


/-! ## Character-level framing of strict parses -/

mutual

/-- A strict value parse, lexed from characters, occupies a contiguous
chunk: leading whitespace then a lexeme block that re-lexes identically
before any non-extending remainder and that the extractor scan passes
through unchanged; a container's block starts at its opening bracket and
its interior stops the depth-one scan exactly at the closing bracket. -/
theorem strictValue_chain : ∀ (f : Nat) (ts : List Token) (v : Value)
    (rest pre : List Token) (cs mid : List Char),
    strictValue f ts = some (v, rest) → ts = pre ++ rest →
    (∀ t ∈ ts, t.isStrict = true) → LexSteps cs pre mid →
    ∃ w P, cs = w ++ P ++ mid ∧ (∀ x ∈ w, isWsChar x = true) ∧
      pre.length ≤ P.length ∧
      (∀ X, chainDelim X → LexSteps (P ++ X) pre X) ∧
      (∀ (d : Nat) (q : Char) (e : Bool) (Y : List Char), 1 ≤ d →
        spanScan d false q e ((w ++ P) ++ Y) = (w ++ P) ++ spanScan d false q false Y) ∧
      (v.isContainer = true → ∃ op Pin, P = op :: Pin ∧ (op = lbraceC ∨ op = '[') ∧
        (∀ (q : Char) (e : Bool) (Y : List Char), spanScan 1 false q e (Pin ++ Y) = Pin))
  | 0, ts, v, rest, pre, cs, mid, h, _, _, _ => by
    exact absurd h (by simp [strictValue])
  | f + 1, ts, v, rest, pre, cs, mid, h, hpre, hstrict, hch => by
    unfold strictValue at h
    split at h
    · rename_i tl
      simp only [Option.some.injEq, Prod.mk.injEq] at h
      obtain ⟨hv, hr⟩ := h
      subst hv
      subst hr
      have hpre2 : pre = [Token.lbrace, Token.rbrace] :=
        (List.append_cancel_right
          (show [Token.lbrace, Token.rbrace] ++ tl = pre ++ tl from by
            rw [← hpre]; rfl)).symm
      subst hpre2
      cases hch with
      | step _ _ c1 _ _ hnt1 hne1 htl1 =>
        cases htl1 with
        | step _ _ c2 _ _ hnt2 hne2 htl2 =>
          cases htl2 with
          | nil =>
            obtain ⟨w1, hd1, hw1, hrx1⟩ :=
              nextToken_frame_struct cs .lbrace lbraceC c1 (Or.inl ⟨rfl, rfl⟩) hnt1
            obtain ⟨w2, hd2, hw2, hrx2⟩ :=
              nextToken_frame_struct c1 .rbrace rbraceC mid
                (Or.inr (Or.inl ⟨rfl, rfl⟩)) hnt2
            refine ⟨w1, lbraceC :: (w2 ++ [rbraceC]), ?_, hw1, ?_, ?_, ?_, ?_⟩
            · rw [hd1, hd2]
              simp
            · simp only [List.length_cons, List.length_append, List.length_nil]
              omega
            · intro X hX
              refine LexSteps.step _ _ (w2 ++ rbraceC :: X) _ _ ?_ (by simp) ?_
              · rw [show (lbraceC :: (w2 ++ [rbraceC])) ++ X =
                  lbraceC :: (w2 ++ rbraceC :: X) from by simp]
                exact nextToken_lbrace _
              · exact LexSteps.step _ _ X _ _ (hrx2 X) (by simp) (LexSteps.nil X)
            · intro d q e Y hdge
              rw [show (w1 ++ (lbraceC :: (w2 ++ [rbraceC]))) ++ Y =
                w1 ++ (lbraceC :: (w2 ++ rbraceC :: Y)) from by simp]
              rw [spanScan_ws_append w1 _ d q e hw1]
              rw [spanScan_open _ d q false (Or.inl rfl) (by decide)]
              rw [spanScan_closeChunkPass w2 rbraceC Y (d + 1) q false hw2
                (Or.inl rfl) (by omega)]
              simp
            · intro _
              refine ⟨lbraceC, w2 ++ [rbraceC], rfl, Or.inl rfl, ?_⟩
              intro q e Y
              rw [show (w2 ++ [rbraceC]) ++ Y = w2 ++ rbraceC :: Y from by simp]
              exact spanScan_closeChunkStop w2 rbraceC Y q e hw2 (Or.inl rfl)
    · rename_i rest0 hno
      obtain ⟨preM, hneM, heqM⟩ := strictMembers_consumed f rest0 [] v rest h
      have hpre2 : pre = Token.lbrace :: preM :=
        (List.append_cancel_right
          (show (Token.lbrace :: preM) ++ rest = pre ++ rest from by
            rw [← hpre, heqM]; rfl)).symm
      subst hpre2
      cases hch with
      | step _ _ c1 _ _ hnt1 hne1 htl1 =>
        obtain ⟨w1, hd1, hw1, hrx1⟩ :=
          nextToken_frame_struct cs .lbrace lbraceC c1 (Or.inl ⟨rfl, rfl⟩) hnt1
        obtain ⟨Q, hdQ, hlenQ, hrxQ, hpassQ, hstopQ⟩ :=
          strictMembers_chain f rest0 [] v rest preM c1 mid h heqM
            (fun t ht => hstrict t (List.mem_cons_of_mem _ ht)) htl1
        refine ⟨w1, lbraceC :: Q, ?_, hw1, ?_, ?_, ?_, ?_⟩
        · rw [hd1, hdQ]
          simp
        · simp only [List.length_cons]
          omega
        · intro X hX
          refine LexSteps.step _ _ (Q ++ X) _ _ ?_ (by simp) (hrxQ X hX)
          rw [show (lbraceC :: Q) ++ X = lbraceC :: (Q ++ X) from rfl]
          exact nextToken_lbrace _
        · intro d q e Y hdge
          rw [show (w1 ++ (lbraceC :: Q)) ++ Y = w1 ++ (lbraceC :: (Q ++ Y)) from by simp]
          rw [spanScan_ws_append w1 _ d q e hw1]
          rw [spanScan_open _ d q false (Or.inl rfl) (by decide)]
          rw [hpassQ (d + 1) q false Y (by omega)]
          simp
        · intro _
          exact ⟨lbraceC, Q, rfl, Or.inl rfl, hstopQ⟩
    · rename_i tl
      simp only [Option.some.injEq, Prod.mk.injEq] at h
      obtain ⟨hv, hr⟩ := h
      subst hv
      subst hr
      have hpre2 : pre = [Token.lbrack, Token.rbrack] :=
        (List.append_cancel_right
          (show [Token.lbrack, Token.rbrack] ++ tl = pre ++ tl from by
            rw [← hpre]; rfl)).symm
      subst hpre2
      cases hch with
      | step _ _ c1 _ _ hnt1 hne1 htl1 =>
        cases htl1 with
        | step _ _ c2 _ _ hnt2 hne2 htl2 =>
          cases htl2 with
          | nil =>
            obtain ⟨w1, hd1, hw1, hrx1⟩ :=
              nextToken_frame_struct cs .lbrack '[' c1
                (Or.inr (Or.inr (Or.inl ⟨rfl, rfl⟩))) hnt1
            obtain ⟨w2, hd2, hw2, hrx2⟩ :=
              nextToken_frame_struct c1 .rbrack ']' mid
                (Or.inr (Or.inr (Or.inr (Or.inl ⟨rfl, rfl⟩)))) hnt2
            refine ⟨w1, '[' :: (w2 ++ [']']), ?_, hw1, ?_, ?_, ?_, ?_⟩
            · rw [hd1, hd2]
              simp
            · simp only [List.length_cons, List.length_append, List.length_nil]
              omega
            · intro X hX
              refine LexSteps.step _ _ (w2 ++ ']' :: X) _ _ ?_ (by simp) ?_
              · rw [show ('[' :: (w2 ++ [']'])) ++ X = '[' :: (w2 ++ ']' :: X) from by simp]
                exact nextToken_lbrack _
              · exact LexSteps.step _ _ X _ _ (hrx2 X) (by simp) (LexSteps.nil X)
            · intro d q e Y hdge
              rw [show (w1 ++ ('[' :: (w2 ++ [']']))) ++ Y =
                w1 ++ ('[' :: (w2 ++ ']' :: Y)) from by simp]
              rw [spanScan_ws_append w1 _ d q e hw1]
              rw [spanScan_open _ d q false (Or.inr rfl) (by decide)]
              rw [spanScan_closeChunkPass w2 ']' Y (d + 1) q false hw2
                (Or.inr rfl) (by omega)]
              simp
            · intro _
              refine ⟨'[', w2 ++ [']'], rfl, Or.inr rfl, ?_⟩
              intro q e Y
              rw [show (w2 ++ [']']) ++ Y = w2 ++ ']' :: Y from by simp]
              exact spanScan_closeChunkStop w2 ']' Y q e hw2 (Or.inr rfl)
    · rename_i rest0 hno
      obtain ⟨preM, hneM, heqM⟩ := strictItems_consumed f rest0 [] v rest h
      have hpre2 : pre = Token.lbrack :: preM :=
        (List.append_cancel_right
          (show (Token.lbrack :: preM) ++ rest = pre ++ rest from by
            rw [← hpre, heqM]; rfl)).symm
      subst hpre2
      cases hch with
      | step _ _ c1 _ _ hnt1 hne1 htl1 =>
        obtain ⟨w1, hd1, hw1, hrx1⟩ :=
          nextToken_frame_struct cs .lbrack '[' c1
            (Or.inr (Or.inr (Or.inl ⟨rfl, rfl⟩))) hnt1
        obtain ⟨Q, hdQ, hlenQ, hrxQ, hpassQ, hstopQ⟩ :=
          strictItems_chain f rest0 [] v rest preM c1 mid h heqM
            (fun t ht => hstrict t (List.mem_cons_of_mem _ ht)) htl1
        refine ⟨w1, '[' :: Q, ?_, hw1, ?_, ?_, ?_, ?_⟩
        · rw [hd1, hdQ]
          simp
        · simp only [List.length_cons]
          omega
        · intro X hX
          refine LexSteps.step _ _ (Q ++ X) _ _ ?_ (by simp) (hrxQ X hX)
          rw [show ('[' :: Q) ++ X = '[' :: (Q ++ X) from rfl]
          exact nextToken_lbrack _
        · intro d q e Y hdge
          rw [show (w1 ++ ('[' :: Q)) ++ Y = w1 ++ ('[' :: (Q ++ Y)) from by simp]
          rw [spanScan_ws_append w1 _ d q e hw1]
          rw [spanScan_open _ d q false (Or.inr rfl) (by decide)]
          rw [hpassQ (d + 1) q false Y (by omega)]
          simp
        · intro _
          exact ⟨'[', Q, rfl, Or.inr rfl, hstopQ⟩
    · rename_i s u qc rc rest0
      simp only [Option.some.injEq, Prod.mk.injEq] at h
      obtain ⟨hv, hr⟩ := h
      subst hv
      subst hr
      have hu : u = false := by
        have hst := hstrict (Token.str s u qc rc) (List.mem_cons_self _ _)
        simp only [Token.isStrict, Bool.and_eq_true, Bool.not_eq_true'] at hst
        exact hst.1.2
      subst hu
      have hpre2 : pre = [Token.str s false qc rc] :=
        (List.append_cancel_right
          (show [Token.str s false qc rc] ++ rest0 = pre ++ rest0 from by
            rw [← hpre]; rfl)).symm
      subst hpre2
      cases hch with
      | step _ _ c1 _ _ hnt1 hne1 htl1 =>
        cases htl1 with
        | nil =>
          obtain ⟨w1, b, hd1, hw1, hq1, hrx1, hsp1⟩ := nextToken_frame_str cs s qc rc mid hnt1
          refine ⟨w1, qc :: b, hd1, hw1, ?_, ?_, ?_, ?_⟩
          · simp
          · intro X hX
            have h2 := hrx1 X
            rw [List.append_assoc, nextToken_ws_append w1 _ hw1] at h2
            exact LexSteps.step _ _ X _ _ h2 (by simp) (LexSteps.nil X)
          · intro d q e Y hdge
            rw [show (w1 ++ (qc :: b)) ++ Y = w1 ++ ((qc :: b) ++ Y) from by simp]
            rw [spanScan_ws_append w1 _ d q e hw1]
            rw [hsp1 d q false Y]
            simp
          · intro hc
            exact absurd hc (by simp [Value.isContainer])
    · rename_i raw n rest0
      simp only [Option.some.injEq, Prod.mk.injEq] at h
      obtain ⟨hv, hr⟩ := h
      subst hv
      subst hr
      have hpre2 : pre = [Token.num raw n] :=
        (List.append_cancel_right
          (show [Token.num raw n] ++ rest0 = pre ++ rest0 from by
            rw [← hpre]; rfl)).symm
      subst hpre2
      cases hch with
      | step _ _ c1 _ _ hnt1 hne1 htl1 =>
        cases htl1 with
        | nil =>
          obtain ⟨w1, hd1, hw1, hrne, hplain, hhead, hrx1⟩ :=
            nextToken_frame_num cs raw n mid hnt1
          refine ⟨w1, raw.data, hd1, hw1, ?_, ?_, ?_, ?_⟩
          · cases hnl : raw.data with
            | nil => exact absurd hnl hrne
            | cons a as => simp
          · intro X hX
            have h2 := hrx1 X (chainDelim_numDelim X hX)
            rw [List.append_assoc, nextToken_ws_append w1 _ hw1] at h2
            exact LexSteps.step _ _ X _ _ h2 (by simp) (LexSteps.nil X)
          · intro d q e Y hdge
            rw [show (w1 ++ raw.data) ++ Y = w1 ++ (raw.data ++ Y) from by simp]
            rw [spanScan_ws_append w1 _ d q e hw1]
            rw [spanScan_plainList raw.data Y d q false hplain]
            simp
          · intro hc
            exact absurd hc (by simp [Value.isContainer])
    · rename_i wd rest0
      split at h
      · rename_i hwdt
        subst hwdt
        simp only [Option.some.injEq, Prod.mk.injEq] at h
        obtain ⟨hv, hr⟩ := h
        subst hv
        subst hr
        have hpre2 : pre = [Token.ident "true"] :=
          (List.append_cancel_right
            (show [Token.ident "true"] ++ rest0 = pre ++ rest0 from by
              rw [← hpre]; rfl)).symm
        subst hpre2
        cases hch with
        | step _ _ c1 _ _ hnt1 hne1 htl1 =>
          cases htl1 with
          | nil =>
            obtain ⟨w1, hd1, hw1, hplain, hdel, hrx1⟩ :=
              nextToken_frame_ident cs "true" mid hnt1 (Or.inl rfl)
            refine ⟨w1, "true".data, hd1, hw1, by decide, ?_, ?_, ?_⟩
            · intro X hX
              have h2 := hrx1 X (chainDelim_identDelim X hX)
              rw [List.append_assoc, nextToken_ws_append w1 _ hw1] at h2
              exact LexSteps.step _ _ X _ _ h2 (by simp) (LexSteps.nil X)
            · intro d q e Y hdge
              rw [show (w1 ++ "true".data) ++ Y = w1 ++ ("true".data ++ Y) from by simp]
              rw [spanScan_ws_append w1 _ d q e hw1]
              rw [spanScan_plainList _ Y d q false hplain]
              simp
            · intro hc
              exact absurd hc (by simp [Value.isContainer])
      split at h
      · rename_i hwdt
        subst hwdt
        simp only [Option.some.injEq, Prod.mk.injEq] at h
        obtain ⟨hv, hr⟩ := h
        subst hv
        subst hr
        have hpre2 : pre = [Token.ident "false"] :=
          (List.append_cancel_right
            (show [Token.ident "false"] ++ rest0 = pre ++ rest0 from by
              rw [← hpre]; rfl)).symm
        subst hpre2
        cases hch with
        | step _ _ c1 _ _ hnt1 hne1 htl1 =>
          cases htl1 with
          | nil =>
            obtain ⟨w1, hd1, hw1, hplain, hdel, hrx1⟩ :=
              nextToken_frame_ident cs "false" mid hnt1 (Or.inr (Or.inl rfl))
            refine ⟨w1, "false".data, hd1, hw1, by decide, ?_, ?_, ?_⟩
            · intro X hX
              have h2 := hrx1 X (chainDelim_identDelim X hX)
              rw [List.append_assoc, nextToken_ws_append w1 _ hw1] at h2
              exact LexSteps.step _ _ X _ _ h2 (by simp) (LexSteps.nil X)
            · intro d q e Y hdge
              rw [show (w1 ++ "false".data) ++ Y = w1 ++ ("false".data ++ Y) from by simp]
              rw [spanScan_ws_append w1 _ d q e hw1]
              rw [spanScan_plainList _ Y d q false hplain]
              simp
            · intro hc
              exact absurd hc (by simp [Value.isContainer])
      split at h
      · rename_i hwdt
        subst hwdt
        simp only [Option.some.injEq, Prod.mk.injEq] at h
        obtain ⟨hv, hr⟩ := h
        subst hv
        subst hr
        have hpre2 : pre = [Token.ident "null"] :=
          (List.append_cancel_right
            (show [Token.ident "null"] ++ rest0 = pre ++ rest0 from by
              rw [← hpre]; rfl)).symm
        subst hpre2
        cases hch with
        | step _ _ c1 _ _ hnt1 hne1 htl1 =>
          cases htl1 with
          | nil =>
            obtain ⟨w1, hd1, hw1, hplain, hdel, hrx1⟩ :=
              nextToken_frame_ident cs "null" mid hnt1 (Or.inr (Or.inr rfl))
            refine ⟨w1, "null".data, hd1, hw1, by decide, ?_, ?_, ?_⟩
            · intro X hX
              have h2 := hrx1 X (chainDelim_identDelim X hX)
              rw [List.append_assoc, nextToken_ws_append w1 _ hw1] at h2
              exact LexSteps.step _ _ X _ _ h2 (by simp) (LexSteps.nil X)
            · intro d q e Y hdge
              rw [show (w1 ++ "null".data) ++ Y = w1 ++ ("null".data ++ Y) from by simp]
              rw [spanScan_ws_append w1 _ d q e hw1]
              rw [spanScan_plainList _ Y d q false hplain]
              simp
            · intro hc
              exact absurd hc (by simp [Value.isContainer])
      · exact absurd h (by simp)
    · exact absurd h (by simp)

/-- A strict items loop, lexed from characters, occupies a chunk that
re-lexes identically, lowers the scan depth by one across it, and stops
the depth-one scan exactly at its closing bracket. -/
theorem strictItems_chain : ∀ (f : Nat) (ts : List Token) (acc : List Value) (v : Value)
    (rest pre : List Token) (cs mid : List Char),
    strictItems f ts acc = some (v, rest) → ts = pre ++ rest →
    (∀ t ∈ ts, t.isStrict = true) → LexSteps cs pre mid →
    ∃ Q, cs = Q ++ mid ∧ pre.length ≤ Q.length ∧
      (∀ X, chainDelim X → LexSteps (Q ++ X) pre X) ∧
      (∀ (d : Nat) (q : Char) (e : Bool) (Y : List Char), 2 ≤ d →
        spanScan d false q e (Q ++ Y) = Q ++ spanScan (d - 1) false q false Y) ∧
      (∀ (q : Char) (e : Bool) (Y : List Char), spanScan 1 false q e (Q ++ Y) = Q)
  | 0, ts, acc, v, rest, pre, cs, mid, h, _, _, _ => by
    exact absurd h (by simp [strictItems])
  | f + 1, ts, acc, v, rest, pre, cs, mid, h, hpre, hstrict, hch => by
    unfold strictItems at h
    cases hsv : strictValue f ts with
    | none => rw [hsv] at h; exact absurd h (by simp)
    | some p =>
      obtain ⟨v1, ts1⟩ := p
      rw [hsv] at h
      obtain ⟨preV, hneV, heqV⟩ := strictValue_consumed f ts v1 ts1 hsv
      cases hts1 : ts1 with
      | nil => rw [hts1] at h; exact absurd h (by simp)
      | cons t1 tl1 =>
        rw [hts1] at h
        rw [hts1] at heqV
        rw [hts1] at hsv
        cases t1 with
        | comma =>
          replace h : strictItems f tl1 (acc ++ [v1]) = some (v, rest) := h
          obtain ⟨preR, hneR, heqR⟩ := strictItems_consumed f tl1 (acc ++ [v1]) v rest h
          have hpre2 : pre = preV ++ Token.comma :: preR :=
            (List.append_cancel_right
              (show (preV ++ Token.comma :: preR) ++ rest = pre ++ rest from by
                rw [← hpre, heqV, heqR]; simp)).symm
          subst hpre2
          obtain ⟨m1, chV, ch2⟩ := LexSteps.decomp preV (Token.comma :: preR) hch
          cases ch2 with
          | step _ _ m2 _ _ hntC hneC htlR =>
            obtain ⟨wV, PV, hdV, hwV, hlenV, hrxV, hpassV, -⟩ :=
              strictValue_chain f ts v1 (Token.comma :: tl1) preV cs m1 hsv heqV hstrict chV
            obtain ⟨w2, hd2, hw2, hrx2⟩ :=
              nextToken_frame_struct m1 .comma ',' m2
                (Or.inr (Or.inr (Or.inr (Or.inr (Or.inr ⟨rfl, rfl⟩))))) hntC
            have hstrictR : ∀ t ∈ tl1, t.isStrict = true := by
              intro t ht
              apply hstrict
              rw [heqV]
              exact List.mem_append_right _ (List.mem_cons_of_mem _ ht)
            obtain ⟨QR, hdR, hlenR, hrxR, hpassR, hstopR⟩ :=
              strictItems_chain f tl1 (acc ++ [v1]) v rest preR m2 mid h heqR hstrictR htlR
            refine ⟨wV ++ PV ++ (w2 ++ ',' :: QR), ?_, ?_, ?_, ?_, ?_⟩
            · rw [hdV, hd2, hdR]
              simp
            · simp only [List.length_append, List.length_cons]
              omega
            · intro X hX
              have c1 := hrxV (w2 ++ ',' :: (QR ++ X))
                (chainDelim_wsCons w2 ',' (QR ++ X) hw2 (Or.inl rfl))
              have c1w := LexSteps.ws_prepend wV _ preV _ hwV hneV c1
              have c2 : LexSteps (w2 ++ ',' :: (QR ++ X)) (Token.comma :: preR) X :=
                LexSteps.step _ _ (QR ++ X) _ _ (hrx2 (QR ++ X)) (by simp) (hrxR X hX)
              have call := LexSteps.append c1w c2
              rw [show (wV ++ PV ++ (w2 ++ ',' :: QR)) ++ X =
                wV ++ (PV ++ (w2 ++ ',' :: (QR ++ X))) from by simp]
              exact call
            · intro d q e Y hdge
              rw [show (wV ++ PV ++ (w2 ++ ',' :: QR)) ++ Y =
                (wV ++ PV) ++ (w2 ++ ',' :: (QR ++ Y)) from by simp]
              rw [hpassV d q e (w2 ++ ',' :: (QR ++ Y)) (by omega)]
              rw [spanScan_sepChunk w2 ',' (QR ++ Y) d q false hw2
                (by decide) (by decide) (by decide) (by decide) (by decide)]
              rw [hpassR d q false Y hdge]
              simp
            · intro q e Y
              rw [show (wV ++ PV ++ (w2 ++ ',' :: QR)) ++ Y =
                (wV ++ PV) ++ (w2 ++ ',' :: (QR ++ Y)) from by simp]
              rw [hpassV 1 q e (w2 ++ ',' :: (QR ++ Y)) (le_refl 1)]
              rw [spanScan_sepChunk w2 ',' (QR ++ Y) 1 q false hw2
                (by decide) (by decide) (by decide) (by decide) (by decide)]
              rw [hstopR q false Y]
        | rbrack =>
          replace h : some (Value.arr (acc ++ [v1]), tl1) = some (v, rest) := h
          simp only [Option.some.injEq, Prod.mk.injEq] at h
          obtain ⟨hv, hr⟩ := h
          subst hv
          subst hr
          have hpre2 : pre = preV ++ [Token.rbrack] :=
            (List.append_cancel_right
              (show (preV ++ [Token.rbrack]) ++ tl1 = pre ++ tl1 from by
                rw [← hpre, heqV]; simp)).symm
          subst hpre2
          obtain ⟨m1, chV, ch2⟩ := LexSteps.decomp preV [Token.rbrack] hch
          cases ch2 with
          | step _ _ m2 _ _ hntC hneC htlR =>
            cases htlR with
            | nil =>
              obtain ⟨wV, PV, hdV, hwV, hlenV, hrxV, hpassV, -⟩ :=
                strictValue_chain f ts v1 (Token.rbrack :: tl1) preV cs m1 hsv heqV hstrict chV
              obtain ⟨w2, hd2, hw2, hrx2⟩ :=
                nextToken_frame_struct m1 .rbrack ']' mid
                  (Or.inr (Or.inr (Or.inr (Or.inl ⟨rfl, rfl⟩)))) hntC
              refine ⟨wV ++ PV ++ (w2 ++ [']']), ?_, ?_, ?_, ?_, ?_⟩
              · rw [hdV, hd2]
                simp
              · simp only [List.length_append, List.length_cons, List.length_nil]
                omega
              · intro X hX
                have c1 := hrxV (w2 ++ ']' :: X)
                  (chainDelim_wsCons w2 ']' X hw2 (Or.inr (Or.inl rfl)))
                have c1w := LexSteps.ws_prepend wV _ preV _ hwV hneV c1
                have c2 : LexSteps (w2 ++ ']' :: X) [Token.rbrack] X :=
                  LexSteps.step _ _ X _ _ (hrx2 X) (by simp) (LexSteps.nil X)
                have call := LexSteps.append c1w c2
                rw [show (wV ++ PV ++ (w2 ++ [']'])) ++ X =
                  wV ++ (PV ++ (w2 ++ ']' :: X)) from by simp]
                exact call
              · intro d q e Y hdge
                rw [show (wV ++ PV ++ (w2 ++ [']'])) ++ Y =
                  (wV ++ PV) ++ (w2 ++ ']' :: Y) from by simp]
                rw [hpassV d q e (w2 ++ ']' :: Y) (by omega)]
                rw [spanScan_closeChunkPass w2 ']' Y d q false hw2 (Or.inr rfl) hdge]
                simp
              · intro q e Y
                rw [show (wV ++ PV ++ (w2 ++ [']'])) ++ Y =
                  (wV ++ PV) ++ (w2 ++ ']' :: Y) from by simp]
                rw [hpassV 1 q e (w2 ++ ']' :: Y) (le_refl 1)]
                rw [spanScan_closeChunkStop w2 ']' Y q false hw2 (Or.inr rfl)]
        | lbrace => exact absurd h (by simp)
        | rbrace => exact absurd h (by simp)
        | lbrack => exact absurd h (by simp)
        | colon => exact absurd h (by simp)
        | str s u qc rc => exact absurd h (by simp)
        | num raw n => exact absurd h (by simp)
        | ident w => exact absurd h (by simp)
        | comment => exact absurd h (by simp)
        | eoi => exact absurd h (by simp)

/-- A strict members loop, lexed from characters, occupies a chunk that
re-lexes identically, lowers the scan depth by one across it, and stops
the depth-one scan exactly at its closing brace. -/
theorem strictMembers_chain : ∀ (f : Nat) (ts : List Token) (acc : List (String × Value))
    (v : Value) (rest pre : List Token) (cs mid : List Char),
    strictMembers f ts acc = some (v, rest) → ts = pre ++ rest →
    (∀ t ∈ ts, t.isStrict = true) → LexSteps cs pre mid →
    ∃ Q, cs = Q ++ mid ∧ pre.length ≤ Q.length ∧
      (∀ X, chainDelim X → LexSteps (Q ++ X) pre X) ∧
      (∀ (d : Nat) (q : Char) (e : Bool) (Y : List Char), 2 ≤ d →
        spanScan d false q e (Q ++ Y) = Q ++ spanScan (d - 1) false q false Y) ∧
      (∀ (q : Char) (e : Bool) (Y : List Char), spanScan 1 false q e (Q ++ Y) = Q)
  | 0, ts, acc, v, rest, pre, cs, mid, h, _, _, _ => by
    exact absurd h (by simp [strictMembers])
  | f + 1, ts, acc, v, rest, pre, cs, mid, h, hpre, hstrict, hch => by
    unfold strictMembers at h
    split at h
    · rename_i k u qc rc rest0
      have hu : u = false := by
        have hst := hstrict (Token.str k u qc rc) (List.mem_cons_self _ _)
        simp only [Token.isStrict, Bool.and_eq_true, Bool.not_eq_true'] at hst
        exact hst.1.2
      subst hu
      cases hsv : strictValue f rest0 with
      | none => rw [hsv] at h; exact absurd h (by simp)
      | some p =>
        obtain ⟨v1, ts1⟩ := p
        rw [hsv] at h
        obtain ⟨preV, hneV, heqV⟩ := strictValue_consumed f rest0 v1 ts1 hsv
        cases hts1 : ts1 with
        | nil => rw [hts1] at h; exact absurd h (by simp)
        | cons t1 tl1 =>
          rw [hts1] at h
          rw [hts1] at heqV
          rw [hts1] at hsv
          cases t1 with
          | comma =>
            replace h : strictMembers f tl1 (insertKV acc k v1) = some (v, rest) := h
            obtain ⟨preR, hneR, heqR⟩ :=
              strictMembers_consumed f tl1 (insertKV acc k v1) v rest h
            have hpre2 : pre = Token.str k false qc rc :: Token.colon ::
                (preV ++ Token.comma :: preR) :=
              (List.append_cancel_right
                (show (Token.str k false qc rc :: Token.colon ::
                    (preV ++ Token.comma :: preR)) ++ rest = pre ++ rest from by
                  rw [← hpre, heqV, heqR]; simp)).symm
            subst hpre2
            cases hch with
            | step _ _ cK _ _ hntK hneK htlK =>
              cases htlK with
              | step _ _ cC _ _ hntC hneC htlV2 =>
                obtain ⟨m1, chV, ch2⟩ := LexSteps.decomp preV (Token.comma :: preR) htlV2
                cases ch2 with
                | step _ _ m2 _ _ hntC2 hneC2 htlR =>
                  obtain ⟨wK, bK, hdK, hwK, hqK, hrxK, hspK⟩ :=
                    nextToken_frame_str cs k qc rc cK hntK
                  obtain ⟨wC, hdC, hwC, hrxC⟩ :=
                    nextToken_frame_struct cK .colon ':' cC
                      (Or.inr (Or.inr (Or.inr (Or.inr (Or.inl ⟨rfl, rfl⟩))))) hntC
                  have hstrictV : ∀ t ∈ rest0, t.isStrict = true := fun t ht =>
                    hstrict t (List.mem_cons_of_mem _ (List.mem_cons_of_mem _ ht))
                  obtain ⟨wV, PV, hdV, hwV, hlenV, hrxV, hpassV, -⟩ :=
                    strictValue_chain f rest0 v1 (Token.comma :: tl1) preV cC m1
                      hsv heqV hstrictV chV
                  obtain ⟨w2, hd2, hw2, hrx2⟩ :=
                    nextToken_frame_struct m1 .comma ',' m2
                      (Or.inr (Or.inr (Or.inr (Or.inr (Or.inr ⟨rfl, rfl⟩))))) hntC2
                  have hstrictR : ∀ t ∈ tl1, t.isStrict = true := by
                    intro t ht
                    apply hstrictV
                    rw [heqV]
                    exact List.mem_append_right _ (List.mem_cons_of_mem _ ht)
                  obtain ⟨QR, hdR, hlenR, hrxR, hpassR, hstopR⟩ :=
                    strictMembers_chain f tl1 (insertKV acc k v1) v rest preR m2 mid
                      h heqR hstrictR htlR
                  refine ⟨wK ++ (qc :: bK) ++
                    (wC ++ ':' :: (wV ++ PV ++ (w2 ++ ',' :: QR))), ?_, ?_, ?_, ?_, ?_⟩
                  · rw [hdK, hdC, hdV, hd2, hdR]
                    simp
                  · simp only [List.length_append, List.length_cons]
                    omega
                  · intro X hX
                    have cR : LexSteps (w2 ++ ',' :: (QR ++ X)) (Token.comma :: preR) X :=
                      LexSteps.step _ _ (QR ++ X) _ _ (hrx2 (QR ++ X)) (by simp) (hrxR X hX)
                    have cV := hrxV (w2 ++ ',' :: (QR ++ X))
                      (chainDelim_wsCons w2 ',' (QR ++ X) hw2 (Or.inl rfl))
                    have cVw := LexSteps.ws_prepend wV _ preV _ hwV hneV cV
                    have cVR := LexSteps.append cVw cR
                    have cC2 : LexSteps
                        (wC ++ ':' :: (wV ++ (PV ++ (w2 ++ ',' :: (QR ++ X)))))
                        (Token.colon :: (preV ++ Token.comma :: preR)) X :=
                      LexSteps.step _ _ _ _ _ (hrxC _) (by simp) cVR
                    have hK := hrxK (wC ++ ':' :: (wV ++ (PV ++ (w2 ++ ',' :: (QR ++ X)))))
                    rw [List.append_assoc, nextToken_ws_append wK _ hwK] at hK
                    have call : LexSteps
                        ((qc :: bK) ++ (wC ++ ':' :: (wV ++ (PV ++ (w2 ++ ',' :: (QR ++ X))))))
                        (Token.str k false qc rc :: Token.colon ::
                          (preV ++ Token.comma :: preR)) X :=
                      LexSteps.step _ _ _ _ _ hK (by simp) cC2
                    have callw := LexSteps.ws_prepend wK _ _ _ hwK (by simp) call
                    rw [show (wK ++ (qc :: bK) ++
                      (wC ++ ':' :: (wV ++ PV ++ (w2 ++ ',' :: QR)))) ++ X =
                      wK ++ ((qc :: bK) ++
                        (wC ++ ':' :: (wV ++ (PV ++ (w2 ++ ',' :: (QR ++ X)))))) from by simp]
                    exact callw
                  · intro d q e Y hdge
                    rw [show (wK ++ (qc :: bK) ++
                      (wC ++ ':' :: (wV ++ PV ++ (w2 ++ ',' :: QR)))) ++ Y =
                      wK ++ ((qc :: bK) ++
                        (wC ++ ':' :: ((wV ++ PV) ++ (w2 ++ ',' :: (QR ++ Y))))) from by simp]
                    rw [spanScan_ws_append wK _ d q e hwK]
                    rw [hspK d q false _]
                    rw [spanScan_sepChunk wC ':' _ d q false hwC
                      (by decide) (by decide) (by decide) (by decide) (by decide)]
                    rw [hpassV d q false _ (by omega)]
                    rw [spanScan_sepChunk w2 ',' _ d q false hw2
                      (by decide) (by decide) (by decide) (by decide) (by decide)]
                    rw [hpassR d q false Y hdge]
                    simp
                  · intro q e Y
                    rw [show (wK ++ (qc :: bK) ++
                      (wC ++ ':' :: (wV ++ PV ++ (w2 ++ ',' :: QR)))) ++ Y =
                      wK ++ ((qc :: bK) ++
                        (wC ++ ':' :: ((wV ++ PV) ++ (w2 ++ ',' :: (QR ++ Y))))) from by simp]
                    rw [spanScan_ws_append wK _ 1 q e hwK]
                    rw [hspK 1 q false _]
                    rw [spanScan_sepChunk wC ':' _ 1 q false hwC
                      (by decide) (by decide) (by decide) (by decide) (by decide)]
                    rw [hpassV 1 q false _ (le_refl 1)]
                    rw [spanScan_sepChunk w2 ',' _ 1 q false hw2
                      (by decide) (by decide) (by decide) (by decide) (by decide)]
                    rw [hstopR q false Y]
                    simp
          | rbrace =>
            replace h : some (Value.obj (insertKV acc k v1), tl1) = some (v, rest) := h
            simp only [Option.some.injEq, Prod.mk.injEq] at h
            obtain ⟨hv, hr⟩ := h
            subst hv
            subst hr
            have hpre2 : pre = Token.str k false qc rc :: Token.colon ::
                (preV ++ [Token.rbrace]) :=
              (List.append_cancel_right
                (show (Token.str k false qc rc :: Token.colon ::
                    (preV ++ [Token.rbrace])) ++ tl1 = pre ++ tl1 from by
                  rw [← hpre, heqV]; simp)).symm
            subst hpre2
            cases hch with
            | step _ _ cK _ _ hntK hneK htlK =>
              cases htlK with
              | step _ _ cC _ _ hntC hneC htlV2 =>
                obtain ⟨m1, chV, ch2⟩ := LexSteps.decomp preV [Token.rbrace] htlV2
                cases ch2 with
                | step _ _ m2 _ _ hntC2 hneC2 htlR =>
                  cases htlR with
                  | nil =>
                    obtain ⟨wK, bK, hdK, hwK, hqK, hrxK, hspK⟩ :=
                      nextToken_frame_str cs k qc rc cK hntK
                    obtain ⟨wC, hdC, hwC, hrxC⟩ :=
                      nextToken_frame_struct cK .colon ':' cC
                        (Or.inr (Or.inr (Or.inr (Or.inr (Or.inl ⟨rfl, rfl⟩))))) hntC
                    have hstrictV : ∀ t ∈ rest0, t.isStrict = true := fun t ht =>
                      hstrict t (List.mem_cons_of_mem _ (List.mem_cons_of_mem _ ht))
                    obtain ⟨wV, PV, hdV, hwV, hlenV, hrxV, hpassV, -⟩ :=
                      strictValue_chain f rest0 v1 (Token.rbrace :: tl1) preV cC m1
                        hsv heqV hstrictV chV
                    obtain ⟨w2, hd2, hw2, hrx2⟩ :=
                      nextToken_frame_struct m1 .rbrace rbraceC mid
                        (Or.inr (Or.inl ⟨rfl, rfl⟩)) hntC2
                    refine ⟨wK ++ (qc :: bK) ++
                      (wC ++ ':' :: (wV ++ PV ++ (w2 ++ [rbraceC]))), ?_, ?_, ?_, ?_, ?_⟩
                    · rw [hdK, hdC, hdV, hd2]
                      simp
                    · simp only [List.length_append, List.length_cons, List.length_nil]
                      omega
                    · intro X hX
                      have cR : LexSteps (w2 ++ rbraceC :: X) [Token.rbrace] X :=
                        LexSteps.step _ _ X _ _ (hrx2 X) (by simp) (LexSteps.nil X)
                      have cV := hrxV (w2 ++ rbraceC :: X)
                        (chainDelim_wsCons w2 rbraceC X hw2 (Or.inr (Or.inr (Or.inl rfl))))
                      have cVw := LexSteps.ws_prepend wV _ preV _ hwV hneV cV
                      have cVR := LexSteps.append cVw cR
                      have cC2 : LexSteps
                          (wC ++ ':' :: (wV ++ (PV ++ (w2 ++ rbraceC :: X))))
                          (Token.colon :: (preV ++ [Token.rbrace])) X :=
                        LexSteps.step _ _ _ _ _ (hrxC _) (by simp) cVR
                      have hK := hrxK (wC ++ ':' :: (wV ++ (PV ++ (w2 ++ rbraceC :: X))))
                      rw [List.append_assoc, nextToken_ws_append wK _ hwK] at hK
                      have call : LexSteps
                          ((qc :: bK) ++ (wC ++ ':' :: (wV ++ (PV ++ (w2 ++ rbraceC :: X)))))
                          (Token.str k false qc rc :: Token.colon ::
                            (preV ++ [Token.rbrace])) X :=
                        LexSteps.step _ _ _ _ _ hK (by simp) cC2
                      have callw := LexSteps.ws_prepend wK _ _ _ hwK (by simp) call
                      rw [show (wK ++ (qc :: bK) ++
                        (wC ++ ':' :: (wV ++ PV ++ (w2 ++ [rbraceC])))) ++ X =
                        wK ++ ((qc :: bK) ++
                          (wC ++ ':' :: (wV ++ (PV ++ (w2 ++ rbraceC :: X))))) from by simp]
                      exact callw
                    · intro d q e Y hdge
                      rw [show (wK ++ (qc :: bK) ++
                        (wC ++ ':' :: (wV ++ PV ++ (w2 ++ [rbraceC])))) ++ Y =
                        wK ++ ((qc :: bK) ++
                          (wC ++ ':' :: ((wV ++ PV) ++ (w2 ++ rbraceC :: Y)))) from by simp]
                      rw [spanScan_ws_append wK _ d q e hwK]
                      rw [hspK d q false _]
                      rw [spanScan_sepChunk wC ':' _ d q false hwC
                        (by decide) (by decide) (by decide) (by decide) (by decide)]
                      rw [hpassV d q false _ (by omega)]
                      rw [spanScan_closeChunkPass w2 rbraceC Y d q false hw2
                        (Or.inl rfl) hdge]
                      simp
                    · intro q e Y
                      rw [show (wK ++ (qc :: bK) ++
                        (wC ++ ':' :: (wV ++ PV ++ (w2 ++ [rbraceC])))) ++ Y =
                        wK ++ ((qc :: bK) ++
                          (wC ++ ':' :: ((wV ++ PV) ++ (w2 ++ rbraceC :: Y)))) from by simp]
                      rw [spanScan_ws_append wK _ 1 q e hwK]
                      rw [hspK 1 q false _]
                      rw [spanScan_sepChunk wC ':' _ 1 q false hwC
                        (by decide) (by decide) (by decide) (by decide) (by decide)]
                      rw [hpassV 1 q false _ (le_refl 1)]
                      rw [spanScan_closeChunkStop w2 rbraceC Y q false hw2 (Or.inl rfl)]
                      simp
          | lbrace => exact absurd h (by simp)
          | rbrack => exact absurd h (by simp)
          | lbrack => exact absurd h (by simp)
          | colon => exact absurd h (by simp)
          | str s2 u2 qc2 rc2 => exact absurd h (by simp)
          | num raw n => exact absurd h (by simp)
          | ident w => exact absurd h (by simp)
          | comment => exact absurd h (by simp)
          | eoi => exact absurd h (by simp)
    · exact absurd h (by simp)

end


/-- Computing `repair_json` from a tokenization and a parse of the span. -/
theorem repair_json_eq (s : String) (ts : List Token) (v : Value) (r : List Token)
    (h1 : tokenize (extractSpan s.data) = .ok ts)
    (h2 : parseValue (2 * ts.length + 2) ts = .ok (v, r)) :
    repair_json s = .ok v := by
  simp only [repair_json, h1, h2]

/-- C1 (amended): on an input that is already strictly valid JSON,
`repair_json` returns exactly the standard JSON parse whenever that parse
is an object or an array, or the input text contains no opening brace or
bracket character at all. (The unrestricted fidelity law fails: a strictly
valid top-level string literal containing an opening bracket derails the
boundary extractor — see the counterexample.) -/
theorem C1_fidelity_amended (s : String) (v : Value)
    (h : strictJsonParse s = some v)
    (hcond : v.isContainer = true ∨ hasOpenChar s.data = false) :
    repair_json s = .ok v := by
  unfold strictJsonParse at h
  cases hraw : tokenizeRaw (s.data.length + 1) s.data with
  | error e => rw [hraw] at h; exact absurd h (by simp)
  | ok raw =>
    rw [hraw] at h
    replace h : (if raw.all Token.isStrict = true then
        (match strictValue (2 * raw.length + 2) raw with
         | some (v0, [Token.eoi]) => some v0
         | _ => none)
      else none) = some v := h
    by_cases hstr : raw.all Token.isStrict = true
    · rw [if_pos hstr] at h
      cases hsv : strictValue (2 * raw.length + 2) raw with
      | none => rw [hsv] at h; exact absurd h (by simp)
      | some p =>
        obtain ⟨v0, rest0⟩ := p
        rw [hsv] at h
        obtain ⟨hrest, hv0⟩ : rest0 = [Token.eoi] ∧ v0 = v := by
          cases rest0 with
          | nil => exact Option.noConfusion (show (none : Option Value) = some v from h)
          | cons t rtl =>
            cases t <;>
              first
              | (cases rtl with
                 | nil => exact ⟨rfl, Option.some.inj (show some v0 = some v from h)⟩
                 | cons t2 rtl2 =>
                   exact Option.noConfusion (show (none : Option Value) = some v from h))
              | exact Option.noConfusion (show (none : Option Value) = some v from h)
        subst hrest
        subst hv0
        obtain ⟨ts, cs2, hrts, hsteps, hend⟩ := tokenizeRaw_inv _ _ _ hraw
        obtain ⟨pre, hpreNe, hpreEq⟩ := strictValue_consumed _ _ _ _ hsv
        have hts : ts = pre := List.append_cancel_right (by rw [← hrts, ← hpreEq])
        subst hts
        have hstrict2 : ∀ t ∈ raw, t.isStrict = true := fun t ht =>
          List.all_eq_true.mp hstr t ht
        have hfilter : (ts ++ [Token.eoi]).filter (fun t => !t.isComment) =
            ts ++ [Token.eoi] := by
          apply List.filter_eq_self.mpr
          intro t ht
          rcases List.mem_append.mp ht with hL | hR
          · rw [isStrict_not_comment t
              (hstrict2 t (by rw [hpreEq]; exact List.mem_append_left _ hL))]
            rfl
          · simp only [List.mem_singleton] at hR
            subst hR
            rfl
        have hparse : parseValue (2 * (ts ++ [Token.eoi]).length + 2)
            (ts ++ [Token.eoi]) = .ok (v0, [Token.eoi]) := by
          rw [← hpreEq]
          exact strictValue_parseValue _ raw v0 [Token.eoi] _ hsv (by omega)
        rcases hcond with hcont | hnoopen
        · obtain ⟨w, P, hdec, hw, hlen, hrx, hpass, hcontc⟩ :=
            strictValue_chain (2 * raw.length + 2) raw v0 [Token.eoi] ts s.data cs2
              hsv hpreEq hstrict2 hsteps
          obtain ⟨op, Pin, hP, hop, hstop⟩ := hcontc hcont
          have hsdata : s.data = w ++ (op :: (Pin ++ cs2)) := by
            rw [hdec, hP]
            simp
          have hfind : findOpen s.data = some (op :: (Pin ++ cs2)):= by
            rw [hsdata, findOpen_ws_append w _ hw]
            rw [show findOpen (op :: (Pin ++ cs2)) =
              (if op = lbraceC || op = '[' then some (op :: (Pin ++ cs2))
               else findOpen (Pin ++ cs2)) from rfl]
            rw [if_pos (by rcases hop with rfl | rfl <;> simp)]
          have hspan : extractSpan s.data = op :: Pin := by
            have e1 : extractSpan s.data = op :: spanScan 1 false '"' false (Pin ++ cs2) := by
              unfold extractSpan
              rw [hfind]
            rw [e1, hstop '"' false cs2]
          have hchainP : LexSteps (op :: Pin) ts [] := by
            have c := hrx [] trivial
            rwa [List.append_nil, hP] at c
          have htokRaw : tokenizeRaw ((op :: Pin).length + 1) (op :: Pin) =
              .ok (ts ++ [Token.eoi]) := by
            refine lexSteps_tokenizeRaw hchainP rfl _ ?_
            have h2 := hlen
            rw [hP] at h2
            simpa using Nat.add_le_add_right h2 1
          have htok : tokenize (op :: Pin) = .ok (ts ++ [Token.eoi]) := by
            unfold tokenize
            rw [htokRaw]
            show Except.ok (List.filter (fun t => !t.isComment) (ts ++ [Token.eoi])) =
              Except.ok (ts ++ [Token.eoi])
            rw [hfilter]
          refine repair_json_eq s (ts ++ [Token.eoi]) v0 [Token.eoi] ?_ hparse
          rw [hspan]
          exact htok
        · have hspan : extractSpan s.data = s.data := extractSpan_no_open s.data hnoopen
          have htok : tokenize s.data = .ok (ts ++ [Token.eoi]) := by
            unfold tokenize
            rw [hraw, hpreEq]
            show Except.ok (List.filter (fun t => !t.isComment) (ts ++ [Token.eoi])) =
              Except.ok (ts ++ [Token.eoi])
            rw [hfilter]
          refine repair_json_eq s (ts ++ [Token.eoi]) v0 [Token.eoi] ?_ hparse
          rw [hspan]
          exact htok
    · rw [if_neg hstr] at h
      exact absurd h (by simp)

/-- C1 witness: the strictly valid input `[1, 2]` parses to the array
`[1, 2]`, a container, and `repair_json` returns exactly that parse. -/
theorem C1_fidelity_amended_witness :
    strictJsonParse "[1, 2]" =
      some (Value.arr [Value.num (JNum.int 1), Value.num (JNum.int 2)]) ∧
    (Value.arr [Value.num (JNum.int 1), Value.num (JNum.int 2)]).isContainer = true ∧
    repair_json "[1, 2]" =
      .ok (Value.arr [Value.num (JNum.int 1), Value.num (JNum.int 2)]) :=
  ⟨rfl, rfl, C1_fidelity_amended "[1, 2]"
    (Value.arr [Value.num (JNum.int 1), Value.num (JNum.int 2)]) rfl (Or.inl rfl)⟩

end LlmJsonUtils
